import Mathlib

/-!
# coronoi: an animated discrete Voronoi diagram (`src/main.c`)

A shallow embedding of the raster primitives, the two Voronoi assigners, the
motion loop and the PPM export of `main.c`, followed by theorems about them.

Modelling conventions.

* `int` values are integers of `ℤ`; the result of every `int` operation of the
  source is passed through `wrap32` (two's complement wrap-around), so that the
  model is defined on every input.  Where a theorem speaks of the mathematical
  value of a distance it carries bounds under which no operation wraps.
* `float` values are the rationals `m * 2 ^ e` with `|m| < 2 ^ 24` and `-149 ≤ e`
  (`is_binary32`), the finite values of IEEE-754 binary32; a `Vector2` carries the
  proof that its components are results of `round32`, which are these values
  (`is_float_iff`).  Every `float` operation of the source (`+`, `-`, `*`, `/`,
  conversion of an `int`) is the exact operation followed by `round32`, rounding to
  nearest with ties to even.  Infinities and NaN are not modelled: the exponent has no
  upper bound.  Conversion of a `float` to `int` truncates toward zero (`c_trunc`); a
  value outside the range of `int` converts to `INT_MIN`, the result of the x86-64
  conversion instruction.
* The global arrays `image` and `depth` are functions of the row `y` and the
  column `x`; every array access goes through `Grid.read` / `Grid.write`, which
  fail (`none`) on an index outside `HEIGHT x WIDTH`.
* A counting loop `for (i = a; i < a + n; ++i)` is `for_count body n a`.  A loop
  `for (int i = a; i <= b; ++i)` is `for_upto body a b`: when `b` is `INT_MAX` its
  test never fails and the loop does not return.  A result `none` stands for a run
  that does not complete: an array access outside the array, a failed assertion or a
  loop that cannot exit.  The array dimensions and the seed count are irreducible
  constants, so that no proof unrolls a loop over the pixels; their values are exposed
  by `WIDTH_eq`, `HEIGHT_eq` and `SEEDS_COUNT_eq`.
* The results of `rand()`, the constants `RAND_MAX` and `PI` and the functions `cosf` and
  `sinf` are parameters of `generate_random_seeds` (`Libc`); a failing `assert` is `none`.
-/

namespace Coronoi

/-! ## Constants -/

@[irreducible] def WIDTH : Nat := 800
@[irreducible] def HEIGHT : Nat := 600
@[irreducible] def SEEDS_COUNT : Nat := 20
def INT_MAX : Int := 2147483647

/-- A `uint32_t` colour, packed as `0xAABBGGRR`. -/
abbrev Color32 := Nat

def COLOR_BLACK : Color32 := 0xFF000000
def GRUVBOX_BRIGHT_RED : Color32 := 0xFF3449FB
def GRUVBOX_BRIGHT_GREEN : Color32 := 0xFF26BBB8
def GRUVBOX_BRIGHT_YELLOW : Color32 := 0xFF2FBDFA
def GRUVBOX_BRIGHT_BLUE : Color32 := 0xFF98A583
def GRUVBOX_BRIGHT_PURPLE : Color32 := 0xFF9B86D3
def GRUVBOX_BRIGHT_AQUA : Color32 := 0xFF7CC08E
def GRUVBOX_BRIGHT_ORANGE : Color32 := 0xFF1980FE
def BACKGROUND_COLOR : Color32 := 0xFF181818
def SEED_MARKER_RADIUS : Int := 5
def SEED_MARKER_COLOR : Color32 := COLOR_BLACK

def palette : List Color32 :=
  [GRUVBOX_BRIGHT_RED, GRUVBOX_BRIGHT_GREEN, GRUVBOX_BRIGHT_YELLOW,
   GRUVBOX_BRIGHT_BLUE, GRUVBOX_BRIGHT_PURPLE, GRUVBOX_BRIGHT_AQUA,
   GRUVBOX_BRIGHT_ORANGE]

def palette_count : Nat := palette.length

/-- The array access `palette[i % palette_count]`. -/
def palette_at (i : Nat) : Color32 :=
  palette.get ⟨i % palette_count, Nat.mod_lt i (by decide)⟩

/-- Bits 24-31 of a packed colour. -/
def alpha_of (c : Color32) : Nat := c / 2 ^ 24 % 256

/-! ## Machine arithmetic -/

/-- Reduction of an integer to the range of a 32-bit `int`. -/
def wrap32 (v : Int) : Int := (v + 2147483648) % 4294967296 - 2147483648

/-- Truncation toward zero, the rounding of a C conversion from `float` to `int`. -/
def c_trunc (q : ℚ) : Int := if 0 ≤ q then ⌊q⌋ else ⌈q⌉

/-- Conversion of a `float` to `int`: truncation toward zero; a value outside the range of
`int` gives `INT_MIN`, as the conversion instruction of x86-64 does. -/
def float_to_int (q : ℚ) : Int :=
  if -2147483648 ≤ c_trunc q ∧ c_trunc q ≤ 2147483647 then c_trunc q else -2147483648

/-! ## Binary32 arithmetic -/

/-- Rounding of a rational to the nearest integer, ties to the even one. -/
def round_even (r : ℚ) : Int :=
  if r - ⌊r⌋ < 1 / 2 then ⌊r⌋
  else if 1 / 2 < r - ⌊r⌋ then ⌊r⌋ + 1
  else if ⌊r⌋ % 2 = 0 then ⌊r⌋ else ⌊r⌋ + 1

/-- The exponent of the unit in the last place of the binary32 values in the binade of `q`:
`q` lies in `[2 ^ e, 2 ^ (e + 1))` with `e` at least `-126` (below, the subnormal spacing
`2 ^ -149` applies), and the significand has 24 bits. -/
def ulp_exp (q : ℚ) : Int := max (Int.log 2 |q|) (-126) - 23

/-- Rounding of a real result to binary32: to the nearest multiple of the unit in the last
place, ties to even. -/
def round32 (q : ℚ) : ℚ := (round_even (q / 2 ^ ulp_exp q) : ℚ) * 2 ^ ulp_exp q

/-- The rational is a finite binary32 value: a 24-bit significand times a power of two not
below the subnormal spacing. -/
def is_binary32 (q : ℚ) : Prop :=
  ∃ m e : Int, |m| < 2 ^ 24 ∧ -149 ≤ e ∧ q = (m : ℚ) * 2 ^ e

/-- The rational is the result of a rounding to binary32. -/
def is_float (q : ℚ) : Prop := ∃ r : ℚ, q = round32 r

def float_add (a b : ℚ) : ℚ := round32 (a + b)

def float_sub (a b : ℚ) : ℚ := round32 (a - b)

def float_mul (a b : ℚ) : ℚ := round32 (a * b)

def float_div (a b : ℚ) : ℚ := round32 (a / b)

/-- Conversion of an `int` to `float`. -/
def int_to_float (n : Int) : ℚ := round32 (n : ℚ)

/-! ## Arrays and loops -/

/-- A two-dimensional array indexed `[y][x]`. -/
abbrev Grid (α : Type) := Int → Int → α

/-- The index `[y][x]` lies inside a `HEIGHT x WIDTH` array. -/
def in_bounds (y x : Int) : Prop := 0 ≤ y ∧ y < HEIGHT ∧ 0 ≤ x ∧ x < WIDTH

instance (y x : Int) : Decidable (in_bounds y x) := by
  unfold in_bounds; exact inferInstance

/-- The read `g[y][x]`; fails outside the array. -/
def Grid.read {α : Type} (g : Grid α) (y x : Int) : Option α :=
  if in_bounds y x then some (g y x) else none

/-- The write `g[y][x] = v`; fails outside the array. -/
def Grid.write {α : Type} (g : Grid α) (y x : Int) (v : α) : Option (Grid α) :=
  if in_bounds y x then some (fun y' x' => if y' = y ∧ x' = x then v else g y' x')
  else none

/-- The loop `for (i = start; i < start + n; ++i) body`, threading the state. -/
def for_count {σ : Type} (body : Int → σ → Option σ) : Nat → Int → σ → Option σ
  | 0, _, s => some s
  | n + 1, i, s => (body i s).bind (for_count body n (i + 1))

/-- The loop `for (int i = lo; i <= hi; ++i) body`.  With `hi = INT_MAX` the test `i <= hi`
holds of every `int`, so the loop does not return. -/
def for_upto {σ : Type} (body : Int → σ → Option σ) (lo hi : Int) (s : σ) : Option σ :=
  if hi = INT_MAX then none else for_count body (hi + 1 - lo).toNat lo s

/-- The two global pixel arrays. -/
structure Raster where
  image : Grid Color32
  depth : Grid Int

/-- A raylib `Vector2`: two `float` components. -/
structure Vector2 where
  x : ℚ
  y : ℚ
  x_rep : is_float x
  y_rep : is_float y

/-- The `Vector2` whose components are the binary32 values nearest to `a` and `b`. -/
def Vector2.of (a b : ℚ) : Vector2 :=
  { x := round32 a, y := round32 b, x_rep := ⟨a, rfl⟩, y_rep := ⟨b, rfl⟩ }

/-! ## Raster primitives -/

def fill_image (color : Color32) (image : Grid Color32) : Option (Grid Color32) :=
  for_count (fun y image =>
    for_count (fun x image => image.write y x color) WIDTH 0 image) HEIGHT 0 image

def sqr_dist (x1 y1 x2 y2 : Int) : Int :=
  let dx := wrap32 (x1 - x2)
  let dy := wrap32 (y1 - y2)
  wrap32 (wrap32 (dx * dx) + wrap32 (dy * dy))

/-- The body of the inner loop of `fill_circle` for the loop counters `x` and `y`. -/
def fill_circle_pixel (cx cy radius : Int) (color : Color32) (x y : Int)
    (image : Grid Color32) : Option (Grid Color32) :=
  if 0 ≤ y ∧ y < HEIGHT then
    if sqr_dist cx cy x y ≤ wrap32 (radius * radius) then
      image.write y x color
    else some image
  else some image

def fill_circle (cx cy radius : Int) (color : Color32) (image : Grid Color32) :
    Option (Grid Color32) :=
  let x0 := wrap32 (cx - radius)
  let y0 := wrap32 (cy - radius)
  let x1 := wrap32 (cx + radius)
  let y1 := wrap32 (cy + radius)
  for_upto (fun x image =>
    if 0 ≤ x ∧ x < WIDTH then
      for_upto (fun y image => fill_circle_pixel cx cy radius color x y image) y0 y1 image
    else some image) x0 x1 image

/-- The three bytes `save_image_as_ppm` writes for one pixel. -/
def ppm_bytes (pixel : Color32) : List Nat :=
  [((pixel &&& 0x0000FF) >>> (8 * 0)) % 256,
   ((pixel &&& 0x00FF00) >>> (8 * 1)) % 256,
   ((pixel &&& 0xFF0000) >>> (8 * 2)) % 256]

/-- The bytes of `fprintf(f, "P6\n%d %d 255\n", WIDTH, HEIGHT)`. -/
def ppm_header : List Nat :=
  ("P6\n" ++ toString WIDTH ++ " " ++ toString HEIGHT ++ " 255\n").toList.map Char.toNat

/-- The byte stream written to the file; `none` when `fopen` fails (the program exits). -/
def save_image_as_ppm (fopen_ok : Bool) (image : Grid Color32) : Option (List Nat) :=
  if fopen_ok then
    for_count (fun y out =>
      for_count (fun x out =>
        (image.read y x).bind fun pixel => some (out ++ ppm_bytes pixel))
        WIDTH 0 out) HEIGHT 0 ppm_header
  else none

/-! ## Seeds and the Voronoi assigners -/

def render_seed_markers (seed_positions : Nat → Vector2) (image : Grid Color32) :
    Option (Grid Color32) :=
  for_count (fun i image =>
    fill_circle (float_to_int (seed_positions i.toNat).x)
      (float_to_int (seed_positions i.toNat).y) SEED_MARKER_RADIUS SEED_MARKER_COLOR image)
    SEEDS_COUNT 0 image

/-- The value `sqr_dist(seed_positions[i].x, seed_positions[i].y, x, y)` of the scan. -/
def naive_dist (seed_positions : Nat → Vector2) (i : Nat) (x y : Int) : Int :=
  sqr_dist (float_to_int (seed_positions i).x) (float_to_int (seed_positions i).y) x y

/-- The inner loop of `render_voronoi_naive`: the index `j` after the scan of seeds `1 ..`. -/
def naive_scan (seed_positions : Nat → Vector2) (x y : Int) : Option Int :=
  for_count (fun i j =>
    if naive_dist seed_positions i.toNat x y < naive_dist seed_positions j.toNat x y
    then some i else some j) (SEEDS_COUNT - 1) 1 0

def render_voronoi_naive (seed_positions : Nat → Vector2) (image : Grid Color32) :
    Option (Grid Color32) :=
  for_count (fun y image =>
    for_count (fun x image =>
      (naive_scan seed_positions x y).bind fun j =>
        image.write y x (palette_at j.toNat)) WIDTH 0 image) HEIGHT 0 image

/-- The value `d` that `apply_next_seed` computes for the seed `seed` at the pixel `(x, y)`. -/
def seed_dist (seed : Vector2) (x y : Int) : Int :=
  let dx := float_to_int (float_sub (int_to_float x) seed.x)
  let dy := float_to_int (float_sub (int_to_float y) seed.y)
  wrap32 (wrap32 (dx * dx) + wrap32 (dy * dy))

def apply_next_seed (seed_positions : Nat → Vector2) (seed_index : Nat) (r : Raster) :
    Option Raster :=
  let seed := seed_positions seed_index
  let color := palette_at seed_index
  for_count (fun y r =>
    for_count (fun x r =>
      let d := seed_dist seed x y
      (r.depth.read y x).bind fun old =>
        if d < old then
          (r.depth.write y x d).bind fun depth =>
            (r.image.write y x color).bind fun image =>
              some { image := image, depth := depth }
        else some r) WIDTH 0 r) HEIGHT 0 r

/-- The first loop of `render_voronoi_interesting`: every `depth[y][x]` becomes `INT_MAX`. -/
def reset_depth (r : Raster) : Option Raster :=
  (for_count (fun y depth =>
    for_count (fun x depth => depth.write y x INT_MAX) WIDTH 0 depth) HEIGHT 0 r.depth).bind
    fun depth => some { r with depth := depth }

/-- The second loop of `render_voronoi_interesting`, run for the seeds `0 .. n - 1`. -/
def apply_seeds (seed_positions : Nat → Vector2) (n : Nat) (r : Raster) : Option Raster :=
  for_count (fun i r => apply_next_seed seed_positions i.toNat r) n 0 r

def render_voronoi_interesting (seed_positions : Nat → Vector2) (r : Raster) :
    Option Raster :=
  (reset_depth r).bind (apply_seeds seed_positions SEEDS_COUNT)

/-! ## The main loop -/

/-- The seed arrays `seed_positions` and `seed_velocities`. -/
structure SeedState where
  positions : Nat → Vector2
  velocities : Nat → Vector2

/-- The body of the motion loop of `main` for the seed `i`. -/
def move_seed (s : SeedState) (i : Nat) : SeedState :=
  let x := float_add (s.positions i).x (s.velocities i).x
  let s : SeedState :=
    if 0 ≤ x ∧ x ≤ int_to_float WIDTH then
      { s with positions :=
          Function.update s.positions i { s.positions i with x := x, x_rep := ⟨_, rfl⟩ } }
    else
      { s with velocities := Function.update s.velocities i
                { s.velocities i with
                  x := float_mul (s.velocities i).x (int_to_float (-1)), x_rep := ⟨_, rfl⟩ } }
  let y := float_add (s.positions i).y (s.velocities i).y
  if 0 ≤ y ∧ y ≤ int_to_float HEIGHT then
    { s with positions :=
        Function.update s.positions i { s.positions i with y := y, y_rep := ⟨_, rfl⟩ } }
  else
    { s with velocities := Function.update s.velocities i
              { s.velocities i with
                y := float_mul (s.velocities i).y (int_to_float (-1)), y_rep := ⟨_, rfl⟩ } }

/-- The motion loop of `main`: one tick of every seed. -/
def move_seeds (s : SeedState) : SeedState :=
  (List.range SEEDS_COUNT).foldl move_seed s

/-- The rendering sequence of one frame of `main`. -/
def render_frame (seed_positions : Nat → Vector2) (r : Raster) : Option Raster :=
  (fill_image BACKGROUND_COLOR r.image).bind fun image =>
    (render_voronoi_interesting seed_positions { r with image := image }).bind fun r =>
      (render_seed_markers seed_positions r.image).bind fun image =>
        some { r with image := image }

/-! ## Seed initialisation -/

/-- What `generate_random_seeds` takes from the C library and raylib: the successive results of
`rand()`, the constant `RAND_MAX`, the functions `cosf` and `sinf`, and the constant `PI`. -/
structure Libc where
  rand : Nat → Nat
  RAND_MAX : Nat
  cosf : ℚ → ℚ
  sinf : ℚ → ℚ
  PI : ℚ

/-- The value `(float)rand() / RAND_MAX` for the draw `r` of `rand()`. -/
def rand_float (c : Libc) (r : Nat) : ℚ :=
  float_div (int_to_float r) (int_to_float c.RAND_MAX)

def lerpf (a b t : ℚ) : ℚ := float_add a (float_mul (float_sub b a) t)

/-- The loop body of `generate_random_seeds` for the seed `i`; it consumes four draws. -/
def generate_seed (c : Libc) (s : SeedState) (i : Nat) : SeedState :=
  let x : ℚ := int_to_float ((c.rand (4 * i) % WIDTH : Nat) : Int)
  let y : ℚ := int_to_float ((c.rand (4 * i + 1) % HEIGHT : Nat) : Int)
  let angle := float_mul (float_mul (rand_float c (c.rand (4 * i + 2))) (int_to_float 2)) c.PI
  let mag := lerpf (int_to_float 10) (int_to_float 20) (rand_float c (c.rand (4 * i + 3)))
  { positions := Function.update s.positions i
      { x := x, y := y, x_rep := ⟨_, rfl⟩, y_rep := ⟨_, rfl⟩ },
    velocities := Function.update s.velocities i
      { x := float_mul (c.cosf angle) mag, y := float_mul (c.sinf angle) mag,
        x_rep := ⟨_, rfl⟩, y_rep := ⟨_, rfl⟩ } }

def generate_random_seeds (c : Libc) (s : SeedState) : SeedState :=
  (List.range SEEDS_COUNT).foldl (generate_seed c) s

/-! ## Packing a point into a colour -/

structure Point where
  x : Int
  y : Int

def UINT16_MAX : Int := 65535

/-- The function `point_to_color`; `none` when an assertion fails.  The result is the bit
pattern of `(y << 16) | x`, with `x` and `y` the `uint16_t` conversions of the coordinates,
read as a `uint32_t`. -/
def point_to_color (p : Point) : Option Color32 :=
  if p.x ≥ 0 ∧ p.y ≥ 0 ∧ p.x < UINT16_MAX ∧ p.y < UINT16_MAX then
    let x : Nat := (p.x % 65536).toNat
    let y : Nat := (p.y % 65536).toNat
    some (((y <<< 16) ||| x) % 2 ^ 32)
  else none

def color_to_point (c : Color32) : Point :=
  { x := wrap32 (((c &&& 0x0000FFFF) >>> 0 : Nat) : Int),
    y := wrap32 (((c &&& 0xFFFF0000) >>> 16 : Nat) : Int) }

/-! ## Vocabulary of the statements -/

/-- State of a pixel after the passes of the seeds `0 .. n - 1`, in terms of the distances
`seed_dist` the passes compute: the depth is a lower bound of all of them and, once a seed
has been applied, image and depth are those of the first seed that attains the minimum. -/
def pass_state (seed_positions : Nat → Vector2) (image0 : Grid Color32) (n : Int)
    (r : Raster) : Prop :=
  ∀ y x, in_bounds y x →
    (∀ i : Nat, (i : Int) < n → r.depth y x ≤ seed_dist (seed_positions i) x y) ∧
    ((n = 0 ∧ r.depth y x = INT_MAX ∧ r.image y x = image0 y x) ∨
      ∃ k : Nat, (k : Int) < n ∧ r.depth y x = seed_dist (seed_positions k) x y ∧
        r.image y x = palette_at k ∧
        ∀ i : Nat, i < k → seed_dist (seed_positions k) x y < seed_dist (seed_positions i) x y)

/-- The seed lies in the rectangle `[0, WIDTH] x [0, HEIGHT]` the motion loop keeps it in. -/
def seed_in_range (s : Vector2) : Prop :=
  0 ≤ s.x ∧ s.x ≤ (WIDTH : ℚ) ∧ 0 ≤ s.y ∧ s.y ≤ (HEIGHT : ℚ)

/-- The squared distance with each coordinate difference, a binary32 value, truncated toward
zero. -/
def trunc_diff_dist (s : Vector2) (x y : Int) : Int :=
  c_trunc (float_sub (x : ℚ) s.x) ^ 2 + c_trunc (float_sub (y : ℚ) s.y) ^ 2

/-- The squared distance to the seed position with its coordinates truncated to integers. -/
def trunc_coord_dist (s : Vector2) (x y : Int) : Int :=
  (x - c_trunc s.x) ^ 2 + (y - c_trunc s.y) ^ 2

/-- Both coordinates of the seed are integers. -/
def seed_integral (s : Vector2) : Prop :=
  (∃ n : Int, s.x = (n : ℚ)) ∧ ∃ m : Int, s.y = (m : ℚ)

/-- Seed 0 at `(0.5, 0)`, every other seed at `(1, 0)`. -/
def seeds_half : Nat → Vector2 :=
  fun i => if i = 0 then Vector2.of (1 / 2) 0 else Vector2.of 1 0

/-- The arrays of a freshly started program (static storage is zeroed). -/
def raster_zero : Raster := { image := fun _ _ => 0, depth := fun _ _ => 0 }

/-- Every seed at the integer position `(3, 4)`. -/
def seeds_int : Nat → Vector2 := fun _ => Vector2.of 3 4

/-- The concatenation `f 0 ++ f 1 ++ ... ++ f (n - 1)`. -/
def concat_range {α : Type} (f : Nat → List α) : Nat → List α
  | 0 => []
  | n + 1 => concat_range f n ++ f n

/-- The body of the file: the pixel records in row-major order. -/
def ppm_body (image : Grid Color32) : List Nat :=
  concat_range (fun y => concat_range (fun x => ppm_bytes (image y x)) WIDTH) HEIGHT

/-- The seed sits on the pixel `(a, b)` of the grid. -/
def seed_on_pixel (s : Vector2) (a b : Int) : Prop :=
  s.x = (a : ℚ) ∧ s.y = (b : ℚ) ∧ in_bounds b a

/-- Seed 0 at `(0, 0)`, every other seed at `(9, 9)`. -/
def seeds_corner : Nat → Vector2 :=
  fun i => if i = 0 then Vector2.of 0 0 else Vector2.of 9 9

/-- The state after `n` iterations of the motion loop of `main`. -/
def ticks (n : Nat) (s : SeedState) : SeedState := move_seeds^[n] s

/-- The squared distance from the pixel `(x, y)` to the position `(cx, cy)`. -/
def sq_dist_to (cx cy x y : Int) : Int := (x - cx) ^ 2 + (y - cy) ^ 2

/-- Every seed at `(10.75, 10)`. -/
def seeds_frac : Nat → Vector2 := fun _ => Vector2.of (43 / 4) 10

/-- Seed 0 at `(2 ^ -20, 0)`, every other seed at `(0.5, 0)`. -/
def seeds_tiny : Nat → Vector2 :=
  fun i => if i = 0 then Vector2.of (1 / 1048576) 0 else Vector2.of (1 / 2) 0

/-- Every seed at `(4826273 / 8192, 16515073 / 262144)`, about `(589.1447, 63.000004)`. -/
def seeds_fine : Nat → Vector2 := fun _ => Vector2.of (4826273 / 8192) (16515073 / 262144)

/-- Every seed at `(790, 0)` with velocity `(10 + 2 ^ -20, 0)`. -/
def seed_state_edge : SeedState :=
  { positions := fun _ => Vector2.of 790 0,
    velocities := fun _ => Vector2.of (10485761 / 1048576) 0 }

/-- Every seed at `(0, 0)` with velocity `(-5, -5)`. -/
def seed_state_corner : SeedState :=
  { positions := fun _ => Vector2.of 0 0, velocities := fun _ => Vector2.of (-5) (-5) }

/-! ## Binary32 rounding

The facts about `round32` the development uses: it is exact on binary32 values
(`round32_exact`), its results are binary32 values (`round32_rep`), and it never crosses a
binary32 value (`round32_le`, `le_round32`). -/

theorem round_even_cases (r : ℚ) :
    round_even r = ⌊r⌋ ∨ (round_even r = ⌊r⌋ + 1 ∧ (⌊r⌋ : ℚ) < r) := by
  unfold round_even
  have hfl := Int.floor_le r
  split_ifs with h1 h2 h3
  · exact Or.inl rfl
  · exact Or.inr ⟨rfl, by linarith⟩
  · exact Or.inl rfl
  · exact Or.inr ⟨rfl, by linarith⟩

theorem round_even_le (r : ℚ) (n : Int) (h : r ≤ (n : ℚ)) : round_even r ≤ n := by
  have hfl : ⌊r⌋ ≤ n := by
    have h' : ((⌊r⌋ : Int) : ℚ) ≤ (n : ℚ) := (Int.floor_le r).trans h
    exact_mod_cast h'
  rcases round_even_cases r with h1 | ⟨h1, h2⟩
  · rw [h1]; exact hfl
  · rw [h1]
    have : ((⌊r⌋ : Int) : ℚ) < (n : ℚ) := lt_of_lt_of_le h2 h
    have : ⌊r⌋ < n := by exact_mod_cast this
    omega

theorem le_round_even (r : ℚ) (n : Int) (h : (n : ℚ) ≤ r) : n ≤ round_even r := by
  have hfl : n ≤ ⌊r⌋ := Int.le_floor.mpr h
  rcases round_even_cases r with h1 | ⟨h1, _⟩
  · rw [h1]; exact hfl
  · rw [h1]; omega

theorem round_even_intCast (n : Int) : round_even (n : ℚ) = n :=
  le_antisymm (round_even_le _ n le_rfl) (le_round_even _ n le_rfl)

theorem two_zpow_pos (e : Int) : (0 : ℚ) < 2 ^ e := zpow_pos (by norm_num) e

/-- The binade of `q`: with `E = ulp_exp q + 23`, `|q| < 2 ^ (E + 1)`, and `2 ^ E <= |q|` unless
`E = -126`. -/
theorem binade (q : ℚ) (h0 : q ≠ 0) :
    |q| < 2 ^ (ulp_exp q + 23 + 1) ∧
      ((2 : ℚ) ^ (ulp_exp q + 23) ≤ |q| ∨ ulp_exp q + 23 = -126) := by
  have hlt : |q| < ((2 : ℕ) : ℚ) ^ (Int.log 2 |q| + 1) :=
    Int.lt_zpow_succ_log_self (by norm_num) |q|
  rw [Nat.cast_ofNat] at hlt
  have hE : ulp_exp q + 23 = max (Int.log 2 |q|) (-126) := by unfold ulp_exp; ring
  rw [hE]
  constructor
  · exact lt_of_lt_of_le hlt (zpow_le_zpow_right₀ (by norm_num) (by omega))
  · by_cases hc : -126 ≤ Int.log 2 |q|
    · left
      rw [max_eq_left hc]
      have := Int.zpow_log_le_self (b := 2) (r := |q|) (by norm_num) (abs_pos.mpr h0)
      rw [Nat.cast_ofNat] at this
      exact this
    · right
      rw [max_eq_right (by omega)]

/-- A binary32 value is a multiple of `2 ^ e'` for every `e'` up to the exponent of its unit in
the last place; below that it is smaller than `2 ^ (e' + 23)`. -/
theorem binary32_multiple (h : ℚ) (hh : is_binary32 h) (e' : Int) :
    (∃ k : Int, h = (k : ℚ) * 2 ^ e') ∨ (|h| < 2 ^ (e' + 23) ∧ -149 < e') := by
  obtain ⟨m, e, hm, he, rfl⟩ := hh
  by_cases hc : e' ≤ e
  · left
    obtain ⟨n, hn⟩ : ∃ n : Nat, e = e' + n := ⟨(e - e').toNat, by omega⟩
    refine ⟨m * 2 ^ n, ?_⟩
    rw [hn, zpow_add₀ (by norm_num), zpow_natCast]
    push_cast
    ring
  · right
    refine ⟨?_, by omega⟩
    rw [abs_mul, abs_of_pos (two_zpow_pos e)]
    have hm' : |(m : ℚ)| < 2 ^ (24 : Int) := by
      have : ((|m| : Int) : ℚ) < ((2 ^ 24 : Int) : ℚ) := by exact_mod_cast hm
      rw [Int.cast_abs] at this
      calc |(m : ℚ)| < ((2 ^ 24 : Int) : ℚ) := this
        _ = 2 ^ (24 : Int) := by norm_num
    calc |(m : ℚ)| * 2 ^ e < 2 ^ (24 : Int) * 2 ^ e :=
          mul_lt_mul_of_pos_right hm' (two_zpow_pos e)
      _ = 2 ^ (24 + e) := (zpow_add₀ (by norm_num) _ _).symm
      _ ≤ 2 ^ (e' + 23) := zpow_le_zpow_right₀ (by norm_num) (by omega)

theorem round32_zero : round32 0 = 0 := by
  unfold round32
  rw [zero_div]
  have : round_even 0 = 0 := by exact_mod_cast round_even_intCast 0
  rw [this]
  simp

/-- Rounding does not cross a binary32 value, from below. -/
theorem round32_le (q h : ℚ) (hh : is_binary32 h) (hq : q ≤ h) : round32 q ≤ h := by
  by_cases h0 : q = 0
  · rw [h0, round32_zero]; rw [h0] at hq; exact hq
  obtain ⟨hlt, hbin⟩ := binade q h0
  have hu := two_zpow_pos (ulp_exp q)
  unfold round32
  rcases binary32_multiple h hh (ulp_exp q) with ⟨k, hk⟩ | ⟨hsmall, hE⟩
  · rw [hk]
    apply mul_le_mul_of_nonneg_right _ hu.le
    have : q / 2 ^ ulp_exp q ≤ (k : ℚ) := by
      rw [div_le_iff₀ hu, ← hk]; exact hq
    exact_mod_cast round_even_le _ k this
  · rcases hbin with hbig | hE'
    · have hqneg : q ≤ -(2 ^ (ulp_exp q + 23)) := by
        by_contra hc
        push_neg at hc
        rcases abs_cases q with ⟨ha, _⟩ | ⟨ha, _⟩
        · have := le_abs_self h
          linarith
        · rw [ha] at hbig
          linarith
      have h23 : q / 2 ^ ulp_exp q ≤ ((-(2 ^ 23) : Int) : ℚ) := by
        rw [div_le_iff₀ hu]
        have : ((-(2 ^ 23) : Int) : ℚ) * 2 ^ ulp_exp q = -(2 ^ (ulp_exp q + 23)) := by
          rw [zpow_add₀ (by norm_num)]; push_cast; norm_num; ring
        rw [this]; exact hqneg
      have hr := round_even_le _ _ h23
      have hr' : (round_even (q / 2 ^ ulp_exp q) : ℚ) ≤ ((-(2 ^ 23) : Int) : ℚ) := by
        exact_mod_cast hr
      have : (round_even (q / 2 ^ ulp_exp q) : ℚ) * 2 ^ ulp_exp q
          ≤ -(2 ^ (ulp_exp q + 23)) := by
        calc (round_even (q / 2 ^ ulp_exp q) : ℚ) * 2 ^ ulp_exp q
            ≤ ((-(2 ^ 23) : Int) : ℚ) * 2 ^ ulp_exp q := mul_le_mul_of_nonneg_right hr' hu.le
          _ = -(2 ^ (ulp_exp q + 23)) := by
            rw [zpow_add₀ (by norm_num)]; push_cast; norm_num; ring
      have := neg_abs_le h
      linarith
    · omega

/-- Rounding does not cross a binary32 value, from above. -/
theorem le_round32 (q h : ℚ) (hh : is_binary32 h) (hq : h ≤ q) : h ≤ round32 q := by
  by_cases h0 : q = 0
  · rw [h0, round32_zero]; rw [h0] at hq; exact hq
  obtain ⟨hlt, hbin⟩ := binade q h0
  have hu := two_zpow_pos (ulp_exp q)
  unfold round32
  rcases binary32_multiple h hh (ulp_exp q) with ⟨k, hk⟩ | ⟨hsmall, hE⟩
  · rw [hk]
    apply mul_le_mul_of_nonneg_right _ hu.le
    have : (k : ℚ) ≤ q / 2 ^ ulp_exp q := by
      rw [le_div_iff₀ hu, ← hk]; exact hq
    exact_mod_cast le_round_even _ k this
  · rcases hbin with hbig | hE'
    · have hqpos : 2 ^ (ulp_exp q + 23) ≤ q := by
        by_contra hc
        push_neg at hc
        rcases abs_cases q with ⟨ha, _⟩ | ⟨ha, _⟩
        · rw [ha] at hbig
          linarith
        · have := neg_abs_le h
          linarith
      have h23 : (((2 ^ 23 : Int)) : ℚ) ≤ q / 2 ^ ulp_exp q := by
        rw [le_div_iff₀ hu]
        have : (((2 ^ 23 : Int)) : ℚ) * 2 ^ ulp_exp q = 2 ^ (ulp_exp q + 23) := by
          rw [zpow_add₀ (by norm_num)]; push_cast; norm_num; ring
        rw [this]; exact hqpos
      have hr := le_round_even _ _ h23
      have hr' : (((2 ^ 23 : Int)) : ℚ) ≤ (round_even (q / 2 ^ ulp_exp q) : ℚ) := by
        exact_mod_cast hr
      have : 2 ^ (ulp_exp q + 23) ≤ (round_even (q / 2 ^ ulp_exp q) : ℚ) * 2 ^ ulp_exp q := by
        calc (2 : ℚ) ^ (ulp_exp q + 23) = (((2 ^ 23 : Int)) : ℚ) * 2 ^ ulp_exp q := by
              rw [zpow_add₀ (by norm_num)]; push_cast; norm_num; ring
          _ ≤ (round_even (q / 2 ^ ulp_exp q) : ℚ) * 2 ^ ulp_exp q :=
              mul_le_mul_of_nonneg_right hr' hu.le
      have := le_abs_self h
      linarith
    · omega

/-- Rounding is exact on binary32 values. -/
theorem round32_exact (q : ℚ) (h : is_binary32 q) : round32 q = q :=
  le_antisymm (round32_le q q h le_rfl) (le_round32 q q h le_rfl)

theorem ulp_exp_ge (q : ℚ) : -149 ≤ ulp_exp q := by
  unfold ulp_exp
  have := le_max_right (Int.log 2 |q|) (-126)
  omega

/-- The result of a rounding is a binary32 value. -/
theorem round32_rep (q : ℚ) : is_binary32 (round32 q) := by
  by_cases h0 : q = 0
  · rw [h0, round32_zero]
    exact ⟨0, 0, by norm_num, by norm_num, by norm_num⟩
  obtain ⟨hlt, _⟩ := binade q h0
  have hu := two_zpow_pos (ulp_exp q)
  have hpow : (2 : ℚ) ^ (ulp_exp q + 23 + 1) = ((2 ^ 24 : Int) : ℚ) * 2 ^ ulp_exp q := by
    have : ulp_exp q + 23 + 1 = ulp_exp q + (24 : Nat) := by omega
    rw [this, zpow_add₀ (by norm_num), zpow_natCast]
    push_cast
    ring
  rw [hpow] at hlt
  obtain ⟨hq1, hq2⟩ := abs_lt.mp hlt
  have hle : round_even (q / 2 ^ ulp_exp q) ≤ 2 ^ 24 := by
    apply round_even_le
    rw [div_le_iff₀ hu]
    exact hq2.le
  have hge : -(2 ^ 24) ≤ round_even (q / 2 ^ ulp_exp q) := by
    apply le_round_even
    rw [le_div_iff₀ hu]
    push_cast at hq1 ⊢
    linarith
  unfold round32
  by_cases hc : |round_even (q / 2 ^ ulp_exp q)| < 2 ^ 24
  · exact ⟨_, ulp_exp q, hc, ulp_exp_ge q, rfl⟩
  · have hcases : round_even (q / 2 ^ ulp_exp q) = 2 ^ 24 ∨
        round_even (q / 2 ^ ulp_exp q) = -(2 ^ 24) := by
      rcases abs_cases (round_even (q / 2 ^ ulp_exp q)) with ⟨ha, _⟩ | ⟨ha, _⟩
      · left; rw [ha] at hc; omega
      · right; rw [ha] at hc; omega
    have hex : (2 : ℚ) ^ (ulp_exp q + 1) = 2 * 2 ^ ulp_exp q := by
      rw [zpow_add₀ (by norm_num), zpow_one]; ring
    rcases hcases with h | h
    · refine ⟨2 ^ 23, ulp_exp q + 1, by norm_num, by have := ulp_exp_ge q; omega, ?_⟩
      rw [h, hex]; push_cast; ring
    · refine ⟨-(2 ^ 23), ulp_exp q + 1, by norm_num, by have := ulp_exp_ge q; omega, ?_⟩
      rw [h, hex]; push_cast; ring

theorem is_binary32_neg (q : ℚ) (h : is_binary32 q) : is_binary32 (-q) := by
  obtain ⟨m, e, hm, he, rfl⟩ := h
  exact ⟨-m, e, by rw [abs_neg]; exact hm, he, by push_cast; ring⟩

theorem is_binary32_intCast (n : Int) (h : |n| < 2 ^ 24) : is_binary32 (n : ℚ) :=
  ⟨n, 0, h, by norm_num, by simp⟩

theorem is_binary32_natCast (n : Nat) (h : n < 2 ^ 24) : is_binary32 (n : ℚ) :=
  ⟨n, 0, by rw [abs_of_nonneg (by positivity)]; exact_mod_cast h, by norm_num, by simp⟩

/-- A binary32 value of magnitude at least `2 ^ 26` is an integer multiple of 4. -/
theorem binary32_large (q : ℚ) (h : is_binary32 q) (hq : 2 ^ 26 ≤ |q|) :
    ∃ k : Int, q = ((4 * k : Int) : ℚ) := by
  rcases binary32_multiple q h 2 with ⟨k, hk⟩ | ⟨hsmall, _⟩
  · exact ⟨k, by rw [hk]; push_cast; norm_num; ring⟩
  · exfalso
    have : (2 : ℚ) ^ ((2 : Int) + 23) = 2 ^ 25 := by norm_num
    rw [this] at hsmall
    have h2 : (2 : ℚ) ^ 25 < 2 ^ 26 := by norm_num
    linarith

/-- The unit in the last place of a value of the binade `[2 ^ E, 2 ^ (E + 1))`. -/
theorem ulp_exp_of_binade (q : ℚ) (E : Int) (h1 : (2 : ℚ) ^ E ≤ |q|) (h2 : |q| < 2 ^ (E + 1))
    (hE : -126 ≤ E) : ulp_exp q = E - 23 := by
  have hpos : 0 < |q| := lt_of_lt_of_le (zpow_pos (by norm_num) E) h1
  have hlog : Int.log 2 |q| = E := by
    apply le_antisymm
    · have := (Int.lt_zpow_iff_log_lt (b := 2) (by norm_num) hpos (x := E + 1)).mp
        (by rw [Nat.cast_ofNat]; exact h2)
      omega
    · exact (Int.zpow_le_iff_le_log (b := 2) (by norm_num) hpos).mp
        (by rw [Nat.cast_ofNat]; exact h1)
  unfold ulp_exp
  rw [hlog, max_eq_left hE]

/-- Evaluation of `round_even` from the integer part of its argument. -/
theorem round_even_eval (r : ℚ) (f : Int) (hf1 : (f : ℚ) ≤ r) (hf2 : r < (f : ℚ) + 1) :
    round_even r =
      if r - f < 1 / 2 then f else if 1 / 2 < r - f then f + 1
      else if f % 2 = 0 then f else f + 1 := by
  have hfl : ⌊r⌋ = f := Int.floor_eq_iff.mpr ⟨hf1, hf2⟩
  unfold round_even
  rw [hfl]

theorem is_float_binary32 (q : ℚ) (h : is_float q) : is_binary32 q := by
  obtain ⟨r, rfl⟩ := h
  exact round32_rep r

/-- The results of `round32` are the binary32 values. -/
theorem is_float_iff (q : ℚ) : is_float q ↔ is_binary32 q :=
  ⟨is_float_binary32 q, fun h => ⟨q, (round32_exact q h).symm⟩⟩

theorem Vector2.x_binary32 (v : Vector2) : is_binary32 v.x := is_float_binary32 _ v.x_rep

theorem Vector2.y_binary32 (v : Vector2) : is_binary32 v.y := is_float_binary32 _ v.y_rep

theorem Vector2.eq_of (a b : Vector2) (hx : a.x = b.x) (hy : a.y = b.y) : a = b := by
  cases a
  cases b
  simp only at hx hy
  subst hx
  subst hy
  rfl

theorem Vector2.of_x (a b : ℚ) (h : is_binary32 a) : (Vector2.of a b).x = a :=
  round32_exact a h

theorem Vector2.of_y (a b : ℚ) (h : is_binary32 b) : (Vector2.of a b).y = b :=
  round32_exact b h

/-- Conversion of an `int` below `2 ^ 24` in magnitude to `float` is exact. -/
theorem int_to_float_eq (n : Int) (h : |n| < 2 ^ 24) : int_to_float n = (n : ℚ) :=
  round32_exact _ (is_binary32_intCast n h)

theorem float_to_int_of_range (q : ℚ) (h1 : -2147483648 ≤ c_trunc q)
    (h2 : c_trunc q ≤ 2147483647) : float_to_int q = c_trunc q := by
  unfold float_to_int
  rw [if_pos ⟨h1, h2⟩]

theorem float_to_int_range (q : ℚ) :
    -2147483648 ≤ float_to_int q ∧ float_to_int q ≤ 2147483647 := by
  unfold float_to_int
  split_ifs with h
  · exact h
  · omega

/-! ## Loop rules -/

theorem for_count_inv {σ : Type} (body : Int → σ → Option σ) (Inv : Int → σ → Prop) :
    ∀ (n : Nat) (i : Int) (s : σ), Inv i s →
      (∀ j t, i ≤ j → j < i + n → Inv j t → ∃ t', body j t = some t' ∧ Inv (j + 1) t') →
      ∃ s', for_count body n i s = some s' ∧ Inv (i + n) s' := by
  intro n
  induction n with
  | zero =>
    intro i s h0 _
    exact ⟨s, rfl, by simpa using h0⟩
  | succ n ih =>
    intro i s h0 hstep
    obtain ⟨t, ht, hInv⟩ := hstep i s (le_refl i) (by push_cast; omega) h0
    obtain ⟨s', hs', hfin⟩ := ih (i + 1) t hInv (fun j u h1 h2 hu =>
      hstep j u (by omega) (by push_cast; omega) hu)
    refine ⟨s', ?_, ?_⟩
    · simp [for_count, ht, hs']
    · have : i + ((n + 1 : Nat) : Int) = i + 1 + n := by push_cast; ring
      rw [this]; exact hfin

/-- A loop of `a + b` iterations is its first `a` iterations followed by the other `b`. -/
theorem for_count_append {σ : Type} (body : Int → σ → Option σ) (a b : Nat) :
    ∀ (i : Int) (s : σ), for_count body (a + b) i s =
      (for_count body a i s).bind (for_count body b (i + a)) := by
  induction a with
  | zero =>
    intro i s
    rw [Nat.zero_add]
    simp only [for_count, Option.some_bind, Nat.cast_zero, add_zero]
  | succ a ih =>
    intro i s
    have h : a + 1 + b = (a + b) + 1 := by omega
    rw [h]
    simp only [for_count]
    cases hb : body i s with
    | none => rfl
    | some t =>
      rw [Option.some_bind, Option.some_bind, ih (i + 1) t]
      have : i + 1 + (a : Int) = i + ((a + 1 : Nat) : Int) := by push_cast; ring
      rw [this]

/-- A loop whose iteration `j` rewrites exactly the cells of key `j`, each from its own old
value, rewrites the cells whose key lies in the range of the loop. -/
theorem for_count_cells {σ β : Type} (get : σ → Int → Int → β) (key : Int → Int → Int)
    (F : Int → Int → β → β) (body : Int → σ → Option σ) (n : Nat) (i : Int) (s : σ)
    (hbody : ∀ j t, i ≤ j → j < i + n → ∃ t', body j t = some t' ∧
      ∀ y x, get t' y x = if key y x = j then F y x (get t y x) else get t y x) :
    ∃ s', for_count body n i s = some s' ∧
      ∀ y x, get s' y x =
        if i ≤ key y x ∧ key y x < i + n then F y x (get s y x) else get s y x := by
  have h := for_count_inv body
    (fun j t => ∀ y x, get t y x =
      if i ≤ key y x ∧ key y x < j then F y x (get s y x) else get s y x) n i s
    (by
      intro y x
      rw [if_neg]; omega)
    (by
      intro j t h1 h2 hInv
      obtain ⟨t', ht', hget⟩ := hbody j t h1 h2
      refine ⟨t', ht', ?_⟩
      intro y x
      rw [hget y x, hInv y x]
      by_cases hk : key y x = j
      · rw [if_pos hk, if_neg (by omega), if_pos (by omega)]
      · rw [if_neg hk]
        by_cases hlt : i ≤ key y x ∧ key y x < j
        · rw [if_pos hlt, if_pos (by omega)]
        · rw [if_neg hlt, if_neg (by omega)])
  exact h

/-- The row-major loop over all pixels, for a body that rewrites only its own cell. -/
theorem pixel_loop_cells {σ β : Type} (get : σ → Int → Int → β) (g : Int → Int → β → β)
    (body : Int → Int → σ → Option σ)
    (hbody : ∀ y x t, in_bounds y x → ∃ t', body y x t = some t' ∧
      ∀ y' x', get t' y' x' = if y' = y ∧ x' = x then g y x (get t y x) else get t y' x')
    (s : σ) :
    ∃ s', for_count (fun y t => for_count (fun x t => body y x t) WIDTH 0 t) HEIGHT 0 s
        = some s' ∧
      ∀ y x, get s' y x = if in_bounds y x then g y x (get s y x) else get s y x := by
  have houter := for_count_cells get (fun y _ => y)
    (fun y x v => if 0 ≤ x ∧ x < (WIDTH : Int) then g y x v else v)
    (fun y t => for_count (fun x t => body y x t) WIDTH 0 t) HEIGHT 0 s
    (by
      intro j t h1 h2
      have hinner := for_count_cells get (fun _ x => x)
        (fun y x v => if y = j then g y x v else v)
        (fun x t => body j x t) WIDTH 0 t
        (by
          intro k u hk1 hk2
          obtain ⟨u', hu', hget⟩ := hbody j k u ⟨by omega, by omega, by omega, by omega⟩
          refine ⟨u', hu', ?_⟩
          intro y x
          rw [hget y x]
          by_cases hx : x = k
          · by_cases hy : y = j
            · subst hx; subst hy; simp
            · simp [hx, hy]
          · simp [hx])
      obtain ⟨t', ht', hget⟩ := hinner
      refine ⟨t', ht', ?_⟩
      intro y x
      rw [hget y x]
      by_cases hy : y = j <;> by_cases hx : 0 ≤ x ∧ x < (WIDTH : Int) <;> simp [hy, hx])
  obtain ⟨s', hs', hget⟩ := houter
  refine ⟨s', hs', ?_⟩
  intro y x
  have hg := hget y x
  simp only [] at hg
  rw [hg]
  unfold in_bounds
  by_cases hy : 0 ≤ y ∧ y < (HEIGHT : Int) <;> by_cases hx : 0 ≤ x ∧ x < (WIDTH : Int)
  · rw [if_pos (by omega), if_pos hx, if_pos (by omega)]
  · rw [if_pos (by omega), if_neg hx, if_neg (by omega)]
  · rw [if_neg (by omega), if_neg (by omega)]
  · rw [if_neg (by omega), if_neg (by omega)]

/-! ## What each raster operation leaves in the arrays -/

theorem write_cells {α : Type} (g : Grid α) (y x : Int) (v : α) (h : in_bounds y x) :
    ∃ g', g.write y x v = some g' ∧
      ∀ y' x', g' y' x' = if y' = y ∧ x' = x then v else g y' x' := by
  refine ⟨fun y' x' => if y' = y ∧ x' = x then v else g y' x', ?_, fun _ _ => rfl⟩
  simp [Grid.write, h]

theorem fill_image_cells (color : Color32) (image : Grid Color32) :
    ∃ image', fill_image color image = some image' ∧
      ∀ y x, image' y x = if in_bounds y x then color else image y x := by
  unfold fill_image
  exact pixel_loop_cells (fun (g : Grid Color32) y x => g y x) (fun _ _ _ => color)
    (fun y x g => g.write y x color) (fun y x t h => write_cells t y x color h) image

theorem reset_depth_cells (r : Raster) :
    ∃ r', reset_depth r = some r' ∧ r'.image = r.image ∧
      ∀ y x, r'.depth y x = if in_bounds y x then INT_MAX else r.depth y x := by
  obtain ⟨d, hd, hget⟩ := pixel_loop_cells (fun (g : Grid Int) y x => g y x)
    (fun _ _ _ => INT_MAX) (fun y x g => g.write y x INT_MAX)
    (fun y x t h => write_cells t y x INT_MAX h) r.depth
  refine ⟨{ r with depth := d }, ?_, rfl, hget⟩
  simp [reset_depth, hd]

/-- One pass of `apply_next_seed`: a pixel takes the seed's colour and distance exactly when
the distance is below the stored depth. -/
theorem apply_next_seed_cells (seed_positions : Nat → Vector2) (i : Nat) (r : Raster) :
    ∃ r', apply_next_seed seed_positions i r = some r' ∧
      ∀ y x, (r'.image y x, r'.depth y x) =
        if in_bounds y x ∧ seed_dist (seed_positions i) x y < r.depth y x then
          (palette_at i, seed_dist (seed_positions i) x y)
        else (r.image y x, r.depth y x) := by
  unfold apply_next_seed
  have h := pixel_loop_cells (fun (t : Raster) y x => (t.image y x, t.depth y x))
    (fun y x v => if seed_dist (seed_positions i) x y < v.2 then
      (palette_at i, seed_dist (seed_positions i) x y) else v)
    (fun y x t =>
      (t.depth.read y x).bind fun old =>
        if seed_dist (seed_positions i) x y < old then
          (t.depth.write y x (seed_dist (seed_positions i) x y)).bind fun depth =>
            (t.image.write y x (palette_at i)).bind fun image =>
              some { image := image, depth := depth }
        else some t)
    (by
      intro y x t hb
      by_cases hlt : seed_dist (seed_positions i) x y < t.depth y x
      · refine ⟨{ image := fun y' x' => if y' = y ∧ x' = x then palette_at i else t.image y' x',
                  depth := fun y' x' => if y' = y ∧ x' = x then
                    seed_dist (seed_positions i) x y else t.depth y' x' }, ?_, ?_⟩
        · simp [Grid.read, Grid.write, hb, hlt]
        · intro y' x'
          by_cases hc : y' = y ∧ x' = x <;> simp [hc, hlt]
      · refine ⟨t, ?_, ?_⟩
        · simp [Grid.read, hb, hlt]
        · intro y' x'
          by_cases hc : y' = y ∧ x' = x
          · obtain ⟨h1, h2⟩ := hc
            subst h1; subst h2
            simp [hlt]
          · simp [hc])
    r
  obtain ⟨r', hr', hget⟩ := h
  refine ⟨r', hr', ?_⟩
  intro y x
  rw [hget y x]
  by_cases hb : in_bounds y x <;> simp [hb]

/-- With both upper loop bounds below `INT_MAX`, `fill_circle` is a pair of counting loops. -/
theorem fill_circle_loops (cx cy radius : Int) (color : Color32) (image : Grid Color32)
    (hx1 : wrap32 (cx + radius) ≠ INT_MAX) (hy1 : wrap32 (cy + radius) ≠ INT_MAX) :
    fill_circle cx cy radius color image =
      for_count (fun x image =>
        if 0 ≤ x ∧ x < (WIDTH : Int) then
          for_count (fun y image =>
            if 0 ≤ y ∧ y < (HEIGHT : Int) then
              if sqr_dist cx cy x y ≤ wrap32 (radius * radius) then
                image.write y x color
              else some image
            else some image)
            (wrap32 (cy + radius) + 1 - wrap32 (cy - radius)).toNat (wrap32 (cy - radius)) image
        else some image)
      (wrap32 (cx + radius) + 1 - wrap32 (cx - radius)).toNat (wrap32 (cx - radius)) image := by
  unfold fill_circle for_upto fill_circle_pixel
  simp only [if_neg hx1, if_neg hy1]

/-- The upper loop bound `INT_MAX` keeps `fill_circle` from returning: the outer loop
cannot exit. -/
theorem fill_circle_edge (cx cy radius : Int) (color : Color32) (image : Grid Color32)
    (hx1 : wrap32 (cx + radius) = INT_MAX) :
    fill_circle cx cy radius color image = none := by
  unfold fill_circle for_upto
  simp only [if_pos hx1]

/-- The pixels `fill_circle` rewrites, for any arguments with loop bounds below `INT_MAX`:
those of the bounding square, inside the arrays, that pass the distance test. -/
theorem fill_circle_cells (cx cy radius : Int) (color : Color32) (image : Grid Color32)
    (hx1 : wrap32 (cx + radius) ≠ INT_MAX) (hy1 : wrap32 (cy + radius) ≠ INT_MAX) :
    ∃ image', fill_circle cx cy radius color image = some image' ∧
      ∀ y x, image' y x =
        if (wrap32 (cx - radius) ≤ x ∧ x ≤ wrap32 (cx + radius)) ∧
            (wrap32 (cy - radius) ≤ y ∧ y ≤ wrap32 (cy + radius)) ∧ in_bounds y x ∧
            sqr_dist cx cy x y ≤ wrap32 (radius * radius)
        then color else image y x := by
  rw [fill_circle_loops cx cy radius color image hx1 hy1]
  have houter := for_count_cells (fun (g : Grid Color32) y x => g y x) (fun _ x => x)
    (fun y x v =>
      if (wrap32 (cy - radius) ≤ y ∧ y ≤ wrap32 (cy + radius)) ∧ in_bounds y x ∧
          sqr_dist cx cy x y ≤ wrap32 (radius * radius) then color else v)
    (fun x image =>
      if 0 ≤ x ∧ x < (WIDTH : Int) then
        for_count (fun y image =>
          if 0 ≤ y ∧ y < (HEIGHT : Int) then
            if sqr_dist cx cy x y ≤ wrap32 (radius * radius) then
              image.write y x color
            else some image
          else some image)
          (wrap32 (cy + radius) + 1 - wrap32 (cy - radius)).toNat (wrap32 (cy - radius)) image
      else some image)
    (wrap32 (cx + radius) + 1 - wrap32 (cx - radius)).toNat (wrap32 (cx - radius)) image
    (by
      intro j t _ _
      by_cases hj : 0 ≤ j ∧ j < (WIDTH : Int)
      · have hinner := for_count_cells (fun (g : Grid Color32) y x => g y x) (fun y _ => y)
          (fun y x v => if x = j ∧ in_bounds y x ∧
            sqr_dist cx cy x y ≤ wrap32 (radius * radius) then color else v)
          (fun y image =>
            if 0 ≤ y ∧ y < (HEIGHT : Int) then
              if sqr_dist cx cy j y ≤ wrap32 (radius * radius) then
                image.write y j color
              else some image
            else some image)
          (wrap32 (cy + radius) + 1 - wrap32 (cy - radius)).toNat (wrap32 (cy - radius)) t
          (by
            intro k u _ _
            by_cases hk : 0 ≤ k ∧ k < (HEIGHT : Int)
            · by_cases hd : sqr_dist cx cy j k ≤ wrap32 (radius * radius)
              · have hb : in_bounds k j := ⟨hk.1, hk.2, hj.1, hj.2⟩
                obtain ⟨u', hu', hget⟩ := write_cells u k j color hb
                refine ⟨u', by simp [hk, hd, hu'], ?_⟩
                intro y x
                beta_reduce
                rw [hget y x]
                by_cases hy : y = k
                · by_cases hx : x = j
                  · subst hy; subst hx; simp [hb, hd]
                  · simp [hy, hx]
                · simp [hy]
              · refine ⟨u, by simp [hk, hd], ?_⟩
                intro y x
                by_cases hy : y = k
                · by_cases hx : x = j
                  · subst hy; subst hx; simp [hd]
                  · simp [hy, hx]
                · simp [hy]
            · refine ⟨u, by simp [hk], ?_⟩
              intro y x
              by_cases hy : y = k
              · subst hy
                have hnb : ¬ in_bounds y x := fun hb => hk ⟨hb.1, hb.2.1⟩
                beta_reduce
                rw [if_pos rfl, if_neg (fun h => hnb h.2.1)]
              · simp [hy])
        obtain ⟨t', ht', hget⟩ := hinner
        refine ⟨t', by simp [hj, ht'], ?_⟩
        intro y x
        have hg := hget y x
        beta_reduce at hg ⊢
        rw [hg]
        by_cases hx : x = j
        · by_cases hy : wrap32 (cy - radius) ≤ y ∧ y ≤ wrap32 (cy + radius)
          · rw [if_pos (by omega), if_pos hx]; simp [hx, hy]
          · rw [if_neg (by omega), if_pos hx]; simp [hy]
        · simp [hx]
      · refine ⟨t, by simp [hj], ?_⟩
        intro y x
        by_cases hx : x = j
        · subst hx
          have hnb : ¬ in_bounds y x := fun hb => hj ⟨hb.2.2.1, hb.2.2.2⟩
          beta_reduce
          rw [if_pos rfl, if_neg (fun h => hnb h.2.1)]
        · simp [hx])
  obtain ⟨image', h', hget⟩ := houter
  refine ⟨image', h', ?_⟩
  intro y x
  have hg := hget y x
  beta_reduce at hg
  rw [hg]
  by_cases hx : wrap32 (cx - radius) ≤ x ∧ x ≤ wrap32 (cx + radius)
  · rw [if_pos (by omega)]; simp [hx]
  · rw [if_neg (by omega)]; simp [hx]

/-! ## Arithmetic of the model -/

theorem wrap32_of_range (v : Int) (h1 : -2147483648 ≤ v) (h2 : v < 2147483648) :
    wrap32 v = v := by
  unfold wrap32; omega

theorem wrap32_range (v : Int) : -2147483648 ≤ wrap32 v ∧ wrap32 v ≤ INT_MAX := by
  unfold wrap32 INT_MAX; omega

theorem sq_emod_four (a : Int) : a * a % 4 = 0 ∨ a * a % 4 = 1 := by
  have h : a % 4 = 0 ∨ a % 4 = 1 ∨ a % 4 = 2 ∨ a % 4 = 3 := by omega
  rcases h with h | h | h | h <;> simp [Int.mul_emod, h]

theorem wrap32_emod_four (v : Int) : wrap32 v % 4 = v % 4 := by
  unfold wrap32; omega

/-- A wrapped sum of two squares is never `INT_MAX`: it is not 3 modulo 4. -/
theorem wrapped_squares_lt (a b : Int) :
    wrap32 (wrap32 (a * a) + wrap32 (b * b)) < INT_MAX := by
  have ha := sq_emod_four a
  have hb := sq_emod_four b
  have h1 := wrap32_emod_four (a * a)
  have h2 := wrap32_emod_four (b * b)
  have h3 := wrap32_emod_four (wrap32 (a * a) + wrap32 (b * b))
  have h4 := wrap32_range (wrap32 (a * a) + wrap32 (b * b))
  generalize wrap32 (wrap32 (a * a) + wrap32 (b * b)) = d at *
  generalize wrap32 (a * a) = p at *
  generalize wrap32 (b * b) = q at *
  unfold INT_MAX at *
  omega

theorem seed_dist_lt (seed : Vector2) (x y : Int) : seed_dist seed x y < INT_MAX := by
  unfold seed_dist
  exact wrapped_squares_lt _ _

/-! ## The depth-buffer assigner -/

theorem pass_state_step (seed_positions : Nat → Vector2) (image0 : Grid Color32) (j : Int)
    (hj : 0 ≤ j) (r : Raster) (h : pass_state seed_positions image0 j r) :
    ∃ r', apply_next_seed seed_positions j.toNat r = some r' ∧
      pass_state seed_positions image0 (j + 1) r' := by
  obtain ⟨r', hr', hget⟩ := apply_next_seed_cells seed_positions j.toNat r
  refine ⟨r', hr', ?_⟩
  intro y x hb
  obtain ⟨hlow, hcase⟩ := h y x hb
  have hg := hget y x
  by_cases hlt : seed_dist (seed_positions j.toNat) x y < r.depth y x
  · rw [if_pos ⟨hb, hlt⟩] at hg
    have himg : r'.image y x = palette_at j.toNat := congrArg Prod.fst hg
    have hdep : r'.depth y x = seed_dist (seed_positions j.toNat) x y := congrArg Prod.snd hg
    refine ⟨?_, Or.inr ⟨j.toNat, by omega, hdep, himg, ?_⟩⟩
    · intro i hi
      rw [hdep]
      by_cases hij : (i : Int) < j
      · exact le_of_lt (lt_of_lt_of_le hlt (hlow i hij))
      · have : i = j.toNat := by omega
        rw [this]
    · intro i hi
      exact lt_of_lt_of_le hlt (hlow i (by omega))
  · rw [if_neg (fun h => hlt h.2)] at hg
    have himg : r'.image y x = r.image y x := congrArg Prod.fst hg
    have hdep : r'.depth y x = r.depth y x := congrArg Prod.snd hg
    rw [himg, hdep]
    refine ⟨?_, ?_⟩
    · intro i hi
      by_cases hij : (i : Int) < j
      · exact hlow i hij
      · have : i = j.toNat := by omega
        rw [this]; exact not_lt.mp hlt
    · rcases hcase with ⟨_, hmax, _⟩ | ⟨k, hk, hrest⟩
      · exact absurd (hmax ▸ seed_dist_lt (seed_positions j.toNat) x y) hlt
      · exact Or.inr ⟨k, by omega, hrest⟩

theorem apply_seeds_state (seed_positions : Nat → Vector2) (n : Nat) (r : Raster)
    (h0 : ∀ y x, in_bounds y x → r.depth y x = INT_MAX) :
    ∃ r', apply_seeds seed_positions n r = some r' ∧
      pass_state seed_positions r.image n r' := by
  have h := for_count_inv (fun i t => apply_next_seed seed_positions i.toNat t)
    (fun j t => 0 ≤ j ∧ pass_state seed_positions r.image j t) n 0 r
    ⟨le_refl 0, fun y x hb => ⟨fun i hi => by omega, Or.inl ⟨rfl, h0 y x hb, rfl⟩⟩⟩
    (by
      intro j t h1 _ hInv
      obtain ⟨t', ht', hst⟩ := pass_state_step seed_positions r.image j h1 t hInv.2
      exact ⟨t', ht', by omega, hst⟩)
  obtain ⟨r', hr', _, hst⟩ := h
  refine ⟨r', hr', ?_⟩
  simpa using hst

/-- After `render_voronoi_interesting` every pixel holds the colour and the distance of the
lowest-indexed seed that minimises the distance `seed_dist` computed by the passes. -/
theorem render_voronoi_interesting_state (seed_positions : Nat → Vector2) (r : Raster) :
    ∃ r', render_voronoi_interesting seed_positions r = some r' ∧
      ∀ y x, in_bounds y x → ∃ k, k < SEEDS_COUNT ∧
        r'.image y x = palette_at k ∧ r'.depth y x = seed_dist (seed_positions k) x y ∧
        (∀ i, i < SEEDS_COUNT →
          seed_dist (seed_positions k) x y ≤ seed_dist (seed_positions i) x y) ∧
        (∀ i, i < k → seed_dist (seed_positions k) x y < seed_dist (seed_positions i) x y) := by
  obtain ⟨r1, hr1, _, hdep⟩ := reset_depth_cells r
  obtain ⟨r', hr', hst⟩ := apply_seeds_state seed_positions SEEDS_COUNT r1
    (fun y x hb => by rw [hdep y x, if_pos hb])
  refine ⟨r', ?_, ?_⟩
  · unfold render_voronoi_interesting; rw [hr1, Option.some_bind, hr']
  intro y x hb
  obtain ⟨hlow, hcase⟩ := hst y x hb
  rcases hcase with ⟨h0, _, _⟩ | ⟨k, hk, hd, himg, hfirst⟩
  · have : (SEEDS_COUNT : Int) = 20 := by simp [SEEDS_COUNT]
    omega
  · refine ⟨k, by omega, himg, hd, ?_, hfirst⟩
    intro i hi
    rw [← hd]
    exact hlow i (by omega)

/-! ## Distances without wrap-around -/

theorem WIDTH_eq : WIDTH = 800 := by unfold WIDTH; rfl

theorem HEIGHT_eq : HEIGHT = 600 := by unfold HEIGHT; rfl

theorem SEEDS_COUNT_eq : SEEDS_COUNT = 20 := by unfold SEEDS_COUNT; rfl

theorem c_trunc_bounds (q : ℚ) (lo hi : Int) (hlo : lo ≤ 0) (hhi : 0 ≤ hi)
    (h1 : (lo : ℚ) ≤ q) (h2 : q ≤ (hi : ℚ)) : lo ≤ c_trunc q ∧ c_trunc q ≤ hi := by
  unfold c_trunc
  split
  · rename_i h
    refine ⟨le_trans hlo (Int.floor_nonneg.mpr h), ?_⟩
    have := Int.floor_le q
    exact_mod_cast le_trans this h2
  · rename_i h
    push_neg at h
    refine ⟨?_, le_trans (Int.ceil_le.mpr (by exact_mod_cast le_of_lt h)) hhi⟩
    have := Int.le_ceil q
    exact_mod_cast le_trans h1 this

theorem c_trunc_intCast (n : Int) : c_trunc (n : ℚ) = n := by
  unfold c_trunc
  split <;> simp

theorem wrapped_squares_eq (a b : Int) (ha1 : -32767 ≤ a) (ha2 : a ≤ 32767)
    (hb1 : -32767 ≤ b) (hb2 : b ≤ 32767) :
    wrap32 (wrap32 (a * a) + wrap32 (b * b)) = a ^ 2 + b ^ 2 := by
  have h1 : 0 ≤ a * a := mul_self_nonneg a
  have h2 : a * a ≤ 1073676289 := by nlinarith
  have h3 : 0 ≤ b * b := mul_self_nonneg b
  have h4 : b * b ≤ 1073676289 := by nlinarith
  rw [wrap32_of_range (a * a) (by omega) (by omega),
    wrap32_of_range (b * b) (by omega) (by omega),
    wrap32_of_range (a * a + b * b) (by omega) (by omega)]
  ring

theorem round32_bounds (q : ℚ) (lo hi : Int) (hlo : |lo| < 2 ^ 24) (hhi : |hi| < 2 ^ 24)
    (h1 : (lo : ℚ) ≤ q) (h2 : q ≤ (hi : ℚ)) : (lo : ℚ) ≤ round32 q ∧ round32 q ≤ (hi : ℚ) :=
  ⟨le_round32 q lo (is_binary32_intCast lo hlo) h1,
    round32_le q hi (is_binary32_intCast hi hhi) h2⟩

/-- The coordinates of the pixels of the grid convert to `float` exactly. -/
theorem int_to_float_pixel (y x : Int) (hb : in_bounds y x) :
    int_to_float x = (x : ℚ) ∧ int_to_float y = (y : ℚ) := by
  obtain ⟨by1, by2, bx1, bx2⟩ := hb
  rw [WIDTH_eq] at bx2
  rw [HEIGHT_eq] at by2
  exact ⟨int_to_float_eq x (by rw [abs_lt]; constructor <;> omega),
    int_to_float_eq y (by rw [abs_lt]; constructor <;> omega)⟩

/-- The truncated coordinate differences `apply_next_seed` forms for a seed in range at a pixel
of the grid. -/
theorem trunc_diff_bounds (s : Vector2) (x y : Int) (hs : seed_in_range s)
    (hb : in_bounds y x) :
    (-800 ≤ c_trunc (float_sub (x : ℚ) s.x) ∧ c_trunc (float_sub (x : ℚ) s.x) ≤ 800) ∧
    (-600 ≤ c_trunc (float_sub (y : ℚ) s.y) ∧ c_trunc (float_sub (y : ℚ) s.y) ≤ 600) := by
  obtain ⟨hx1, hx2, hy1, hy2⟩ := hs
  obtain ⟨by1, by2, bx1, bx2⟩ := hb
  rw [WIDTH_eq] at hx2 bx2
  rw [HEIGHT_eq] at hy2 by2
  have hxq1 : (0 : ℚ) ≤ (x : ℚ) := by exact_mod_cast bx1
  have hxq2 : (x : ℚ) ≤ 800 := by exact_mod_cast le_of_lt bx2
  have hyq1 : (0 : ℚ) ≤ (y : ℚ) := by exact_mod_cast by1
  have hyq2 : (y : ℚ) ≤ 600 := by exact_mod_cast le_of_lt by2
  unfold float_sub
  obtain ⟨rx1, rx2⟩ := round32_bounds ((x : ℚ) - s.x) (-800) 800 (by norm_num) (by norm_num)
    (by push_cast at *; linarith) (by push_cast at *; linarith)
  obtain ⟨ry1, ry2⟩ := round32_bounds ((y : ℚ) - s.y) (-600) 600 (by norm_num) (by norm_num)
    (by push_cast at *; linarith) (by push_cast at *; linarith)
  exact ⟨c_trunc_bounds _ (-800) 800 (by omega) (by omega) rx1 rx2,
    c_trunc_bounds _ (-600) 600 (by omega) (by omega) ry1 ry2⟩

theorem sq_sum_fits (a b : Int) (h : a ^ 2 + b ^ 2 ≤ 2147483647) :
    (-2147483648 ≤ a ∧ a ≤ 2147483647) ∧ (-2147483648 ≤ b ∧ b ≤ 2147483647) ∧
      wrap32 (wrap32 (a * a) + wrap32 (b * b)) = a ^ 2 + b ^ 2 := by
  have ha0 : 0 ≤ a ^ 2 := sq_nonneg a
  have hb0 : 0 ≤ b ^ 2 := sq_nonneg b
  have ha1 : a ≤ a ^ 2 := by
    rcases le_or_lt a 0 with h0 | h0
    · omega
    · nlinarith
  have ha2 : -a ≤ a ^ 2 := by
    rcases le_or_lt 0 a with h0 | h0
    · omega
    · nlinarith
  have hb1 : b ≤ b ^ 2 := by
    rcases le_or_lt b 0 with h0 | h0
    · omega
    · nlinarith
  have hb2 : -b ≤ b ^ 2 := by
    rcases le_or_lt 0 b with h0 | h0
    · omega
    · nlinarith
  have haa : a * a = a ^ 2 := by ring
  have hbb : b * b = b ^ 2 := by ring
  refine ⟨⟨by omega, by omega⟩, ⟨by omega, by omega⟩, ?_⟩
  rw [wrap32_of_range (a * a) (by omega) (by omega),
    wrap32_of_range (b * b) (by omega) (by omega),
    wrap32_of_range (a * a + b * b) (by omega) (by omega)]
  omega

/-- At a pixel of the grid, whenever the sum of the squares of the truncated differences fits in
`int`, no conversion and no `int` operation of `apply_next_seed` leaves the range of `int`. -/
theorem seed_dist_exact (s : Vector2) (x y : Int) (hb : in_bounds y x)
    (h : trunc_diff_dist s x y ≤ 2147483647) : seed_dist s x y = trunc_diff_dist s x y := by
  obtain ⟨hfx, hfy⟩ := int_to_float_pixel y x hb
  unfold trunc_diff_dist at h
  obtain ⟨ha, hb, hw⟩ := sq_sum_fits _ _ h
  unfold seed_dist trunc_diff_dist
  dsimp only
  rw [hfx, hfy, float_to_int_of_range _ ha.1 ha.2, float_to_int_of_range _ hb.1 hb.2]
  exact hw

/-- For a seed in range and a pixel of the grid no operation of `apply_next_seed` wraps. -/
theorem seed_dist_eq (s : Vector2) (x y : Int) (hs : seed_in_range s) (hb : in_bounds y x) :
    seed_dist s x y = trunc_diff_dist s x y := by
  apply seed_dist_exact _ _ _ hb
  obtain ⟨⟨hx1, hx2⟩, ⟨hy1, hy2⟩⟩ := trunc_diff_bounds s x y hs hb
  unfold trunc_diff_dist
  nlinarith

/-! ## The per-pixel scan -/

/-- The scan of `render_voronoi_naive` ends on the lowest index that minimises `naive_dist`. -/
theorem naive_scan_state (seed_positions : Nat → Vector2) (x y : Int) :
    ∃ k, k < SEEDS_COUNT ∧ naive_scan seed_positions x y = some (k : Int) ∧
      (∀ i, i < SEEDS_COUNT →
        naive_dist seed_positions k x y ≤ naive_dist seed_positions i x y) ∧
      (∀ i, i < k → naive_dist seed_positions k x y < naive_dist seed_positions i x y) := by
  have h := for_count_inv
    (fun (i j : Int) =>
      if naive_dist seed_positions i.toNat x y < naive_dist seed_positions j.toNat x y
      then some i else some j)
    (fun i j => 1 ≤ i ∧ 0 ≤ j ∧ j < i ∧
      (∀ m : Nat, (m : Int) < i →
        naive_dist seed_positions j.toNat x y ≤ naive_dist seed_positions m x y) ∧
      (∀ m : Nat, m < j.toNat →
        naive_dist seed_positions j.toNat x y < naive_dist seed_positions m x y))
    (SEEDS_COUNT - 1) 1 0
    ⟨le_refl 1, le_refl 0, by omega, fun m hm => by
      have : m = 0 := by omega
      subst this; simp, fun m hm => by simp at hm⟩
    (by
      intro i j h1 _ hInv
      obtain ⟨_, hj0, hji, hmin, hfirst⟩ := hInv
      by_cases hlt : naive_dist seed_positions i.toNat x y < naive_dist seed_positions j.toNat x y
      · refine ⟨i, by beta_reduce; rw [if_pos hlt], by omega, by omega, by omega, ?_, ?_⟩
        · intro m hm
          by_cases hmi : (m : Int) < i
          · exact le_of_lt (lt_of_lt_of_le hlt (hmin m hmi))
          · have : m = i.toNat := by omega
            rw [this]
        · intro m hm
          exact lt_of_lt_of_le hlt (hmin m (by omega))
      · refine ⟨j, by beta_reduce; rw [if_neg hlt], by omega, hj0, by omega, ?_, hfirst⟩
        intro m hm
        by_cases hmi : (m : Int) < i
        · exact hmin m hmi
        · have : m = i.toNat := by omega
          rw [this]; exact not_lt.mp hlt)
  obtain ⟨j, hj, _, hj0, hjn, hmin, hfirst⟩ := h
  have hn : (1 : Int) + ((SEEDS_COUNT - 1 : Nat) : Int) = (SEEDS_COUNT : Int) := by
    rw [SEEDS_COUNT_eq]; rfl
  rw [hn] at hjn hmin
  refine ⟨j.toNat, by omega, ?_, fun i hi => hmin i (by omega), hfirst⟩
  have : ((j.toNat : Nat) : Int) = j := Int.toNat_of_nonneg hj0
  rw [this]
  exact hj

/-- After `render_voronoi_naive` every pixel holds the colour of the lowest-indexed seed that
minimises `naive_dist`. -/
theorem render_voronoi_naive_state (seed_positions : Nat → Vector2) (image : Grid Color32) :
    ∃ image', render_voronoi_naive seed_positions image = some image' ∧
      ∀ y x, in_bounds y x → ∃ k, k < SEEDS_COUNT ∧ image' y x = palette_at k ∧
        (∀ i, i < SEEDS_COUNT →
          naive_dist seed_positions k x y ≤ naive_dist seed_positions i x y) ∧
        (∀ i, i < k → naive_dist seed_positions k x y < naive_dist seed_positions i x y) := by
  have h := pixel_loop_cells (fun (g : Grid Color32) y x => g y x)
    (fun y x _ => palette_at ((naive_scan seed_positions x y).getD 0).toNat)
    (fun y x (image : Grid Color32) =>
      (naive_scan seed_positions x y).bind fun j => image.write y x (palette_at j.toNat))
    (by
      intro y x t hb
      obtain ⟨k, _, hk, _⟩ := naive_scan_state seed_positions x y
      obtain ⟨t', ht', hget⟩ := write_cells t y x (palette_at k) hb
      refine ⟨t', ?_, ?_⟩
      · beta_reduce
        rw [hk, Option.some_bind, Int.toNat_ofNat, ht']
      · intro y' x'
        beta_reduce
        rw [hget y' x', hk, Option.getD_some, Int.toNat_ofNat])
    image
  obtain ⟨image', h', hget⟩ := h
  refine ⟨image', h', ?_⟩
  intro y x hb
  obtain ⟨k, hk, hscan, hmin, hfirst⟩ := naive_scan_state seed_positions x y
  refine ⟨k, hk, ?_, hmin, hfirst⟩
  have hg := hget y x
  beta_reduce at hg
  rw [hg, if_pos hb, hscan, Option.getD_some, Int.toNat_ofNat]

/-- For a seed in range and a pixel of the grid no operation of `sqr_dist` wraps. -/
theorem naive_dist_eq (seed_positions : Nat → Vector2) (i : Nat) (x y : Int)
    (hs : seed_in_range (seed_positions i)) (hb : in_bounds y x) :
    naive_dist seed_positions i x y = trunc_coord_dist (seed_positions i) x y := by
  obtain ⟨hx1, hx2, hy1, hy2⟩ := hs
  obtain ⟨by1, by2, bx1, bx2⟩ := hb
  rw [WIDTH_eq] at hx2 bx2
  rw [HEIGHT_eq] at hy2 by2
  have hsx := c_trunc_bounds (seed_positions i).x 0 800 (by omega) (by omega)
    (by push_cast; exact hx1) (by push_cast at *; exact hx2)
  have hsy := c_trunc_bounds (seed_positions i).y 0 800 (by omega) (by omega)
    (by push_cast; exact hy1) (by push_cast at *; linarith)
  unfold naive_dist sqr_dist trunc_coord_dist
  rw [float_to_int_of_range (seed_positions i).x (by omega) (by omega),
    float_to_int_of_range (seed_positions i).y (by omega) (by omega)]
  rw [wrap32_of_range (c_trunc (seed_positions i).x - x) (by omega) (by omega),
    wrap32_of_range (c_trunc (seed_positions i).y - y) (by omega) (by omega),
    wrapped_squares_eq _ _ (by omega) (by omega) (by omega) (by omega)]
  ring

/-- For an integral position, truncating the differences and truncating the coordinates give
the exact squared distance. -/
theorem trunc_dists_integral (s : Vector2) (x y : Int) (h : seed_integral s)
    (hs : seed_in_range s) (hb : in_bounds y x) :
    trunc_diff_dist s x y = trunc_coord_dist s x y := by
  obtain ⟨⟨n, hn⟩, ⟨m, hm⟩⟩ := h
  obtain ⟨hx1, hx2, hy1, hy2⟩ := hs
  obtain ⟨by1, by2, bx1, bx2⟩ := hb
  rw [WIDTH_eq] at hx2 bx2
  rw [HEIGHT_eq] at hy2 by2
  rw [hn] at hx1 hx2
  rw [hm] at hy1 hy2
  have hn1 : 0 ≤ n := by exact_mod_cast hx1
  have hn2 : n ≤ 800 := by exact_mod_cast hx2
  have hm1 : 0 ≤ m := by exact_mod_cast hy1
  have hm2 : m ≤ 600 := by exact_mod_cast hy2
  unfold trunc_diff_dist trunc_coord_dist float_sub
  rw [hn, hm, c_trunc_intCast, c_trunc_intCast]
  have h1 : ((x : ℚ) - (n : ℚ)) = ((x - n : Int) : ℚ) := by push_cast; ring
  have h2 : ((y : ℚ) - (m : ℚ)) = ((y - m : Int) : ℚ) := by push_cast; ring
  rw [h1, h2,
    round32_exact _ (is_binary32_intCast (x - n) (by rw [abs_lt]; constructor <;> omega)),
    round32_exact _ (is_binary32_intCast (y - m) (by rw [abs_lt]; constructor <;> omega)),
    c_trunc_intCast, c_trunc_intCast]

/-- The lowest index attaining the minimum of `d` over `0 .. n - 1` is unique. -/
theorem first_min_unique (d : Nat → Int) (n k1 k2 : Nat) (h1 : k1 < n) (h2 : k2 < n)
    (hmin1 : ∀ i, i < n → d k1 ≤ d i) (hfirst1 : ∀ i, i < k1 → d k1 < d i)
    (hmin2 : ∀ i, i < n → d k2 ≤ d i) (hfirst2 : ∀ i, i < k2 → d k2 < d i) : k1 = k2 := by
  rcases Nat.lt_trichotomy k1 k2 with h | h | h
  · have a := hfirst2 k1 h
    have b := hmin1 k2 h2
    omega
  · exact h
  · have a := hfirst1 k2 h
    have b := hmin2 k1 h1
    omega

/-! ## Concrete inputs -/

theorem round32_natCast (n : Nat) (h : n < 2 ^ 24) : round32 (n : ℚ) = (n : ℚ) :=
  round32_exact _ (is_binary32_natCast n h)

theorem round32_half : round32 (1 / 2) = 1 / 2 :=
  round32_exact _ ⟨1, -1, by norm_num, by norm_num, by norm_num⟩

theorem round32_zero_one : round32 0 = 0 ∧ round32 1 = 1 := by
  have h0 := round32_natCast 0 (by norm_num)
  have h1 := round32_natCast 1 (by norm_num)
  simp only [Nat.cast_zero, Nat.cast_one] at h0 h1
  exact ⟨h0, h1⟩

theorem seeds_half_x (i : Nat) : (seeds_half i).x = if i = 0 then 1 / 2 else 1 := by
  unfold seeds_half Vector2.of
  split
  · exact round32_half
  · exact round32_zero_one.2

theorem seeds_half_y (i : Nat) : (seeds_half i).y = 0 := by
  unfold seeds_half Vector2.of
  split <;> exact round32_zero_one.1

theorem seeds_half_in_range (i : Nat) : seed_in_range (seeds_half i) := by
  unfold seed_in_range
  rw [seeds_half_x, seeds_half_y, WIDTH_eq, HEIGHT_eq]
  split <;> norm_num

theorem seeds_int_xy (i : Nat) : (seeds_int i).x = 3 ∧ (seeds_int i).y = 4 := by
  have h3 := round32_natCast 3 (by norm_num)
  have h4 := round32_natCast 4 (by norm_num)
  simp only [Nat.cast_ofNat] at h3 h4
  exact ⟨h3, h4⟩

theorem seeds_int_in_range (i : Nat) : seed_in_range (seeds_int i) := by
  unfold seed_in_range
  rw [(seeds_int_xy i).1, (seeds_int_xy i).2, WIDTH_eq, HEIGHT_eq]
  norm_num

theorem seeds_int_integral (i : Nat) : seed_integral (seeds_int i) :=
  ⟨⟨3, by rw [(seeds_int_xy i).1]; norm_num⟩, ⟨4, by rw [(seeds_int_xy i).2]; norm_num⟩⟩

theorem in_bounds_0_1 : in_bounds 0 1 := by
  unfold in_bounds; rw [WIDTH_eq, HEIGHT_eq]; decide

theorem seed_dist_half_pixel (i : Nat) : seed_dist (seeds_half i) 1 0 = 0 := by
  rw [seed_dist_eq _ 1 0 (seeds_half_in_range i) in_bounds_0_1]
  unfold trunc_diff_dist float_sub
  rw [seeds_half_x, seeds_half_y]
  have h2 : c_trunc (round32 (((0 : Int) : ℚ) - 0)) = 0 := by
    rw [show ((0 : Int) : ℚ) - 0 = 0 by norm_num, round32_zero_one.1]
    unfold c_trunc; norm_num
  by_cases h : i = 0
  · rw [if_pos h]
    have h1 : c_trunc (round32 (((1 : Int) : ℚ) - 1 / 2)) = 0 := by
      rw [show ((1 : Int) : ℚ) - 1 / 2 = 1 / 2 by norm_num, round32_half]
      unfold c_trunc; norm_num
    rw [h1, h2]; decide
  · rw [if_neg h]
    have h1 : c_trunc (round32 (((1 : Int) : ℚ) - 1)) = 0 := by
      rw [show ((1 : Int) : ℚ) - 1 = 0 by norm_num, round32_zero_one.1]
      unfold c_trunc; norm_num
    rw [h1, h2]; decide

theorem trunc_coord_dist_half_pixel (i : Nat) :
    trunc_coord_dist (seeds_half i) 1 0 = if i = 0 then 1 else 0 := by
  unfold trunc_coord_dist
  rw [seeds_half_x, seeds_half_y]
  have h2 : c_trunc (0 : ℚ) = 0 := by unfold c_trunc; norm_num
  by_cases h : i = 0
  · rw [if_pos h, if_pos h]
    have h1 : c_trunc ((1 : ℚ) / 2) = 0 := by unfold c_trunc; norm_num
    rw [h1, h2]; decide
  · rw [if_neg h, if_neg h]
    have h1 : c_trunc (1 : ℚ) = 1 := by unfold c_trunc; norm_num
    rw [h1, h2]; decide

/-- With `seeds_half` the depth-buffer assigner gives the pixel `(1, 0)` to seed 0. -/
theorem interesting_half_pixel :
    ∃ r', render_voronoi_interesting seeds_half raster_zero = some r' ∧
      r'.image 0 1 = palette_at 0 := by
  obtain ⟨r', hr', hst⟩ := render_voronoi_interesting_state seeds_half raster_zero
  refine ⟨r', hr', ?_⟩
  obtain ⟨k, _, himg, _, _, hfirst⟩ := hst 0 1 in_bounds_0_1
  by_cases hk : k = 0
  · rw [himg, hk]
  · have := hfirst 0 (by omega)
    rw [seed_dist_half_pixel, seed_dist_half_pixel] at this
    omega

/-! ## C1: the nearest-seed invariant of the depth-buffer assigner -/

/-- C1, counterexample: with seed 0 at `(0.5, 0)` and the other seeds at `(1, 0)`, seed 1 is the
lowest-indexed seed nearest to the pixel `(1, 0)` when the seed coordinates are truncated, yet
`render_voronoi_interesting` leaves the colour of seed 0 there. -/
theorem C1_counterexample :
    ∃ r', render_voronoi_interesting seeds_half raster_zero = some r' ∧
      in_bounds 0 1 ∧ 1 < SEEDS_COUNT ∧
      (∀ i, i < SEEDS_COUNT →
        trunc_coord_dist (seeds_half 1) 1 0 ≤ trunc_coord_dist (seeds_half i) 1 0) ∧
      (∀ i, i < 1 →
        trunc_coord_dist (seeds_half 1) 1 0 < trunc_coord_dist (seeds_half i) 1 0) ∧
      r'.image 0 1 ≠ palette_at 1 := by
  obtain ⟨r', hr', himg⟩ := interesting_half_pixel
  refine ⟨r', hr', in_bounds_0_1, by rw [SEEDS_COUNT_eq]; decide, ?_, ?_, ?_⟩
  · intro i _
    rw [trunc_coord_dist_half_pixel, trunc_coord_dist_half_pixel, if_neg (by decide)]
    split <;> decide
  · intro i hi
    rw [trunc_coord_dist_half_pixel, trunc_coord_dist_half_pixel]
    have : i = 0 := by omega
    simp [this]
  · rw [himg]; decide

/-- C1, amended: for every seed set, `render_voronoi_interesting` returns and every pixel
`(x, y)` of the grid gets `palette[k % 7]`, where `k` is the lowest seed index minimising the
value `d = dx * dx + dy * dy` that `apply_next_seed` computes (`seed_dist`), `dx` and `dy`
being the `int` conversions of the binary32 differences `x - sx` and `y - sy` (the differences,
not the seed coordinates, are truncated toward zero).  Whenever
`trunc(x - sx)^2 + trunc(y - sy)^2` fits in `int`, `d` is that number, and it fits for every
seed in `[0, WIDTH] x [0, HEIGHT]`. -/
theorem C1_nearest_seed (seed_positions : Nat → Vector2) (r : Raster) :
    ∃ r', render_voronoi_interesting seed_positions r = some r' ∧
      ∀ y x, in_bounds y x →
        (∃ k, k < SEEDS_COUNT ∧ r'.image y x = palette_at k ∧
          (∀ i, i < SEEDS_COUNT →
            seed_dist (seed_positions k) x y ≤ seed_dist (seed_positions i) x y) ∧
          (∀ i, i < k →
            seed_dist (seed_positions k) x y < seed_dist (seed_positions i) x y)) ∧
        (∀ i, c_trunc (float_sub (x : ℚ) (seed_positions i).x) ^ 2 +
              c_trunc (float_sub (y : ℚ) (seed_positions i).y) ^ 2 ≤ 2147483647 →
          seed_dist (seed_positions i) x y =
            c_trunc (float_sub (x : ℚ) (seed_positions i).x) ^ 2 +
              c_trunc (float_sub (y : ℚ) (seed_positions i).y) ^ 2) ∧
        (∀ i, seed_in_range (seed_positions i) →
          c_trunc (float_sub (x : ℚ) (seed_positions i).x) ^ 2 +
            c_trunc (float_sub (y : ℚ) (seed_positions i).y) ^ 2 ≤ 2147483647) := by
  obtain ⟨r', hr', hst⟩ := render_voronoi_interesting_state seed_positions r
  refine ⟨r', hr', ?_⟩
  intro y x hb
  obtain ⟨k, hk, himg, _, hmin, hfirst⟩ := hst y x hb
  refine ⟨⟨k, hk, himg, hmin, hfirst⟩, ?_, ?_⟩
  · intro i hi
    exact seed_dist_exact (seed_positions i) x y hb hi
  · intro i hi
    obtain ⟨⟨hx1, hx2⟩, ⟨hy1, hy2⟩⟩ := trunc_diff_bounds (seed_positions i) x y hi hb
    nlinarith

theorem seeds_tiny_xy (i : Nat) :
    (seeds_tiny i).x = (if i = 0 then 1 / 1048576 else 1 / 2) ∧ (seeds_tiny i).y = 0 := by
  unfold seeds_tiny Vector2.of
  by_cases h : i = 0
  · rw [if_pos h, if_pos h]
    exact ⟨round32_exact _ ⟨1, -20, by norm_num, by norm_num, by norm_num⟩, round32_zero_one.1⟩
  · rw [if_neg h, if_neg h]
    exact ⟨round32_half, round32_zero_one.1⟩

theorem seeds_tiny_in_range (i : Nat) : seed_in_range (seeds_tiny i) := by
  unfold seed_in_range
  rw [(seeds_tiny_xy i).1, (seeds_tiny_xy i).2, WIDTH_eq, HEIGHT_eq]
  split <;> norm_num

theorem in_bounds_0_799 : in_bounds 0 799 := by
  unfold in_bounds; rw [WIDTH_eq, HEIGHT_eq]; decide

/-- The binary32 difference `799 - 2 ^ -20` is `799`: seed 0 of `seeds_tiny` is at distance
`799 ^ 2` from the pixel `(799, 0)`, the other seeds at `798 ^ 2`. -/
theorem seed_dist_tiny (i : Nat) :
    seed_dist (seeds_tiny i) 799 0 = if i = 0 then 638401 else 636804 := by
  rw [seed_dist_eq _ 799 0 (seeds_tiny_in_range i) in_bounds_0_799]
  unfold trunc_diff_dist float_sub
  rw [(seeds_tiny_xy i).1, (seeds_tiny_xy i).2]
  have h2 : c_trunc (round32 (((0 : Int) : ℚ) - 0)) = 0 := by
    rw [show ((0 : Int) : ℚ) - 0 = 0 by norm_num, round32_zero_one.1]
    unfold c_trunc; norm_num
  by_cases h : i = 0
  · rw [if_pos h, if_pos h]
    have h1 : c_trunc (round32 (((799 : Int) : ℚ) - 1 / 1048576)) = 799 := by
      have hr : round32 (((799 : Int) : ℚ) - 1 / 1048576) = 799 := by
        unfold round32
        rw [ulp_exp_of_binade _ 9 (by rw [abs_of_pos (by norm_num)]; norm_num)
          (by rw [abs_of_pos (by norm_num)]; norm_num) (by norm_num)]
        rw [round_even_eval _ 13090815 (by norm_num) (by norm_num)]
        norm_num
      rw [hr]
      unfold c_trunc; norm_num
    rw [h1, h2]; decide
  · rw [if_neg h, if_neg h]
    have h1 : c_trunc (round32 (((799 : Int) : ℚ) - 1 / 2)) = 798 := by
      have hr : round32 (((799 : Int) : ℚ) - 1 / 2) = 1597 / 2 := by
        rw [show ((799 : Int) : ℚ) - 1 / 2 = 1597 / 2 by norm_num]
        exact round32_exact _ ⟨1597, -1, by norm_num, by norm_num, by norm_num⟩
      rw [hr]
      unfold c_trunc
      rw [if_pos (by norm_num), Int.floor_eq_iff]
      norm_num
    rw [h1, h2]; decide

/-- Witness of C1: seed 0 at `(2 ^ -20, 0)`, the other seeds at `(0.5, 0)`.  At the pixel
`(799, 0)` the binary32 difference `799 - 2 ^ -20` is `799`, so seed 0 has `d = 638401`, the
other seeds have `d = 636804`, and the pixel goes to seed 1. -/
theorem C1_nearest_seed_witness :
    in_bounds 0 799 ∧ seed_dist (seeds_tiny 0) 799 0 = 638401 ∧
    (∀ i, i ≠ 0 → seed_dist (seeds_tiny i) 799 0 = 636804) ∧
    ∃ r', render_voronoi_interesting seeds_tiny raster_zero = some r' ∧
      r'.image 0 799 = palette_at 1 := by
  refine ⟨in_bounds_0_799, by rw [seed_dist_tiny, if_pos rfl],
    fun i hi => by rw [seed_dist_tiny, if_neg hi], ?_⟩
  obtain ⟨r', hr', h⟩ := C1_nearest_seed seeds_tiny raster_zero
  refine ⟨r', hr', ?_⟩
  obtain ⟨⟨k, hk, himg, hmin, hfirst⟩, _⟩ := h 0 799 in_bounds_0_799
  have e1 : seed_dist (seeds_tiny 1) 799 0 = 636804 := by
    rw [seed_dist_tiny, if_neg (by decide)]
  have ek := seed_dist_tiny k
  have h1 := hmin 1 (by rw [SEEDS_COUNT_eq]; decide)
  rw [e1] at h1
  have hk0 : k ≠ 0 := by
    intro h0
    rw [if_pos h0] at ek
    omega
  rw [if_neg hk0] at ek
  have hk1 : k = 1 := by
    by_contra hne
    have h2 := hfirst 1 (by omega)
    rw [e1, ek] at h2
    omega
  rw [himg, hk1]

/-! ## C2: the two assigners compared -/

theorem naive_dist_half_pixel (i : Nat) :
    naive_dist seeds_half i 1 0 = if i = 0 then 1 else 0 := by
  rw [naive_dist_eq seeds_half i 1 0 (seeds_half_in_range i) in_bounds_0_1,
    trunc_coord_dist_half_pixel]

/-- With `seeds_half` the per-pixel scan gives the pixel `(1, 0)` to seed 1. -/
theorem naive_half_pixel :
    ∃ image', render_voronoi_naive seeds_half raster_zero.image = some image' ∧
      image' 0 1 = palette_at 1 := by
  obtain ⟨image', h', hst⟩ := render_voronoi_naive_state seeds_half raster_zero.image
  refine ⟨image', h', ?_⟩
  obtain ⟨k, _, himg, hmin, hfirst⟩ := hst 0 1 in_bounds_0_1
  have e1 : naive_dist seeds_half 1 1 0 = 0 := by rw [naive_dist_half_pixel]; decide
  have ek := naive_dist_half_pixel k
  have h1 := hmin 1 (by rw [SEEDS_COUNT_eq]; decide)
  rw [e1] at h1
  have hk0 : k ≠ 0 := by
    intro h0
    rw [if_pos h0] at ek
    omega
  rw [if_neg hk0] at ek
  have hk1 : k = 1 := by
    by_contra hne
    have h2 := hfirst 1 (by omega)
    rw [e1, ek] at h2
    omega
  rw [himg, hk1]

/-- C2, counterexample: with seed 0 at `(0.5, 0)` and the other seeds at `(1, 0)` the two
assigners colour the pixel `(1, 0)` differently. -/
theorem C2_counterexample :
    ∃ r' image', render_voronoi_interesting seeds_half raster_zero = some r' ∧
      render_voronoi_naive seeds_half raster_zero.image = some image' ∧
      in_bounds 0 1 ∧ r'.image 0 1 ≠ image' 0 1 := by
  obtain ⟨r', hr', h1⟩ := interesting_half_pixel
  obtain ⟨image', hi', h2⟩ := naive_half_pixel
  refine ⟨r', image', hr', hi', in_bounds_0_1, ?_⟩
  rw [h1, h2]; decide

/-- C2, amended: for seeds with integer coordinates in `[0, WIDTH] x [0, HEIGHT]`,
`render_voronoi_interesting` and `render_voronoi_naive` both succeed and leave the same colour
at every pixel of the grid. -/
theorem C2_equivalence_integral (seed_positions : Nat → Vector2) (r : Raster)
    (hs : ∀ i, i < SEEDS_COUNT → seed_in_range (seed_positions i))
    (hint : ∀ i, i < SEEDS_COUNT → seed_integral (seed_positions i)) :
    ∃ r' image', render_voronoi_interesting seed_positions r = some r' ∧
      render_voronoi_naive seed_positions r.image = some image' ∧
      ∀ y x, in_bounds y x → r'.image y x = image' y x := by
  obtain ⟨r', hr', hst1⟩ := render_voronoi_interesting_state seed_positions r
  obtain ⟨image', hi', hst2⟩ := render_voronoi_naive_state seed_positions r.image
  refine ⟨r', image', hr', hi', ?_⟩
  intro y x hb
  obtain ⟨k1, hk1, himg1, _, hmin1, hfirst1⟩ := hst1 y x hb
  obtain ⟨k2, hk2, himg2, hmin2, hfirst2⟩ := hst2 y x hb
  have hd : ∀ i, i < SEEDS_COUNT →
      naive_dist seed_positions i x y = seed_dist (seed_positions i) x y := by
    intro i hi
    rw [naive_dist_eq seed_positions i x y (hs i hi) hb, seed_dist_eq _ x y (hs i hi) hb,
      trunc_dists_integral _ x y (hint i hi) (hs i hi) hb]
  have hk : k1 = k2 := by
    apply first_min_unique (fun i => seed_dist (seed_positions i) x y) SEEDS_COUNT k1 k2 hk1 hk2
      hmin1 hfirst1
    · intro i hi
      rw [← hd k2 hk2, ← hd i hi]
      exact hmin2 i hi
    · intro i hi
      rw [← hd k2 hk2, ← hd i (by omega)]
      exact hfirst2 i hi
  rw [himg1, himg2, hk]

/-- Witness of C2: every seed at `(3, 4)`. -/
theorem C2_equivalence_integral_witness :
    (∀ i, i < SEEDS_COUNT → seed_in_range (seeds_int i)) ∧
    (∀ i, i < SEEDS_COUNT → seed_integral (seeds_int i)) ∧
    ∃ r' image', render_voronoi_interesting seeds_int raster_zero = some r' ∧
      render_voronoi_naive seeds_int raster_zero.image = some image' ∧
      ∀ y x, in_bounds y x → r'.image y x = image' y x :=
  ⟨fun i _ => seeds_int_in_range i, fun i _ => seeds_int_integral i,
    C2_equivalence_integral seeds_int raster_zero (fun i _ => seeds_int_in_range i)
      (fun i _ => seeds_int_integral i)⟩

/-! ## C3: the motion step -/

theorem int_to_float_WIDTH : int_to_float (WIDTH : Int) = (WIDTH : ℚ) := by
  rw [int_to_float_eq _ (by rw [WIDTH_eq]; norm_num)]
  norm_cast

theorem int_to_float_HEIGHT : int_to_float (HEIGHT : Int) = (HEIGHT : ℚ) := by
  rw [int_to_float_eq _ (by rw [HEIGHT_eq]; norm_num)]
  norm_cast

/-- Multiplication of a `float` by `-1` is exact. -/
theorem float_neg (v : ℚ) (h : is_binary32 v) : float_mul v (int_to_float (-1)) = -v := by
  unfold float_mul
  rw [int_to_float_eq (-1) (by norm_num)]
  have e : v * ((-1 : Int) : ℚ) = -v := by push_cast; ring
  rw [e]
  exact round32_exact _ (is_binary32_neg v h)

/-- The motion loop body leaves every other seed alone. -/
theorem move_seed_other (s : SeedState) (i j : Nat) (h : j ≠ i) :
    (move_seed s i).positions j = s.positions j ∧
      (move_seed s i).velocities j = s.velocities j := by
  unfold move_seed
  by_cases hx : 0 ≤ float_add (s.positions i).x (s.velocities i).x ∧
      float_add (s.positions i).x (s.velocities i).x ≤ int_to_float (WIDTH : Int) <;>
  by_cases hy : 0 ≤ float_add (s.positions i).y (s.velocities i).y ∧
      float_add (s.positions i).y (s.velocities i).y ≤ int_to_float (HEIGHT : Int) <;>
  simp [hx, hy, Function.update_noteq h]

theorem move_seed_self_aux (s : SeedState) (i : Nat) :
    ((move_seed s i).positions i).x =
      (if 0 ≤ float_add (s.positions i).x (s.velocities i).x ∧
          float_add (s.positions i).x (s.velocities i).x ≤ int_to_float (WIDTH : Int)
        then float_add (s.positions i).x (s.velocities i).x else (s.positions i).x) ∧
    ((move_seed s i).positions i).y =
      (if 0 ≤ float_add (s.positions i).y (s.velocities i).y ∧
          float_add (s.positions i).y (s.velocities i).y ≤ int_to_float (HEIGHT : Int)
        then float_add (s.positions i).y (s.velocities i).y else (s.positions i).y) ∧
    ((move_seed s i).velocities i).x =
      (if 0 ≤ float_add (s.positions i).x (s.velocities i).x ∧
          float_add (s.positions i).x (s.velocities i).x ≤ int_to_float (WIDTH : Int)
        then (s.velocities i).x else -(s.velocities i).x) ∧
    ((move_seed s i).velocities i).y =
      (if 0 ≤ float_add (s.positions i).y (s.velocities i).y ∧
          float_add (s.positions i).y (s.velocities i).y ≤ int_to_float (HEIGHT : Int)
        then (s.velocities i).y else -(s.velocities i).y) := by
  have nx := float_neg _ (s.velocities i).x_binary32
  have ny := float_neg _ (s.velocities i).y_binary32
  unfold move_seed
  by_cases hx : 0 ≤ float_add (s.positions i).x (s.velocities i).x ∧
      float_add (s.positions i).x (s.velocities i).x ≤ int_to_float (WIDTH : Int) <;>
  by_cases hy : 0 ≤ float_add (s.positions i).y (s.velocities i).y ∧
      float_add (s.positions i).y (s.velocities i).y ≤ int_to_float (HEIGHT : Int) <;>
  simp [hx, hy, nx, ny]

/-- The new position and velocity of seed `i` in terms of the old ones. -/
theorem move_seed_self (s : SeedState) (i : Nat) :
    ((move_seed s i).positions i).x =
      (if 0 ≤ float_add (s.positions i).x (s.velocities i).x ∧
          float_add (s.positions i).x (s.velocities i).x ≤ (WIDTH : ℚ)
        then float_add (s.positions i).x (s.velocities i).x else (s.positions i).x) ∧
    ((move_seed s i).positions i).y =
      (if 0 ≤ float_add (s.positions i).y (s.velocities i).y ∧
          float_add (s.positions i).y (s.velocities i).y ≤ (HEIGHT : ℚ)
        then float_add (s.positions i).y (s.velocities i).y else (s.positions i).y) ∧
    ((move_seed s i).velocities i).x =
      (if 0 ≤ float_add (s.positions i).x (s.velocities i).x ∧
          float_add (s.positions i).x (s.velocities i).x ≤ (WIDTH : ℚ)
        then (s.velocities i).x else -(s.velocities i).x) ∧
    ((move_seed s i).velocities i).y =
      (if 0 ≤ float_add (s.positions i).y (s.velocities i).y ∧
          float_add (s.positions i).y (s.velocities i).y ≤ (HEIGHT : ℚ)
        then (s.velocities i).y else -(s.velocities i).y) := by
  have h := move_seed_self_aux s i
  rw [int_to_float_WIDTH, int_to_float_HEIGHT] at h
  exact h

theorem move_seeds_fold (s : SeedState) (n : Nat) :
    ∀ i, (i < n →
        ((List.range n).foldl move_seed s).positions i = (move_seed s i).positions i ∧
        ((List.range n).foldl move_seed s).velocities i = (move_seed s i).velocities i) ∧
      (n ≤ i →
        ((List.range n).foldl move_seed s).positions i = s.positions i ∧
        ((List.range n).foldl move_seed s).velocities i = s.velocities i) := by
  induction n with
  | zero =>
    intro i
    exact ⟨fun h => absurd h (Nat.not_lt_zero i), fun _ => ⟨rfl, rfl⟩⟩
  | succ n ih =>
    intro i
    rw [List.range_succ, List.foldl_append, List.foldl_cons, List.foldl_nil]
    constructor
    · intro hi
      by_cases hin : i = n
      · subst hin
        obtain ⟨hp, hv⟩ := (ih i).2 (le_refl i)
        have h1 := move_seed_self ((List.range i).foldl move_seed s) i
        have h2 := move_seed_self s i
        rw [hp, hv] at h1
        exact ⟨Vector2.eq_of _ _ (h1.1.trans h2.1.symm) (h1.2.1.trans h2.2.1.symm),
          Vector2.eq_of _ _ (h1.2.2.1.trans h2.2.2.1.symm) (h1.2.2.2.trans h2.2.2.2.symm)⟩
      · obtain ⟨hp, hv⟩ := move_seed_other ((List.range n).foldl move_seed s) n i hin
        obtain ⟨hp', hv'⟩ := (ih i).1 (by omega)
        exact ⟨hp.trans hp', hv.trans hv'⟩
    · intro hi
      obtain ⟨hp, hv⟩ := move_seed_other ((List.range n).foldl move_seed s) n i (by omega)
      obtain ⟨hp', hv'⟩ := (ih i).2 (by omega)
      exact ⟨hp.trans hp', hv.trans hv'⟩

/-- One tick moves seed `i` as the loop body alone would. -/
theorem move_seeds_at (s : SeedState) (i : Nat) (hi : i < SEEDS_COUNT) :
    (move_seeds s).positions i = (move_seed s i).positions i ∧
      (move_seeds s).velocities i = (move_seed s i).velocities i :=
  (move_seeds_fold s SEEDS_COUNT i).1 hi

theorem round32_five : round32 (-5) = -5 ∧ round32 805 = 805 := by
  have h1 := round32_exact _ (is_binary32_intCast (-5) (by norm_num))
  have h2 := round32_natCast 805 (by norm_num)
  push_cast at h1 h2
  exact ⟨h1, h2⟩

/-- C3: in one tick of the motion loop, for each seed `i` and each axis, the candidate
`c = position + velocity`, the binary32 sum the code forms, is committed with the velocity kept
when it lies in `[0, WIDTH]` (`[0, HEIGHT]` for y), and otherwise the position is kept and the
velocity negated; a seed at `x = 0` with velocity `-5`, or at `x = WIDTH` with velocity `+5`,
keeps its `x` and has its velocity negated. -/
theorem C3_motion_step (s : SeedState) (i : Nat) (hi : i < SEEDS_COUNT) :
    ((0 ≤ float_add (s.positions i).x (s.velocities i).x ∧
        float_add (s.positions i).x (s.velocities i).x ≤ (WIDTH : ℚ)) →
      ((move_seeds s).positions i).x = float_add (s.positions i).x (s.velocities i).x ∧
      ((move_seeds s).velocities i).x = (s.velocities i).x) ∧
    (¬ (0 ≤ float_add (s.positions i).x (s.velocities i).x ∧
        float_add (s.positions i).x (s.velocities i).x ≤ (WIDTH : ℚ)) →
      ((move_seeds s).positions i).x = (s.positions i).x ∧
      ((move_seeds s).velocities i).x = -(s.velocities i).x) ∧
    ((0 ≤ float_add (s.positions i).y (s.velocities i).y ∧
        float_add (s.positions i).y (s.velocities i).y ≤ (HEIGHT : ℚ)) →
      ((move_seeds s).positions i).y = float_add (s.positions i).y (s.velocities i).y ∧
      ((move_seeds s).velocities i).y = (s.velocities i).y) ∧
    (¬ (0 ≤ float_add (s.positions i).y (s.velocities i).y ∧
        float_add (s.positions i).y (s.velocities i).y ≤ (HEIGHT : ℚ)) →
      ((move_seeds s).positions i).y = (s.positions i).y ∧
      ((move_seeds s).velocities i).y = -(s.velocities i).y) ∧
    ((s.positions i).x = 0 → (s.velocities i).x = -5 →
      ((move_seeds s).positions i).x = 0 ∧ ((move_seeds s).velocities i).x = 5) ∧
    ((s.positions i).x = (WIDTH : ℚ) → (s.velocities i).x = 5 →
      ((move_seeds s).positions i).x = (WIDTH : ℚ) ∧
      ((move_seeds s).velocities i).x = -5) := by
  obtain ⟨hp, hv⟩ := move_seeds_at s i hi
  obtain ⟨hpx, hpy, hvx, hvy⟩ := move_seed_self s i
  rw [hp, hv, hpx, hpy, hvx, hvy]
  refine ⟨?_, ?_, ?_, ?_, ?_, ?_⟩
  · intro h; simp [h]
  · intro h; simp [h]
  · intro h; simp [h]
  · intro h; simp [h]
  · intro h0 hv0
    rw [h0, hv0]
    unfold float_add
    rw [show (0 : ℚ) + -5 = -5 by norm_num, round32_five.1]
    norm_num
  · intro h0 hv0
    rw [h0, hv0]
    unfold float_add
    rw [WIDTH_eq]
    rw [show ((800 : Nat) : ℚ) + 5 = 805 by norm_num, round32_five.2]
    norm_num

theorem seed_state_edge_x :
    (seed_state_edge.positions 0).x = 790 ∧
      (seed_state_edge.velocities 0).x = 10485761 / 1048576 := by
  have h790 := round32_natCast 790 (by norm_num)
  simp only [Nat.cast_ofNat] at h790
  exact ⟨h790, round32_exact _ ⟨10485761, -20, by norm_num, by norm_num, by norm_num⟩⟩

/-- The binary32 sum of `790` and `10 + 2 ^ -20` is `800`. -/
theorem float_add_edge : float_add 790 (10485761 / 1048576) = 800 := by
  unfold float_add round32
  rw [ulp_exp_of_binade _ 9 (by rw [abs_of_pos (by norm_num)]; norm_num)
    (by rw [abs_of_pos (by norm_num)]; norm_num) (by norm_num)]
  rw [round_even_eval _ 13107200 (by norm_num) (by norm_num)]
  norm_num

/-- Witness of C3: a state whose seeds all sit at `(790, 0)` with velocity `(10 + 2 ^ -20, 0)`.
The candidate, the binary32 sum, is `800`; the tick commits it and keeps the velocity. -/
theorem C3_motion_step_witness :
    (0 : Nat) < SEEDS_COUNT ∧
    ((move_seeds seed_state_edge).positions 0).x = 800 ∧
    ((move_seeds seed_state_edge).velocities 0).x = 10485761 / 1048576 := by
  have hi : (0 : Nat) < SEEDS_COUNT := by rw [SEEDS_COUNT_eq]; decide
  have hc : float_add (seed_state_edge.positions 0).x (seed_state_edge.velocities 0).x = 800 := by
    rw [seed_state_edge_x.1, seed_state_edge_x.2, float_add_edge]
  have h := (C3_motion_step seed_state_edge 0 hi).1
    (by rw [hc, WIDTH_eq]; norm_num)
  rw [hc, seed_state_edge_x.2] at h
  exact ⟨hi, h.1, h.2⟩

/-! ## C4, C5: disc stamping -/

theorem abs_le_of_sq_sum_le (a b r : Int) (hr : 0 ≤ r) (h : a ^ 2 + b ^ 2 ≤ r ^ 2) :
    -r ≤ a ∧ a ≤ r := by
  have hb : 0 ≤ b ^ 2 := sq_nonneg b
  constructor
  · by_contra hlt
    push_neg at hlt
    nlinarith
  · by_contra hlt
    push_neg at hlt
    nlinarith

/-- Without overflow `fill_circle` stamps exactly the pixels of the grid that lie in the disc. -/
theorem fill_circle_disc (cx cy radius : Int) (color : Color32) (image : Grid Color32)
    (hr0 : 0 ≤ radius) (hr : radius ≤ 32767)
    (hx0 : -2147483648 ≤ cx - radius) (hx1 : cx + radius < 2147483647)
    (hy0 : -2147483648 ≤ cy - radius) (hy1 : cy + radius < 2147483647) :
    ∃ image', fill_circle cx cy radius color image = some image' ∧
      ∀ y x, image' y x =
        if in_bounds y x ∧ (x - cx) ^ 2 + (y - cy) ^ 2 ≤ radius ^ 2 then color
        else image y x := by
  have hwx : wrap32 (cx + radius) = cx + radius := wrap32_of_range _ (by omega) (by omega)
  have hwy : wrap32 (cy + radius) = cy + radius := wrap32_of_range _ (by omega) (by omega)
  obtain ⟨image', h', hget⟩ := fill_circle_cells cx cy radius color image
    (by rw [hwx]; unfold INT_MAX; omega) (by rw [hwy]; unfold INT_MAX; omega)
  refine ⟨image', h', ?_⟩
  intro y x
  rw [hget y x, wrap32_of_range (cx - radius) hx0 (by omega),
    wrap32_of_range (cx + radius) (by omega) (by omega),
    wrap32_of_range (cy - radius) hy0 (by omega),
    wrap32_of_range (cy + radius) (by omega) (by omega)]
  have hrr : wrap32 (radius * radius) = radius ^ 2 := by
    have h1 : 0 ≤ radius * radius := mul_self_nonneg radius
    have h2 : radius * radius ≤ 1073676289 := by nlinarith
    rw [wrap32_of_range _ (by omega) (by omega)]
    ring
  rw [hrr]
  by_cases hb : in_bounds y x
  · by_cases hsq : (cx - radius ≤ x ∧ x ≤ cx + radius) ∧ (cy - radius ≤ y ∧ y ≤ cy + radius)
    · have hd : sqr_dist cx cy x y = (x - cx) ^ 2 + (y - cy) ^ 2 := by
        unfold sqr_dist
        rw [wrap32_of_range (cx - x) (by omega) (by omega),
          wrap32_of_range (cy - y) (by omega) (by omega),
          wrapped_squares_eq _ _ (by omega) (by omega) (by omega) (by omega)]
        ring
      rw [hd]
      by_cases hin : (x - cx) ^ 2 + (y - cy) ^ 2 ≤ radius ^ 2
      · rw [if_pos ⟨hsq.1, hsq.2, hb, hin⟩, if_pos ⟨hb, hin⟩]
      · rw [if_neg (fun h => hin h.2.2.2), if_neg (fun h => hin h.2)]
    · have hout : ¬ ((x - cx) ^ 2 + (y - cy) ^ 2 ≤ radius ^ 2) := by
        intro hin
        have hxa := abs_le_of_sq_sum_le (x - cx) (y - cy) radius hr0 hin
        have hya := abs_le_of_sq_sum_le (y - cy) (x - cx) radius hr0 (by linarith)
        exact hsq ⟨⟨by omega, by omega⟩, ⟨by omega, by omega⟩⟩
      rw [if_neg (fun h => hsq ⟨h.1, h.2.1⟩), if_neg (fun h => hout h.2)]
  · rw [if_neg (fun h => hb h.2.2.1), if_neg (fun h => hb h.1)]

/-- C4: for a radius `0 <= r <= 32767` and a centre with `INT_MIN <= cx - r`, `cx + r < INT_MAX`
and the same for `cy` (so that no `int` operation overflows, the increments of the loop
counters included), `fill_circle` returns, every pixel of the grid with
`(x-cx)^2 + (y-cy)^2 <= r^2` has the colour `c` afterwards and every other pixel keeps its
colour. -/
theorem C4_fill_circle (cx cy radius : Int) (color : Color32) (image : Grid Color32)
    (hr0 : 0 ≤ radius) (hr : radius ≤ 32767)
    (hx0 : -2147483648 ≤ cx - radius) (hx1 : cx + radius < 2147483647)
    (hy0 : -2147483648 ≤ cy - radius) (hy1 : cy + radius < 2147483647) :
    ∃ image', fill_circle cx cy radius color image = some image' ∧
      (∀ y x, in_bounds y x → (x - cx) ^ 2 + (y - cy) ^ 2 ≤ radius ^ 2 →
        image' y x = color) ∧
      (∀ y x, ¬ (in_bounds y x ∧ (x - cx) ^ 2 + (y - cy) ^ 2 ≤ radius ^ 2) →
        image' y x = image y x) := by
  obtain ⟨image', h', hget⟩ :=
    fill_circle_disc cx cy radius color image hr0 hr hx0 hx1 hy0 hy1
  refine ⟨image', h', ?_, ?_⟩
  · intro y x hb hin
    rw [hget y x, if_pos ⟨hb, hin⟩]
  · intro y x hn
    rw [hget y x, if_neg hn]

/-- Witness of C4: the marker disc of radius 5 centred at `(3, 4)` on a zeroed image. -/
theorem C4_fill_circle_witness :
    (0 : Int) ≤ 5 ∧ (5 : Int) ≤ 32767 ∧
    (-2147483648 : Int) ≤ 3 - 5 ∧ (3 : Int) + 5 < 2147483647 ∧
    (-2147483648 : Int) ≤ 4 - 5 ∧ (4 : Int) + 5 < 2147483647 ∧
    ∃ image', fill_circle 3 4 5 COLOR_BLACK raster_zero.image = some image' ∧
      (∀ y x, in_bounds y x → (x - 3) ^ 2 + (y - 4) ^ 2 ≤ (5 : Int) ^ 2 →
        image' y x = COLOR_BLACK) ∧
      (∀ y x, ¬ (in_bounds y x ∧ (x - 3) ^ 2 + (y - 4) ^ 2 ≤ (5 : Int) ^ 2) →
        image' y x = raster_zero.image y x) :=
  ⟨by decide, by decide, by decide, by decide, by decide, by decide,
    C4_fill_circle 3 4 5 COLOR_BLACK raster_zero.image (by decide) (by decide) (by decide)
      (by decide) (by decide) (by decide)⟩

/-- The body of the inner loop of `fill_circle`, run for a column `x` of the grid, performs its
array write inside the array and changes no cell outside the grid. -/
theorem fill_circle_pixel_safe (cx cy radius : Int) (color : Color32) (x y : Int)
    (image : Grid Color32) (hx : 0 ≤ x ∧ x < (WIDTH : Int)) :
    ∃ image', fill_circle_pixel cx cy radius color x y image = some image' ∧
      ∀ y' x', ¬ in_bounds y' x' → image' y' x' = image y' x' := by
  unfold fill_circle_pixel
  by_cases hy : 0 ≤ y ∧ y < (HEIGHT : Int)
  · rw [if_pos hy]
    by_cases hd : sqr_dist cx cy x y ≤ wrap32 (radius * radius)
    · rw [if_pos hd]
      have hb : in_bounds y x := ⟨hy.1, hy.2, hx.1, hx.2⟩
      obtain ⟨image', h', hget⟩ := write_cells image y x color hb
      refine ⟨image', h', ?_⟩
      intro y' x' hn
      rw [hget y' x']
      have hne : ¬ (y' = y ∧ x' = x) := by
        rintro ⟨rfl, rfl⟩
        exact hn hb
      rw [if_neg hne]
    · rw [if_neg hd]
      exact ⟨image, rfl, fun _ _ _ => rfl⟩
  · rw [if_neg hy]
    exact ⟨image, rfl, fun _ _ _ => rfl⟩

/-- C5: for every centre, radius, colour and image, each array write of `fill_circle` has
`0 <= x < WIDTH` and `0 <= y < HEIGHT`: the body of the inner loop, which the code runs only
under the test `0 <= x && x < WIDTH`, never fails and changes no cell outside the grid,
whatever the loop counters.  Whenever the upper loop bounds `cx + r` and `cy + r` are not
`INT_MAX` (where the loop could not exit), the whole call returns and has changed no cell
outside the grid; at centre `(0, 0)` with radius 50 it rewrites exactly the pixels of the grid
with `x^2 + y^2 <= 2500`. -/
theorem C5_clipping :
    (∀ (cx cy radius : Int) (color : Color32) (x y : Int) (image : Grid Color32),
      0 ≤ x ∧ x < (WIDTH : Int) →
      ∃ image', fill_circle_pixel cx cy radius color x y image = some image' ∧
        ∀ y' x', ¬ in_bounds y' x' → image' y' x' = image y' x') ∧
    (∀ (cx cy radius : Int) (color : Color32) (image : Grid Color32),
      wrap32 (cx + radius) ≠ INT_MAX → wrap32 (cy + radius) ≠ INT_MAX →
      ∃ image', fill_circle cx cy radius color image = some image' ∧
        ∀ y x, ¬ in_bounds y x → image' y x = image y x) ∧
    (∀ (color : Color32) (image : Grid Color32),
      ∃ image', fill_circle 0 0 50 color image = some image' ∧
        ∀ y x, image' y x =
          if in_bounds y x ∧ (x - 0) ^ 2 + (y - 0) ^ 2 ≤ (50 : Int) ^ 2 then color
          else image y x) := by
  refine ⟨?_, ?_, ?_⟩
  · intro cx cy radius color x y image hx
    exact fill_circle_pixel_safe cx cy radius color x y image hx
  · intro cx cy radius color image hx1 hy1
    obtain ⟨image', h', hget⟩ := fill_circle_cells cx cy radius color image hx1 hy1
    refine ⟨image', h', ?_⟩
    intro y x hb
    rw [hget y x, if_neg (fun h => hb h.2.2.1)]
  · intro color image
    exact fill_circle_disc 0 0 50 color image (by decide) (by decide) (by decide) (by decide)
      (by decide) (by decide)

/-- Witness of C5: the centre `(800, 600)` on the far corner of the grid, radius 50. -/
theorem C5_clipping_witness :
    wrap32 (800 + 50) ≠ INT_MAX ∧ wrap32 (600 + 50) ≠ INT_MAX ∧
    ∃ image', fill_circle 800 600 50 COLOR_BLACK raster_zero.image = some image' ∧
      ∀ y x, ¬ in_bounds y x → image' y x = raster_zero.image y x :=
  ⟨by decide, by decide,
    C5_clipping.2.1 800 600 50 COLOR_BLACK raster_zero.image (by decide) (by decide)⟩

/-! ## C6: coincident seeds -/

/-- A pass for a seed whose position was already applied by an earlier pass changes nothing. -/
theorem apply_next_seed_repeat (seed_positions : Nat → Vector2) (image0 : Grid Color32)
    (i j : Nat) (hij : i < j) (hpos : seed_positions i = seed_positions j) (r1 : Raster)
    (hst : pass_state seed_positions image0 j r1) :
    ∃ r2, apply_next_seed seed_positions j r1 = some r2 ∧
      ∀ y x, r2.image y x = r1.image y x ∧ r2.depth y x = r1.depth y x := by
  obtain ⟨r2, hr2, hget⟩ := apply_next_seed_cells seed_positions j r1
  refine ⟨r2, hr2, ?_⟩
  intro y x
  have hg := hget y x
  have hno : ¬ (in_bounds y x ∧ seed_dist (seed_positions j) x y < r1.depth y x) := by
    intro h
    have hle := (hst y x h.1).1 i (by exact_mod_cast hij)
    rw [hpos] at hle
    exact absurd h.2 (not_lt.mpr hle)
  rw [if_neg hno] at hg
  exact ⟨congrArg Prod.fst hg, congrArg Prod.snd hg⟩

/-- C6: when two seeds `i < j` have the same position, `render_voronoi_interesting` is the
depth reset, the passes of the seeds before `j`, the pass of `j` and the remaining passes; the
pass of `j` succeeds and changes neither `image` nor `depth` at any pixel; every pixel at which
the pair is nearest (the value `d` the passes compute for it, from the binary32 coordinate
differences, is below that of every seed other than `i` and `j`) ends with `palette[i % 7]`;
and when all seeds share one position every pixel of the grid ends with the colour of
seed 0. -/
theorem C6_tie_break (seed_positions : Nat → Vector2) (r : Raster) (i j : Nat)
    (hij : i < j) (hj : j < SEEDS_COUNT) (hpos : seed_positions i = seed_positions j) :
    render_voronoi_interesting seed_positions r =
      (((reset_depth r).bind (apply_seeds seed_positions j)).bind
        (apply_next_seed seed_positions j)).bind
        (for_count (fun k t => apply_next_seed seed_positions k.toNat t)
          (SEEDS_COUNT - (j + 1)) ((j : Int) + 1)) ∧
    (∃ r1, (reset_depth r).bind (apply_seeds seed_positions j) = some r1 ∧
      ∃ r2, apply_next_seed seed_positions j r1 = some r2 ∧
        ∀ y x, r2.image y x = r1.image y x ∧ r2.depth y x = r1.depth y x) ∧
    (∃ r', render_voronoi_interesting seed_positions r = some r' ∧
      (∀ y x, in_bounds y x →
        (∀ k, k < SEEDS_COUNT → k ≠ i → k ≠ j →
          seed_dist (seed_positions i) x y < seed_dist (seed_positions k) x y) →
        r'.image y x = palette_at i) ∧
      ((∀ k, k < SEEDS_COUNT → seed_positions k = seed_positions 0) →
        ∀ y x, in_bounds y x → r'.image y x = palette_at 0)) := by
  refine ⟨?_, ?_, ?_⟩
  · unfold render_voronoi_interesting apply_seeds
    have hsplit : SEEDS_COUNT = j + (1 + (SEEDS_COUNT - (j + 1))) := by omega
    cases hr0 : reset_depth r with
    | none => rfl
    | some r0 =>
      rw [Option.some_bind, Option.some_bind]
      conv_lhs => rw [hsplit]
      rw [for_count_append]
      cases hr1 : for_count (fun i r => apply_next_seed seed_positions i.toNat r) j 0 r0 with
      | none => rfl
      | some r1 =>
        rw [Option.some_bind, Option.some_bind, for_count_append]
        simp only [for_count, zero_add, Int.toNat_ofNat]
        cases hr2 : apply_next_seed seed_positions j r1 with
        | none => rfl
        | some r2 =>
          rw [Option.some_bind, Option.some_bind, Option.some_bind]
          rfl
  · obtain ⟨r0, hr0, _, hdep⟩ := reset_depth_cells r
    obtain ⟨r1, hr1, hst⟩ := apply_seeds_state seed_positions j r0
      (fun y x hb => by rw [hdep y x, if_pos hb])
    refine ⟨r1, by rw [hr0, Option.some_bind, hr1], ?_⟩
    exact apply_next_seed_repeat seed_positions r0.image i j hij hpos r1 hst
  · obtain ⟨r', hr', hst⟩ := render_voronoi_interesting_state seed_positions r
    refine ⟨r', hr', ?_, ?_⟩
    · intro y x hb hnear
      obtain ⟨k, hk, himg, _, hmin, hfirst⟩ := hst y x hb
      by_cases hki : k = i
      · rw [himg, hki]
      · by_cases hkj : k = j
        · have h := hfirst i (by omega)
          rw [hkj, hpos] at h
          exact absurd h (lt_irrefl _)
        · have h1 := hnear k hk hki hkj
          have h2 := hmin i (by omega)
          omega
    · intro hall y x hb
      obtain ⟨k, hk, himg, _, _, hfirst⟩ := hst y x hb
      by_cases hk0 : k = 0
      · rw [himg, hk0]
      · have h := hfirst 0 (by omega)
        rw [hall k hk] at h
        exact absurd h (lt_irrefl _)

/-- Witness of C6: every seed at `(3, 4)`, the pair being the seeds 0 and 1. -/
theorem C6_tie_break_witness :
    (0 : Nat) < 1 ∧ 1 < SEEDS_COUNT ∧ seeds_int 0 = seeds_int 1 ∧
    (∃ r1, (reset_depth raster_zero).bind (apply_seeds seeds_int 1) = some r1 ∧
      ∃ r2, apply_next_seed seeds_int 1 r1 = some r2 ∧
        ∀ y x, r2.image y x = r1.image y x ∧ r2.depth y x = r1.depth y x) :=
  ⟨by decide, by rw [SEEDS_COUNT_eq]; decide, rfl,
    (C6_tie_break seeds_int raster_zero 0 1 (by decide) (by rw [SEEDS_COUNT_eq]; decide)
      rfl).2.1⟩

/-! ## C7: the PPM export -/

theorem and_shift_mask (p k : Nat) : (p &&& (255 <<< k)) >>> k = p / 2 ^ k % 256 := by
  apply Nat.eq_of_testBit_eq
  intro i
  have h256 : (256 : Nat) = 2 ^ 8 := by norm_num
  have h255 : (255 : Nat) = 2 ^ 8 - 1 := by norm_num
  rw [Nat.testBit_shiftRight, Nat.testBit_and, Nat.testBit_shiftLeft, h256,
    Nat.testBit_mod_two_pow, ← Nat.shiftRight_eq_div_pow, Nat.testBit_shiftRight, h255,
    Nat.testBit_two_pow_sub_one]
  simp
  by_cases h : i < 8 <;> simp [h]

theorem ppm_bytes_eq (p : Nat) : ppm_bytes p = [p % 256, p / 256 % 256, p / 65536 % 256] := by
  have h0 : (p &&& 0x0000FF) >>> (8 * 0) = p % 256 := by
    have := and_shift_mask p 0
    simpa using this
  have h1 : (p &&& 0x00FF00) >>> (8 * 1) = p / 256 % 256 := and_shift_mask p 8
  have h2 : (p &&& 0xFF0000) >>> (8 * 2) = p / 65536 % 256 := and_shift_mask p 16
  unfold ppm_bytes
  rw [h0, h1, h2, Nat.mod_mod, Nat.mod_mod, Nat.mod_mod]

theorem ppm_bytes_low (p q : Nat) (h : p % 2 ^ 24 = q % 2 ^ 24) : ppm_bytes p = ppm_bytes q := by
  rw [ppm_bytes_eq, ppm_bytes_eq]
  have h' : p % 16777216 = q % 16777216 := h
  have h0 : p % 256 = q % 256 := by omega
  have h1 : p / 256 % 256 = q / 256 % 256 := by omega
  have h2 : p / 65536 % 256 = q / 65536 % 256 := by omega
  rw [h0, h1, h2]

theorem concat_range_length {α : Type} (f : Nat → List α) (m : Nat) :
    ∀ n, (∀ i, i < n → (f i).length = m) → (concat_range f n).length = n * m := by
  intro n
  induction n with
  | zero => intro _; simp [concat_range]
  | succ n ih =>
    intro hf
    rw [concat_range, List.length_append, ih (fun i hi => hf i (by omega)), hf n (by omega)]
    ring

theorem concat_range_get {α : Type} (f : Nat → List α) (m : Nat) :
    ∀ n, (∀ i, i < n → (f i).length = m) → ∀ i c, i < n → c < m →
      (concat_range f n)[i * m + c]? = (f i)[c]? := by
  intro n
  induction n with
  | zero => intro _ i c hi; omega
  | succ n ih =>
    intro hf i c hi hc
    have hlen := concat_range_length f m n (fun i hi => hf i (by omega))
    rw [concat_range]
    by_cases hin : i < n
    · have hlt : i * m + c < (concat_range f n).length := by
        rw [hlen]
        calc i * m + c < i * m + m := by omega
          _ = (i + 1) * m := by ring
          _ ≤ n * m := Nat.mul_le_mul_right m hin
      rw [List.getElem?_append_left hlt]
      exact ih (fun i hi => hf i (by omega)) i c hin hc
    · have hi' : i = n := by omega
      subst hi'
      rw [List.getElem?_append_right (by rw [hlen]; omega), hlen]
      congr 1
      omega

theorem concat_range_congr {α : Type} (f g : Nat → List α) :
    ∀ n, (∀ i, i < n → f i = g i) → concat_range f n = concat_range g n := by
  intro n
  induction n with
  | zero => intro _; rfl
  | succ n ih =>
    intro h
    rw [concat_range, concat_range, ih (fun i hi => h i (by omega)), h n (by omega)]

/-- A loop that appends `g k` in iteration `k` appends `g 0 ++ ... ++ g (n - 1)`. -/
theorem for_count_concat {α : Type} (body : Int → List α → Option (List α))
    (g : Nat → List α) (n : Nat) (out0 : List α)
    (hbody : ∀ k : Nat, k < n → ∀ out, body (k : Int) out = some (out ++ g k)) :
    for_count body n 0 out0 = some (out0 ++ concat_range g n) := by
  have h := for_count_inv body
    (fun j out => 0 ≤ j ∧ out = out0 ++ concat_range g j.toNat) n 0 out0
    ⟨le_refl 0, by simp [concat_range]⟩
    (by
      intro j t h1 h2 hInv
      have hj : ((j.toNat : Nat) : Int) = j := Int.toNat_of_nonneg h1
      have hb := hbody j.toNat (by omega) t
      rw [hj] at hb
      refine ⟨t ++ g j.toNat, hb, by omega, ?_⟩
      have hs : (j + 1).toNat = j.toNat + 1 := by omega
      rw [hs, concat_range, hInv.2, List.append_assoc])
  obtain ⟨s', hs', _, hout⟩ := h
  rw [hs', hout]
  simp

theorem save_image_as_ppm_eq (image : Grid Color32) :
    save_image_as_ppm true image = some (ppm_header ++ ppm_body image) := by
  unfold save_image_as_ppm ppm_body
  rw [if_pos rfl]
  apply for_count_concat
  intro y hy out
  apply for_count_concat
  intro x hx out'
  have hb : in_bounds (y : Int) (x : Int) := ⟨by omega, by omega, by omega, by omega⟩
  unfold Grid.read
  rw [if_pos hb, Option.some_bind]

theorem ppm_header_eq : ppm_header = "P6\n800 600 255\n".toList.map Char.toNat := by
  unfold ppm_header
  rw [WIDTH_eq, HEIGHT_eq]
  decide

theorem ppm_body_length (image : Grid Color32) :
    (ppm_body image).length = 3 * WIDTH * HEIGHT := by
  unfold ppm_body
  rw [concat_range_length _ (WIDTH * 3) HEIGHT
    (fun y _ => concat_range_length _ 3 WIDTH (fun x _ => by rw [ppm_bytes_eq]; rfl))]
  ring

theorem ppm_body_get (image : Grid Color32) (y x c : Nat) (hy : y < HEIGHT) (hx : x < WIDTH)
    (hc : c < 3) :
    (ppm_body image)[3 * (y * WIDTH + x) + c]? = (ppm_bytes (image y x))[c]? := by
  have hrow : ∀ y', y' < HEIGHT →
      (concat_range (fun x' => ppm_bytes (image y' x')) WIDTH).length = WIDTH * 3 :=
    fun y' _ => concat_range_length _ 3 WIDTH (fun x' _ => by rw [ppm_bytes_eq]; rfl)
  have hidx : 3 * (y * WIDTH + x) + c = y * (WIDTH * 3) + (x * 3 + c) := by ring
  have hlt : x * 3 + c < WIDTH * 3 := by omega
  unfold ppm_body
  rw [hidx, concat_range_get _ (WIDTH * 3) HEIGHT hrow y (x * 3 + c) hy hlt]
  exact concat_range_get _ 3 WIDTH (fun x' _ => by rw [ppm_bytes_eq]; rfl) x c hx hc

/-- C7: when the file opens, `save_image_as_ppm` writes the ASCII header `P6\n800 600 255\n`
followed by `3 * WIDTH * HEIGHT` body bytes; the three bytes at body offset
`3 * (y * WIDTH + x)` are bits 0-7, 8-15 and 16-23 of `image[y][x]`; and the stream does not
depend on bits 24-31 of any pixel. -/
theorem C7_ppm_encoding (image : Grid Color32) :
    ∃ body, save_image_as_ppm true image
        = some ("P6\n800 600 255\n".toList.map Char.toNat ++ body) ∧
      body.length = 3 * WIDTH * HEIGHT ∧
      (∀ y x : Nat, y < HEIGHT → x < WIDTH →
        body[3 * (y * WIDTH + x)]? = some (image y x % 256) ∧
        body[3 * (y * WIDTH + x) + 1]? = some (image y x / 256 % 256) ∧
        body[3 * (y * WIDTH + x) + 2]? = some (image y x / 65536 % 256)) ∧
      (∀ image2 : Grid Color32,
        (∀ y x, in_bounds y x → image2 y x % 2 ^ 24 = image y x % 2 ^ 24) →
        save_image_as_ppm true image2 = save_image_as_ppm true image) := by
  refine ⟨ppm_body image, ?_, ppm_body_length image, ?_, ?_⟩
  · rw [save_image_as_ppm_eq, ppm_header_eq]
  · intro y x hy hx
    have h0 := ppm_body_get image y x 0 hy hx (by omega)
    have h1 := ppm_body_get image y x 1 hy hx (by omega)
    have h2 := ppm_body_get image y x 2 hy hx (by omega)
    rw [ppm_bytes_eq] at h0 h1 h2
    exact ⟨h0, h1, h2⟩
  · intro image2 hlow
    rw [save_image_as_ppm_eq, save_image_as_ppm_eq]
    have hbody : ppm_body image2 = ppm_body image := by
      unfold ppm_body
      apply concat_range_congr
      intro y hy
      apply concat_range_congr
      intro x hx
      exact ppm_bytes_low _ _ (hlow y x ⟨by omega, by omega, by omega, by omega⟩)
    rw [hbody]

/-! ## C8: every rendered pixel has full alpha -/

theorem palette_alpha (k : Nat) : alpha_of (palette_at k) = 255 := by
  have h : ∀ i : Fin palette_count, alpha_of (palette.get i) = 255 := by decide
  exact h ⟨k % palette_count, Nat.mod_lt k (by decide)⟩

/-- The upper loop bound of a marker disc is never `INT_MAX`: a binary32 value of that
magnitude is a multiple of 4, and `INT_MAX - 5` is not. -/
theorem marker_bound_ne (q : ℚ) (h : is_binary32 q) :
    wrap32 (float_to_int q + SEED_MARKER_RADIUS) ≠ INT_MAX := by
  obtain ⟨h1, h2⟩ := float_to_int_range q
  intro hw
  have hc : float_to_int q = 2147483642 := by
    unfold wrap32 INT_MAX SEED_MARKER_RADIUS at hw
    omega
  have ht : c_trunc q = 2147483642 := by
    unfold float_to_int at hc
    split_ifs at hc with hr
    exact hc
  unfold c_trunc at ht
  split_ifs at ht with h0
  · have hfl : ((2147483642 : Int) : ℚ) ≤ q := by
      rw [← ht]
      exact Int.floor_le q
    have habs : (2 : ℚ) ^ 26 ≤ |q| := by
      rw [abs_of_nonneg h0]
      push_cast at hfl
      linarith
    obtain ⟨k, hk⟩ := binary32_large q h habs
    rw [hk, Int.floor_intCast] at ht
    omega
  · push_neg at h0
    have : ⌈q⌉ ≤ 0 := Int.ceil_le.mpr (by exact_mod_cast le_of_lt h0)
    omega
/-- The marker loop keeps any property of the pixels that the marker colour has. -/
theorem render_seed_markers_keeps (P : Color32 → Prop) (hP : P SEED_MARKER_COLOR)
    (seed_positions : Nat → Vector2) (image : Grid Color32)
    (himg : ∀ y x, in_bounds y x → P (image y x)) :
    ∃ image', render_seed_markers seed_positions image = some image' ∧
      ∀ y x, in_bounds y x → P (image' y x) := by
  unfold render_seed_markers
  have h := for_count_inv
    (fun (i : Int) (image : Grid Color32) =>
      fill_circle (float_to_int (seed_positions i.toNat).x)
        (float_to_int (seed_positions i.toNat).y) SEED_MARKER_RADIUS SEED_MARKER_COLOR image)
    (fun _ t => ∀ y x, in_bounds y x → P (t y x)) SEEDS_COUNT 0 image himg
    (by
      intro j t _ _ hInv
      obtain ⟨t', ht', hget⟩ := fill_circle_cells (float_to_int (seed_positions j.toNat).x)
        (float_to_int (seed_positions j.toNat).y) SEED_MARKER_RADIUS SEED_MARKER_COLOR t
        (marker_bound_ne _ (seed_positions j.toNat).x_binary32)
        (marker_bound_ne _ (seed_positions j.toNat).y_binary32)
      refine ⟨t', ht', ?_⟩
      intro y x hb
      rw [hget y x]
      split
      · exact hP
      · exact hInv y x hb)
  obtain ⟨image', h', hfin⟩ := h
  exact ⟨image', h', hfin⟩

/-- C8: for every seed state and every prior content of the arrays, the rendering sequence of a
frame (`fill_image(BACKGROUND_COLOR)`, `render_voronoi_interesting`, `render_seed_markers`)
succeeds and leaves every pixel of the grid with bits 24-31 equal to `0xFF`; the background,
the palette entries and the marker colour all have these bits set. -/
theorem C8_full_alpha (seed_positions : Nat → Vector2) (r : Raster) :
    (∃ r', render_frame seed_positions r = some r' ∧
      ∀ y x, in_bounds y x → alpha_of (r'.image y x) = 0xFF) ∧
    alpha_of BACKGROUND_COLOR = 0xFF ∧ (∀ k, alpha_of (palette_at k) = 0xFF) ∧
    alpha_of SEED_MARKER_COLOR = 0xFF := by
  refine ⟨?_, by decide, palette_alpha, by decide⟩
  obtain ⟨image1, h1, _⟩ := fill_image_cells BACKGROUND_COLOR r.image
  obtain ⟨r2, h2, hst⟩ := render_voronoi_interesting_state seed_positions
    { r with image := image1 }
  obtain ⟨image3, h3, hfin⟩ := render_seed_markers_keeps (fun c => alpha_of c = 0xFF)
    (by decide) seed_positions r2.image
    (fun y x hb => by
      obtain ⟨k, _, himg, _⟩ := hst y x hb
      rw [himg]
      exact palette_alpha k)
  refine ⟨{ r2 with image := image3 }, ?_, hfin⟩
  unfold render_frame
  rw [h1, Option.some_bind, h2, Option.some_bind, h3, Option.some_bind]

/-! ## C9: the palette -/

theorem palette_at_eq_iff (i j : Nat) :
    palette_at i = palette_at j ↔ i % palette_count = j % palette_count := by
  have h : ∀ a b : Fin palette_count, palette.get a = palette.get b ↔ a = b := by decide
  unfold palette_at
  rw [h, Fin.ext_iff]

/-- C9: a pass of `apply_next_seed` for the seed `i` writes no colour other than
`palette[i % 7]`; the palette has seven pairwise distinct entries; hence two seed indices get
the same colour exactly when they are congruent modulo 7, and seed 7 gets the colour of
seed 0. -/
theorem C9_palette (i j : Nat) :
    (∀ (seed_positions : Nat → Vector2) (r : Raster),
      ∃ r', apply_next_seed seed_positions i r = some r' ∧
        ∀ y x, r'.image y x ≠ r.image y x → palette[i % 7]? = some (r'.image y x)) ∧
    palette_count = 7 ∧ palette.Nodup ∧
    (palette_at i = palette_at j ↔ i % 7 = j % 7) ∧
    palette_at 7 = palette_at 0 := by
  refine ⟨?_, by decide, by decide, palette_at_eq_iff i j, by decide⟩
  intro seed_positions r
  obtain ⟨r', hr', hget⟩ := apply_next_seed_cells seed_positions i r
  refine ⟨r', hr', ?_⟩
  intro y x hne
  have hg := hget y x
  by_cases hc : in_bounds y x ∧ seed_dist (seed_positions i) x y < r.depth y x
  · rw [if_pos hc] at hg
    have himg : r'.image y x = palette_at i := congrArg Prod.fst hg
    rw [himg]
    unfold palette_at
    exact List.getElem?_eq_getElem (Nat.mod_lt i (by decide))
  · rw [if_neg hc] at hg
    exact absurd (congrArg Prod.fst hg) hne

/-! ## C10: a seed owns its own pixel -/

/-- Distance computed by a pass for a seed that sits on a pixel. -/
theorem seed_dist_on_pixel (s : Vector2) (a b x y : Int) (hs : seed_on_pixel s a b)
    (hb : in_bounds y x) : seed_dist s x y = (x - a) ^ 2 + (y - b) ^ 2 := by
  obtain ⟨hx, hy, hab⟩ := hs
  have hr : seed_in_range s := by
    obtain ⟨b1, b2, a1, a2⟩ := hab
    unfold seed_in_range
    rw [hx, hy]
    exact ⟨by exact_mod_cast a1, by exact_mod_cast le_of_lt a2, by exact_mod_cast b1,
      by exact_mod_cast le_of_lt b2⟩
  rw [seed_dist_eq s x y hr hb, trunc_dists_integral s x y ⟨⟨a, hx⟩, ⟨b, hy⟩⟩ hr hb]
  unfold trunc_coord_dist
  rw [hx, hy, c_trunc_intCast, c_trunc_intCast]

theorem sq_sum_eq_zero (u v : Int) (h : u ^ 2 + v ^ 2 = 0) : u = 0 ∧ v = 0 := by
  have hu : 0 ≤ u ^ 2 := sq_nonneg u
  have hv : 0 ≤ v ^ 2 := sq_nonneg v
  have hu0 : u ^ 2 = 0 := by omega
  have hv0 : v ^ 2 = 0 := by omega
  exact ⟨pow_eq_zero_iff (by decide) |>.mp hu0, pow_eq_zero_iff (by decide) |>.mp hv0⟩

/-- The pixel under a seed goes to the first seed located there. -/
theorem own_pixel (seed_positions : Nat → Vector2) (r : Raster)
    (hs : ∀ m, m < SEEDS_COUNT → ∃ a b : Int, seed_on_pixel (seed_positions m) a b)
    (i : Nat) (hi : i < SEEDS_COUNT) :
    ∃ r', render_voronoi_interesting seed_positions r = some r' ∧
      ∀ a b : Int, seed_on_pixel (seed_positions i) a b →
        ∀ k, k < SEEDS_COUNT → seed_positions k = seed_positions i →
          (∀ m, m < k → seed_positions m ≠ seed_positions i) →
          r'.image b a = palette_at k := by
  obtain ⟨r', hr', hst⟩ := render_voronoi_interesting_state seed_positions r
  refine ⟨r', hr', ?_⟩
  intro a b hab k hk hki hfirstk
  have hb : in_bounds b a := hab.2.2
  obtain ⟨k0, hk0, himg, _, hmin, hfirst⟩ := hst b a hb
  have hdi : seed_dist (seed_positions i) a b = 0 := by
    rw [seed_dist_on_pixel _ a b a b hab hb]; ring
  have hdk : seed_dist (seed_positions k) a b = 0 := by rw [hki]; exact hdi
  obtain ⟨a0, b0, h0⟩ := hs k0 hk0
  have hd0 := seed_dist_on_pixel _ a0 b0 a b h0 hb
  have hle := hmin i hi
  rw [hdi, hd0] at hle
  have hz : (a - a0) ^ 2 + (b - b0) ^ 2 = 0 :=
    le_antisymm hle (add_nonneg (sq_nonneg _) (sq_nonneg _))
  obtain ⟨ha, hb0⟩ := sq_sum_eq_zero _ _ hz
  have hpos0 : seed_positions k0 = seed_positions i := by
    have e1 : (seed_positions k0).x = (seed_positions i).x := by
      rw [h0.1, hab.1]; congr 1; omega
    have e2 : (seed_positions k0).y = (seed_positions i).y := by
      rw [h0.2.1, hab.2.1]; congr 1; omega
    exact Vector2.eq_of _ _ e1 e2
  have hkk : k0 = k := by
    rcases Nat.lt_trichotomy k0 k with h | h | h
    · exact absurd hpos0 (hfirstk k0 h)
    · exact h
    · have := hfirst k h
      rw [hdk, hd0, hz] at this
      exact absurd this (lt_irrefl _)
  rw [himg, hkk]

/-- C10: when every seed sits on a pixel of the grid (integer coordinates inside the grid),
after `render_voronoi_interesting` the pixel under seed `i` has the colour `palette[k % 7]` of
the lowest-indexed seed `k` located at that position; in particular it has seed `i`'s own colour
when no seed of lower index shares the position. -/
theorem C10_own_pixel (seed_positions : Nat → Vector2) (r : Raster)
    (hs : ∀ m, m < SEEDS_COUNT → ∃ a b : Int, seed_on_pixel (seed_positions m) a b)
    (i : Nat) (hi : i < SEEDS_COUNT) :
    ∃ r', render_voronoi_interesting seed_positions r = some r' ∧
      ∀ a b : Int, seed_on_pixel (seed_positions i) a b →
        (∀ k, k < SEEDS_COUNT → seed_positions k = seed_positions i →
          (∀ m, m < k → seed_positions m ≠ seed_positions i) →
          r'.image b a = palette_at k) ∧
        ((∀ m, m < i → seed_positions m ≠ seed_positions i) →
          r'.image b a = palette_at i) := by
  obtain ⟨r', hr', h⟩ := own_pixel seed_positions r hs i hi
  refine ⟨r', hr', ?_⟩
  intro a b hab
  exact ⟨h a b hab, h a b hab i hi rfl⟩

theorem seeds_corner_xy (m : Nat) :
    (seeds_corner m).x = (if m = 0 then 0 else 9) ∧
      (seeds_corner m).y = (if m = 0 then 0 else 9) := by
  have h9 := round32_natCast 9 (by norm_num)
  simp only [Nat.cast_ofNat] at h9
  unfold seeds_corner Vector2.of
  by_cases h : m = 0
  · rw [if_pos h, if_pos h]
    exact ⟨round32_zero_one.1, round32_zero_one.1⟩
  · rw [if_neg h, if_neg h]
    exact ⟨h9, h9⟩

theorem seeds_corner_on_pixel (m : Nat) : ∃ a b : Int, seed_on_pixel (seeds_corner m) a b := by
  obtain ⟨hx, hy⟩ := seeds_corner_xy m
  by_cases h : m = 0
  · refine ⟨0, 0, ?_⟩
    unfold seed_on_pixel in_bounds
    rw [hx, hy, if_pos h, WIDTH_eq, HEIGHT_eq]
    norm_num
  · refine ⟨9, 9, ?_⟩
    unfold seed_on_pixel in_bounds
    rw [hx, hy, if_neg h, WIDTH_eq, HEIGHT_eq]
    norm_num

/-- Witness of C10: seed 0 at `(0, 0)` and seed 1 at `(9, 9)`; the pixel `(9, 9)` gets the
colour of seed 1. -/
theorem C10_own_pixel_witness :
    (∀ m, m < SEEDS_COUNT → ∃ a b : Int, seed_on_pixel (seeds_corner m) a b) ∧
    1 < SEEDS_COUNT ∧
    ∃ r', render_voronoi_interesting seeds_corner raster_zero = some r' ∧
      r'.image 9 9 = palette_at 1 := by
  have hs : ∀ m, m < SEEDS_COUNT → ∃ a b : Int, seed_on_pixel (seeds_corner m) a b :=
    fun m _ => seeds_corner_on_pixel m
  have h1 : 1 < SEEDS_COUNT := by rw [SEEDS_COUNT_eq]; decide
  refine ⟨hs, h1, ?_⟩
  obtain ⟨r', hr', h⟩ := C10_own_pixel seeds_corner raster_zero hs 1 h1
  refine ⟨r', hr', ?_⟩
  have hon : seed_on_pixel (seeds_corner 1) 9 9 := by
    unfold seed_on_pixel in_bounds
    rw [(seeds_corner_xy 1).1, (seeds_corner_xy 1).2, if_neg (by decide), WIDTH_eq, HEIGHT_eq]
    norm_num
  apply (h 9 9 hon).2
  intro m hm
  have hm0 : m = 0 := by omega
  subst hm0
  intro heq
  have := congrArg Vector2.x heq
  rw [(seeds_corner_xy 0).1, (seeds_corner_xy 1).1, if_pos rfl, if_neg (by decide)] at this
  norm_num at this

/-! ## C11: the per-pixel scan meets the nearest-seed rule -/

/-- For a seed in range and a pixel of the grid, `sqr_dist` at the truncated seed coordinates
does not wrap. -/
theorem sqr_dist_trunc_eq (s : Vector2) (x y : Int) (hs : seed_in_range s)
    (hb : in_bounds y x) :
    sqr_dist (c_trunc s.x) (c_trunc s.y) x y = trunc_coord_dist s x y := by
  obtain ⟨hx1, hx2, hy1, hy2⟩ := hs
  obtain ⟨by1, by2, bx1, bx2⟩ := hb
  rw [WIDTH_eq] at hx2 bx2
  rw [HEIGHT_eq] at hy2 by2
  have hsx := c_trunc_bounds s.x 0 800 (by omega) (by omega)
    (by push_cast; exact hx1) (by push_cast at *; exact hx2)
  have hsy := c_trunc_bounds s.y 0 800 (by omega) (by omega)
    (by push_cast; exact hy1) (by push_cast at *; linarith)
  unfold sqr_dist trunc_coord_dist
  rw [wrap32_of_range (c_trunc s.x - x) (by omega) (by omega),
    wrap32_of_range (c_trunc s.y - y) (by omega) (by omega),
    wrapped_squares_eq _ _ (by omega) (by omega) (by omega) (by omega)]
  ring

/-- C11: for seeds in `[0, WIDTH] x [0, HEIGHT]`, `render_voronoi_naive` succeeds and sets every
pixel `(x, y)` of the grid to `palette[j % 7]`, where `j` is the lowest seed index minimising
`sqr_dist(trunc(sx_i), trunc(sy_i), x, y)`, a value that equals
`(x - trunc(sx_i))^2 + (y - trunc(sy_i))^2`. -/
theorem C11_naive_nearest (seed_positions : Nat → Vector2) (image : Grid Color32)
    (hs : ∀ i, i < SEEDS_COUNT → seed_in_range (seed_positions i)) :
    ∃ image', render_voronoi_naive seed_positions image = some image' ∧
      ∀ y x, in_bounds y x →
        (∀ i, i < SEEDS_COUNT →
          sqr_dist (c_trunc (seed_positions i).x) (c_trunc (seed_positions i).y) x y
            = (x - c_trunc (seed_positions i).x) ^ 2 + (y - c_trunc (seed_positions i).y) ^ 2) ∧
        ∃ j, j < SEEDS_COUNT ∧ image' y x = palette_at j ∧
          (∀ i, i < SEEDS_COUNT →
            sqr_dist (c_trunc (seed_positions j).x) (c_trunc (seed_positions j).y) x y ≤
              sqr_dist (c_trunc (seed_positions i).x) (c_trunc (seed_positions i).y) x y) ∧
          (∀ i, i < j →
            sqr_dist (c_trunc (seed_positions j).x) (c_trunc (seed_positions j).y) x y <
              sqr_dist (c_trunc (seed_positions i).x) (c_trunc (seed_positions i).y) x y) := by
  obtain ⟨image', h', hst⟩ := render_voronoi_naive_state seed_positions image
  refine ⟨image', h', ?_⟩
  intro y x hb
  have hd : ∀ i, i < SEEDS_COUNT → naive_dist seed_positions i x y =
      sqr_dist (c_trunc (seed_positions i).x) (c_trunc (seed_positions i).y) x y := by
    intro i hi
    rw [naive_dist_eq seed_positions i x y (hs i hi) hb,
      sqr_dist_trunc_eq _ x y (hs i hi) hb]
  refine ⟨fun i hi => by rw [sqr_dist_trunc_eq _ x y (hs i hi) hb]; rfl, ?_⟩
  obtain ⟨j, hj, himg, hmin, hfirst⟩ := hst y x hb
  refine ⟨j, hj, himg, ?_, ?_⟩
  · intro i hi
    rw [← hd j hj, ← hd i hi]
    exact hmin i hi
  · intro i hi
    rw [← hd j hj, ← hd i (by omega)]
    exact hfirst i hi

/-- Witness of C11: the seeds of `seeds_half` lie in range. -/
theorem C11_naive_nearest_witness :
    (∀ i, i < SEEDS_COUNT → seed_in_range (seeds_half i)) ∧
    ∃ image', render_voronoi_naive seeds_half raster_zero.image = some image' ∧
      ∀ y x, in_bounds y x →
        (∀ i, i < SEEDS_COUNT →
          sqr_dist (c_trunc (seeds_half i).x) (c_trunc (seeds_half i).y) x y
            = (x - c_trunc (seeds_half i).x) ^ 2 + (y - c_trunc (seeds_half i).y) ^ 2) ∧
        ∃ j, j < SEEDS_COUNT ∧ image' y x = palette_at j ∧
          (∀ i, i < SEEDS_COUNT →
            sqr_dist (c_trunc (seeds_half j).x) (c_trunc (seeds_half j).y) x y ≤
              sqr_dist (c_trunc (seeds_half i).x) (c_trunc (seeds_half i).y) x y) ∧
          (∀ i, i < j →
            sqr_dist (c_trunc (seeds_half j).x) (c_trunc (seeds_half j).y) x y <
              sqr_dist (c_trunc (seeds_half i).x) (c_trunc (seeds_half i).y) x y) :=
  ⟨fun i _ => seeds_half_in_range i,
    C11_naive_nearest seeds_half raster_zero.image (fun i _ => seeds_half_in_range i)⟩

/-! ## C12: what the depth-buffer assigner computes -/

/-- C12: for seeds in `[0, WIDTH] x [0, HEIGHT]`, after `render_voronoi_interesting` every pixel
`(x, y)` of the grid has `image[y][x] = palette[k % 7]` and `depth[y][x] = d_k(x, y)`, where
`d_i(x, y) = trunc(x - sx_i)^2 + trunc(y - sy_i)^2`, the differences being the binary32
differences the code forms, and `k` is the lowest index at which `d_i` is minimal. -/
theorem C12_depth_buffer (seed_positions : Nat → Vector2) (r : Raster)
    (hs : ∀ i, i < SEEDS_COUNT → seed_in_range (seed_positions i)) :
    ∃ r', render_voronoi_interesting seed_positions r = some r' ∧
      ∀ y x, in_bounds y x → ∃ k, k < SEEDS_COUNT ∧
        r'.image y x = palette_at k ∧
        r'.depth y x = c_trunc (float_sub (x : ℚ) (seed_positions k).x) ^ 2 +
          c_trunc (float_sub (y : ℚ) (seed_positions k).y) ^ 2 ∧
        (∀ i, i < SEEDS_COUNT → r'.depth y x ≤
          c_trunc (float_sub (x : ℚ) (seed_positions i).x) ^ 2 +
            c_trunc (float_sub (y : ℚ) (seed_positions i).y) ^ 2) ∧
        (∀ i, i < k → r'.depth y x <
          c_trunc (float_sub (x : ℚ) (seed_positions i).x) ^ 2 +
            c_trunc (float_sub (y : ℚ) (seed_positions i).y) ^ 2) := by
  obtain ⟨r', hr', hst⟩ := render_voronoi_interesting_state seed_positions r
  refine ⟨r', hr', ?_⟩
  intro y x hb
  obtain ⟨k, hk, himg, hdep, hmin, hfirst⟩ := hst y x hb
  have hd : ∀ i, i < SEEDS_COUNT → seed_dist (seed_positions i) x y =
      c_trunc (float_sub (x : ℚ) (seed_positions i).x) ^ 2 +
        c_trunc (float_sub (y : ℚ) (seed_positions i).y) ^ 2 :=
    fun i hi => seed_dist_eq _ x y (hs i hi) hb
  refine ⟨k, hk, himg, by rw [hdep, hd k hk], ?_, ?_⟩
  · intro i hi
    rw [hdep, ← hd i hi]
    exact hmin i hi
  · intro i hi
    rw [hdep, ← hd i (by omega)]
    exact hfirst i hi

theorem seeds_fine_xy (i : Nat) :
    (seeds_fine i).x = 4826273 / 8192 ∧ (seeds_fine i).y = 16515073 / 262144 :=
  ⟨round32_exact _ ⟨4826273, -13, by norm_num, by norm_num, by norm_num⟩,
    round32_exact _ ⟨16515073, -18, by norm_num, by norm_num, by norm_num⟩⟩

theorem seeds_fine_in_range (i : Nat) : seed_in_range (seeds_fine i) := by
  unfold seed_in_range
  rw [(seeds_fine_xy i).1, (seeds_fine_xy i).2, WIDTH_eq, HEIGHT_eq]
  norm_num

/-- The truncated binary32 differences between the pixel `(517, 128)` and a seed of
`seeds_fine`: `-72` and, the difference `128 - sy` being rounded to `65`, `65`. -/
theorem trunc_diff_fine (i : Nat) :
    c_trunc (float_sub ((517 : Int) : ℚ) (seeds_fine i).x) = -72 ∧
      c_trunc (float_sub ((128 : Int) : ℚ) (seeds_fine i).y) = 65 := by
  unfold float_sub
  rw [(seeds_fine_xy i).1, (seeds_fine_xy i).2]
  constructor
  · have hr : round32 (((517 : Int) : ℚ) - 4826273 / 8192) = -591009 / 8192 := by
      rw [show ((517 : Int) : ℚ) - 4826273 / 8192 = -591009 / 8192 by norm_num]
      exact round32_exact _ ⟨-591009, -13, by norm_num, by norm_num, by norm_num⟩
    rw [hr]
    unfold c_trunc
    rw [if_neg (by norm_num), Int.ceil_eq_iff]
    norm_num
  · have hr : round32 (((128 : Int) : ℚ) - 16515073 / 262144) = 65 := by
      unfold round32
      rw [ulp_exp_of_binade _ 6 (by rw [abs_of_pos (by norm_num)]; norm_num)
        (by rw [abs_of_pos (by norm_num)]; norm_num) (by norm_num)]
      rw [round_even_eval _ 8519679 (by norm_num) (by norm_num)]
      norm_num
    rw [hr]
    unfold c_trunc; norm_num

/-- Witness of C12: every seed at `(4826273 / 8192, 16515073 / 262144)`; at the pixel
`(517, 128)` the depth is `72 ^ 2 + 65 ^ 2 = 9409`, the binary32 difference `128 - sy` being
`65`. -/
theorem C12_depth_buffer_witness :
    (∀ i, i < SEEDS_COUNT → seed_in_range (seeds_fine i)) ∧ in_bounds 128 517 ∧
    ∃ r', render_voronoi_interesting seeds_fine raster_zero = some r' ∧
      r'.depth 128 517 = 9409 := by
  have hs : ∀ i, i < SEEDS_COUNT → seed_in_range (seeds_fine i) :=
    fun i _ => seeds_fine_in_range i
  have hb : in_bounds 128 517 := by
    unfold in_bounds; rw [WIDTH_eq, HEIGHT_eq]; decide
  refine ⟨hs, hb, ?_⟩
  obtain ⟨r', hr', h⟩ := C12_depth_buffer seeds_fine raster_zero hs
  refine ⟨r', hr', ?_⟩
  obtain ⟨k, _, _, hdep, _⟩ := h 128 517 hb
  rw [hdep, (trunc_diff_fine k).1, (trunc_diff_fine k).2]
  decide

/-! ## Seed initialisation and the motion loop -/

theorem int_to_float_mod (r n : Nat) (h0 : 0 < n) (hn : n ≤ 2 ^ 24) :
    int_to_float ((r % n : Nat) : Int) = ((r % n : Nat) : ℚ) := by
  have hlt : r % n < n := Nat.mod_lt r h0
  rw [int_to_float_eq _ (by rw [abs_lt]; constructor <;> omega)]
  norm_cast

theorem generate_fold (c : Libc) (s : SeedState) (n : Nat) :
    ∀ i, (i < n →
        (((List.range n).foldl (generate_seed c) s).positions i).x =
            ((c.rand (4 * i) % WIDTH : Nat) : ℚ) ∧
          (((List.range n).foldl (generate_seed c) s).positions i).y =
            ((c.rand (4 * i + 1) % HEIGHT : Nat) : ℚ)) ∧
      (n ≤ i → ((List.range n).foldl (generate_seed c) s).positions i = s.positions i) := by
  induction n with
  | zero =>
    intro i
    exact ⟨fun h => absurd h (Nat.not_lt_zero i), fun _ => rfl⟩
  | succ n ih =>
    intro i
    rw [List.range_succ, List.foldl_append, List.foldl_cons, List.foldl_nil]
    constructor
    · intro hi
      by_cases hin : i = n
      · subst hin
        simp only [generate_seed, Function.update_same]
        exact ⟨int_to_float_mod _ _ (by rw [WIDTH_eq]; norm_num) (by rw [WIDTH_eq]; norm_num),
          int_to_float_mod _ _ (by rw [HEIGHT_eq]; norm_num) (by rw [HEIGHT_eq]; norm_num)⟩
      · have h := (ih i).1 (by omega)
        simp only [generate_seed, Function.update_noteq hin]
        exact h
    · intro hi
      have hin : i ≠ n := by omega
      have h := (ih i).2 (by omega)
      simp only [generate_seed, Function.update_noteq hin]
      exact h

/-- The position `generate_random_seeds` gives to the seed `i`. -/
theorem generate_random_seeds_position (c : Libc) (s : SeedState) (i : Nat)
    (hi : i < SEEDS_COUNT) :
    ((generate_random_seeds c s).positions i).x = ((c.rand (4 * i) % WIDTH : Nat) : ℚ) ∧
      ((generate_random_seeds c s).positions i).y =
        ((c.rand (4 * i + 1) % HEIGHT : Nat) : ℚ) :=
  (generate_fold c s SEEDS_COUNT i).1 hi

theorem generated_in_range (c : Libc) (s : SeedState) (i : Nat) (hi : i < SEEDS_COUNT) :
    seed_in_range ((generate_random_seeds c s).positions i) := by
  obtain ⟨hx, hy⟩ := generate_random_seeds_position c s i hi
  have hw : c.rand (4 * i) % WIDTH < WIDTH := Nat.mod_lt _ (by rw [WIDTH_eq]; decide)
  have hh : c.rand (4 * i + 1) % HEIGHT < HEIGHT := Nat.mod_lt _ (by rw [HEIGHT_eq]; decide)
  unfold seed_in_range
  rw [hx, hy]
  exact ⟨Nat.cast_nonneg _, by exact_mod_cast le_of_lt hw, Nat.cast_nonneg _,
    by exact_mod_cast le_of_lt hh⟩

theorem generated_integral (c : Libc) (s : SeedState) (i : Nat) (hi : i < SEEDS_COUNT) :
    seed_integral ((generate_random_seeds c s).positions i) := by
  obtain ⟨hx, hy⟩ := generate_random_seeds_position c s i hi
  exact ⟨⟨((c.rand (4 * i) % WIDTH : Nat) : Int), by rw [hx]; push_cast; rfl⟩,
    ⟨((c.rand (4 * i + 1) % HEIGHT : Nat) : Int), by rw [hy]; push_cast; rfl⟩⟩

theorem ite_in_range (a b lo hi : ℚ) (hb : lo ≤ b ∧ b ≤ hi) :
    lo ≤ (if lo ≤ a ∧ a ≤ hi then a else b) ∧ (if lo ≤ a ∧ a ≤ hi then a else b) ≤ hi := by
  by_cases hc : lo ≤ a ∧ a ≤ hi
  · rw [if_pos hc]; exact hc
  · rw [if_neg hc]; exact hb

/-- One tick keeps a seed inside `[0, WIDTH] x [0, HEIGHT]`. -/
theorem move_seeds_in_range (s : SeedState) (i : Nat) (hi : i < SEEDS_COUNT)
    (h : seed_in_range (s.positions i)) : seed_in_range ((move_seeds s).positions i) := by
  obtain ⟨hpx, hpy, _, _⟩ := move_seed_self s i
  obtain ⟨hx1, hx2, hy1, hy2⟩ := h
  have hx := ite_in_range (float_add (s.positions i).x (s.velocities i).x) (s.positions i).x 0
    (WIDTH : ℚ) ⟨hx1, hx2⟩
  have hy := ite_in_range (float_add (s.positions i).y (s.velocities i).y) (s.positions i).y 0
    (HEIGHT : ℚ) ⟨hy1, hy2⟩
  unfold seed_in_range
  rw [(move_seeds_at s i hi).1, hpx, hpy]
  exact ⟨hx.1, hx.2, hy.1, hy.2⟩

theorem ticks_succ (n : Nat) (s : SeedState) : ticks (n + 1) s = move_seeds (ticks n s) := by
  unfold ticks
  exact Function.iterate_succ_apply' move_seeds n s

theorem ticks_in_range (s : SeedState) (h : ∀ i, i < SEEDS_COUNT → seed_in_range (s.positions i))
    (n : Nat) : ∀ i, i < SEEDS_COUNT → seed_in_range ((ticks n s).positions i) := by
  induction n with
  | zero => exact h
  | succ n ih =>
    intro i hi
    rw [ticks_succ]
    exact move_seeds_in_range _ i hi (ih i hi)

/-- For integral seeds in range the two assigners agree on the grid. -/
theorem assigners_agree (seed_positions : Nat → Vector2) (r : Raster)
    (hs : ∀ i, i < SEEDS_COUNT → seed_in_range (seed_positions i))
    (hint : ∀ i, i < SEEDS_COUNT → seed_integral (seed_positions i)) :
    ∃ r' image', render_voronoi_interesting seed_positions r = some r' ∧
      render_voronoi_naive seed_positions r.image = some image' ∧
      ∀ y x, in_bounds y x → r'.image y x = image' y x := by
  obtain ⟨r', hr', hst1⟩ := render_voronoi_interesting_state seed_positions r
  obtain ⟨image', hi', hst2⟩ := render_voronoi_naive_state seed_positions r.image
  refine ⟨r', image', hr', hi', ?_⟩
  intro y x hb
  obtain ⟨k1, hk1, himg1, _, hmin1, hfirst1⟩ := hst1 y x hb
  obtain ⟨k2, hk2, himg2, hmin2, hfirst2⟩ := hst2 y x hb
  have hd : ∀ i, i < SEEDS_COUNT →
      naive_dist seed_positions i x y = seed_dist (seed_positions i) x y := by
    intro i hi
    rw [naive_dist_eq seed_positions i x y (hs i hi) hb, seed_dist_eq _ x y (hs i hi) hb,
      trunc_dists_integral _ x y (hint i hi) (hs i hi) hb]
  have hk : k1 = k2 := by
    apply first_min_unique (fun i => seed_dist (seed_positions i) x y) SEEDS_COUNT k1 k2 hk1 hk2
      hmin1 hfirst1
    · intro i hi
      rw [← hd k2 hk2, ← hd i hi]
      exact hmin2 i hi
    · intro i hi
      rw [← hd k2 hk2, ← hd i (by omega)]
      exact hfirst2 i hi
  rw [himg1, himg2, hk]

/-! ## C13: the assigners agree on the initial seeds -/

/-- C13: `generate_random_seeds` gives every seed integer coordinates `rand() % WIDTH` and
`rand() % HEIGHT`, whatever the draws; for such seeds, and for any seed set with integer
coordinates in `[0, WIDTH] x [0, HEIGHT]`, `render_voronoi_naive` and
`render_voronoi_interesting` both succeed and give every pixel of the grid the same colour. -/
theorem C13_equivalence_initial (seed_positions : Nat → Vector2) (r : Raster)
    (hs : ∀ i, i < SEEDS_COUNT →
      ∃ a b : Int, (seed_positions i).x = (a : ℚ) ∧ (seed_positions i).y = (b : ℚ) ∧
        0 ≤ a ∧ a ≤ WIDTH ∧ 0 ≤ b ∧ b ≤ HEIGHT) :
    (∃ r' image', render_voronoi_interesting seed_positions r = some r' ∧
      render_voronoi_naive seed_positions r.image = some image' ∧
      ∀ y x, in_bounds y x → image' y x = r'.image y x) ∧
    (∀ (c : Libc) (s : SeedState),
      (∀ i, i < SEEDS_COUNT → ∃ a b : Nat, a < WIDTH ∧ b < HEIGHT ∧
        ((generate_random_seeds c s).positions i).x = (a : ℚ) ∧
        ((generate_random_seeds c s).positions i).y = (b : ℚ)) ∧
      ∃ r' image',
        render_voronoi_interesting (generate_random_seeds c s).positions r = some r' ∧
        render_voronoi_naive (generate_random_seeds c s).positions r.image = some image' ∧
        ∀ y x, in_bounds y x → image' y x = r'.image y x) := by
  constructor
  · have hr : ∀ i, i < SEEDS_COUNT → seed_in_range (seed_positions i) := by
      intro i hi
      obtain ⟨a, b, hxa, hyb, ha0, ha1, hb0, hb1⟩ := hs i hi
      unfold seed_in_range
      rw [hxa, hyb]
      exact ⟨by exact_mod_cast ha0, by exact_mod_cast ha1, by exact_mod_cast hb0,
        by exact_mod_cast hb1⟩
    have hint : ∀ i, i < SEEDS_COUNT → seed_integral (seed_positions i) := by
      intro i hi
      obtain ⟨a, b, hxa, hyb, _⟩ := hs i hi
      exact ⟨⟨a, hxa⟩, ⟨b, hyb⟩⟩
    obtain ⟨r', image', h1, h2, h3⟩ := assigners_agree seed_positions r hr hint
    exact ⟨r', image', h1, h2, fun y x hb => (h3 y x hb).symm⟩
  · intro c s
    constructor
    · intro i hi
      exact ⟨c.rand (4 * i) % WIDTH, c.rand (4 * i + 1) % HEIGHT,
        Nat.mod_lt _ (by rw [WIDTH_eq]; decide), Nat.mod_lt _ (by rw [HEIGHT_eq]; decide),
        generate_random_seeds_position c s i hi⟩
    · obtain ⟨r', image', h1, h2, h3⟩ := assigners_agree (generate_random_seeds c s).positions r
        (fun i hi => generated_in_range c s i hi) (fun i hi => generated_integral c s i hi)
      exact ⟨r', image', h1, h2, fun y x hb => (h3 y x hb).symm⟩

/-- Witness of C13: every seed at `(3, 4)`. -/
theorem C13_equivalence_initial_witness :
    (∀ i, i < SEEDS_COUNT →
      ∃ a b : Int, (seeds_int i).x = (a : ℚ) ∧ (seeds_int i).y = (b : ℚ) ∧
        0 ≤ a ∧ a ≤ WIDTH ∧ 0 ≤ b ∧ b ≤ HEIGHT) ∧
    ∃ r' image', render_voronoi_interesting seeds_int raster_zero = some r' ∧
      render_voronoi_naive seeds_int raster_zero.image = some image' ∧
      ∀ y x, in_bounds y x → image' y x = r'.image y x := by
  have hs : ∀ i, i < SEEDS_COUNT →
      ∃ a b : Int, (seeds_int i).x = (a : ℚ) ∧ (seeds_int i).y = (b : ℚ) ∧
        0 ≤ a ∧ a ≤ WIDTH ∧ 0 ≤ b ∧ b ≤ HEIGHT := by
    intro i _
    refine ⟨3, 4, by rw [(seeds_int_xy i).1]; norm_num, by rw [(seeds_int_xy i).2]; norm_num,
      ?_⟩
    rw [WIDTH_eq, HEIGHT_eq]
    decide
  exact ⟨hs, (C13_equivalence_initial seeds_int raster_zero hs).1⟩

/-! ## C14: seeds stay in the rectangle -/

/-- C14: `generate_random_seeds` places every seed at an integer position with `0 <= x < WIDTH`
and `0 <= y < HEIGHT` for any draws of `rand()`; one tick of the motion loop maps a seed with
`0 <= x <= WIDTH` and `0 <= y <= HEIGHT` to a seed within the same bounds, whatever its
velocity; hence after any number of ticks from initialisation every seed lies in
`[0, WIDTH] x [0, HEIGHT]`. -/
theorem C14_in_range :
    (∀ (c : Libc) (s : SeedState) (i : Nat), i < SEEDS_COUNT →
      ∃ a b : Nat, a < WIDTH ∧ b < HEIGHT ∧
        ((generate_random_seeds c s).positions i).x = (a : ℚ) ∧
        ((generate_random_seeds c s).positions i).y = (b : ℚ)) ∧
    (∀ (s : SeedState) (i : Nat), i < SEEDS_COUNT →
      (0 ≤ (s.positions i).x ∧ (s.positions i).x ≤ (WIDTH : ℚ) ∧
        0 ≤ (s.positions i).y ∧ (s.positions i).y ≤ (HEIGHT : ℚ)) →
      0 ≤ ((move_seeds s).positions i).x ∧ ((move_seeds s).positions i).x ≤ (WIDTH : ℚ) ∧
        0 ≤ ((move_seeds s).positions i).y ∧ ((move_seeds s).positions i).y ≤ (HEIGHT : ℚ)) ∧
    (∀ (c : Libc) (s : SeedState) (n i : Nat), i < SEEDS_COUNT →
      0 ≤ ((ticks n (generate_random_seeds c s)).positions i).x ∧
        ((ticks n (generate_random_seeds c s)).positions i).x ≤ (WIDTH : ℚ) ∧
        0 ≤ ((ticks n (generate_random_seeds c s)).positions i).y ∧
        ((ticks n (generate_random_seeds c s)).positions i).y ≤ (HEIGHT : ℚ)) := by
  refine ⟨?_, ?_, ?_⟩
  · intro c s i hi
    exact ⟨c.rand (4 * i) % WIDTH, c.rand (4 * i + 1) % HEIGHT,
      Nat.mod_lt _ (by rw [WIDTH_eq]; decide), Nat.mod_lt _ (by rw [HEIGHT_eq]; decide),
      generate_random_seeds_position c s i hi⟩
  · intro s i hi h
    exact move_seeds_in_range s i hi h
  · intro c s n i hi
    exact ticks_in_range (generate_random_seeds c s)
      (fun j hj => generated_in_range c s j hj) n i hi

/-! ## C15: a reflected seed moves on the next tick -/

/-- One tick, x axis. -/
theorem move_seeds_x (s : SeedState) (i : Nat) (hi : i < SEEDS_COUNT) :
    ((move_seeds s).positions i).x =
      (if 0 ≤ float_add (s.positions i).x (s.velocities i).x ∧
          float_add (s.positions i).x (s.velocities i).x ≤ (WIDTH : ℚ)
        then float_add (s.positions i).x (s.velocities i).x else (s.positions i).x) ∧
    ((move_seeds s).velocities i).x =
      (if 0 ≤ float_add (s.positions i).x (s.velocities i).x ∧
          float_add (s.positions i).x (s.velocities i).x ≤ (WIDTH : ℚ)
        then (s.velocities i).x else -(s.velocities i).x) := by
  obtain ⟨hpx, _, hvx, _⟩ := move_seed_self s i
  rw [(move_seeds_at s i hi).1, (move_seeds_at s i hi).2]
  exact ⟨hpx, hvx⟩

/-- One tick, y axis. -/
theorem move_seeds_y (s : SeedState) (i : Nat) (hi : i < SEEDS_COUNT) :
    ((move_seeds s).positions i).y =
      (if 0 ≤ float_add (s.positions i).y (s.velocities i).y ∧
          float_add (s.positions i).y (s.velocities i).y ≤ (HEIGHT : ℚ)
        then float_add (s.positions i).y (s.velocities i).y else (s.positions i).y) ∧
    ((move_seeds s).velocities i).y =
      (if 0 ≤ float_add (s.positions i).y (s.velocities i).y ∧
          float_add (s.positions i).y (s.velocities i).y ≤ (HEIGHT : ℚ)
        then (s.velocities i).y else -(s.velocities i).y) := by
  obtain ⟨_, hpy, _, hvy⟩ := move_seed_self s i
  rw [(move_seeds_at s i hi).1, (move_seeds_at s i hi).2]
  exact ⟨hpy, hvy⟩

/-- A coordinate in `[0, w]` that a step `v` of size at most 20 takes out of `[0, w]` stays in
`[0, w]` under the opposite step, when `w >= 40`. -/
theorem opposite_step_in_range (p v w : ℚ) (hw : 40 ≤ w) (hp : 0 ≤ p ∧ p ≤ w)
    (hv : |v| ≤ 20) (hout : ¬ (0 ≤ p + v ∧ p + v ≤ w)) : 0 ≤ p + -v ∧ p + -v ≤ w := by
  obtain ⟨hv1, hv2⟩ := abs_le.mp hv
  by_cases h0 : 0 ≤ p + v
  · have h1 : w < p + v := by
      by_contra hle
      exact hout ⟨h0, not_lt.mp hle⟩
    constructor <;> linarith
  · push_neg at h0
    constructor <;> linarith

/-- The binary32 sum of two values lies in `[0, w]` whenever their exact sum does: rounding
does not cross the binary32 values `0` and `w`. -/
theorem float_add_in_range (p v : ℚ) (w : Nat) (hw : w < 2 ^ 24)
    (h : 0 ≤ p + v ∧ p + v ≤ (w : ℚ)) : 0 ≤ float_add p v ∧ float_add p v ≤ (w : ℚ) := by
  have hb := round32_bounds (p + v) 0 (w : Int) (by norm_num)
    (by rw [abs_lt]; constructor <;> omega)
    (by push_cast; exact h.1) (by push_cast; exact h.2)
  push_cast at hb
  exact hb

/-- The same for the binary32 sums the motion loop forms: a candidate outside `[0, w]` is
followed, after the reflection, by a candidate inside `[0, w]`. -/
theorem float_opposite_step (p v : ℚ) (w : Nat) (hw : 40 ≤ w) (hw2 : w < 2 ^ 24)
    (hp : 0 ≤ p ∧ p ≤ (w : ℚ)) (hv : |v| ≤ 20)
    (hout : ¬ (0 ≤ float_add p v ∧ float_add p v ≤ (w : ℚ))) :
    0 ≤ float_add p (-v) ∧ float_add p (-v) ≤ (w : ℚ) := by
  have hex : ¬ (0 ≤ p + v ∧ p + v ≤ (w : ℚ)) := fun h => hout (float_add_in_range p v w hw2 h)
  exact float_add_in_range p (-v) w hw2
    (opposite_step_in_range p v (w : ℚ) (by exact_mod_cast hw) hp hv hex)

/-- C15: for a seed with `0 <= x <= WIDTH` and `|velocity.x| <= 20`, if a tick reflects
`velocity.x` (the candidate `x + velocity.x`, the binary32 sum the code forms, lies outside
`[0, WIDTH]`, so `x` is kept and the velocity negated), then the next tick does not reflect: it
commits the candidate `x + (-velocity.x)`, again the binary32 sum, which lies in `[0, WIDTH]`,
and keeps the reflected velocity.  The same holds for y against `[0, HEIGHT]`. -/
theorem C15_bounce_back (s : SeedState) (i : Nat) (hi : i < SEEDS_COUNT) :
    ((0 ≤ (s.positions i).x ∧ (s.positions i).x ≤ (WIDTH : ℚ)) →
      |(s.velocities i).x| ≤ 20 →
      ¬ (0 ≤ float_add (s.positions i).x (s.velocities i).x ∧
          float_add (s.positions i).x (s.velocities i).x ≤ (WIDTH : ℚ)) →
      ((move_seeds s).positions i).x = (s.positions i).x ∧
      ((move_seeds s).velocities i).x = -(s.velocities i).x ∧
      ((move_seeds (move_seeds s)).positions i).x =
        float_add (s.positions i).x (-(s.velocities i).x) ∧
      ((move_seeds (move_seeds s)).velocities i).x = -(s.velocities i).x ∧
      0 ≤ ((move_seeds (move_seeds s)).positions i).x ∧
      ((move_seeds (move_seeds s)).positions i).x ≤ (WIDTH : ℚ)) ∧
    ((0 ≤ (s.positions i).y ∧ (s.positions i).y ≤ (HEIGHT : ℚ)) →
      |(s.velocities i).y| ≤ 20 →
      ¬ (0 ≤ float_add (s.positions i).y (s.velocities i).y ∧
          float_add (s.positions i).y (s.velocities i).y ≤ (HEIGHT : ℚ)) →
      ((move_seeds s).positions i).y = (s.positions i).y ∧
      ((move_seeds s).velocities i).y = -(s.velocities i).y ∧
      ((move_seeds (move_seeds s)).positions i).y =
        float_add (s.positions i).y (-(s.velocities i).y) ∧
      ((move_seeds (move_seeds s)).velocities i).y = -(s.velocities i).y ∧
      0 ≤ ((move_seeds (move_seeds s)).positions i).y ∧
      ((move_seeds (move_seeds s)).positions i).y ≤ (HEIGHT : ℚ)) := by
  constructor
  · intro hp hv hout
    obtain ⟨hp1, hv1⟩ := move_seeds_x s i hi
    rw [if_neg hout] at hp1 hv1
    have hin := float_opposite_step (s.positions i).x (s.velocities i).x WIDTH
      (by rw [WIDTH_eq]; norm_num) (by rw [WIDTH_eq]; norm_num) hp hv hout
    obtain ⟨hp2, hv2⟩ := move_seeds_x (move_seeds s) i hi
    rw [hp1, hv1, if_pos hin] at hp2 hv2
    exact ⟨hp1, hv1, hp2, hv2, by rw [hp2]; exact hin.1, by rw [hp2]; exact hin.2⟩
  · intro hp hv hout
    obtain ⟨hp1, hv1⟩ := move_seeds_y s i hi
    rw [if_neg hout] at hp1 hv1
    have hin := float_opposite_step (s.positions i).y (s.velocities i).y HEIGHT
      (by rw [HEIGHT_eq]; norm_num) (by rw [HEIGHT_eq]; norm_num) hp hv hout
    obtain ⟨hp2, hv2⟩ := move_seeds_y (move_seeds s) i hi
    rw [hp1, hv1, if_pos hin] at hp2 hv2
    exact ⟨hp1, hv1, hp2, hv2, by rw [hp2]; exact hin.1, by rw [hp2]; exact hin.2⟩

theorem seed_state_corner_x :
    (seed_state_corner.positions 0).x = 0 ∧ (seed_state_corner.velocities 0).x = -5 :=
  ⟨round32_zero_one.1, round32_five.1⟩

/-- Witness of C15: seed 0 at `x = 0` with velocity `-5` is held for one tick and is at `x = 5`
after the next. -/
theorem C15_bounce_back_witness :
    (0 : Nat) < SEEDS_COUNT ∧
    ((move_seeds seed_state_corner).positions 0).x = (seed_state_corner.positions 0).x ∧
    ((move_seeds (move_seeds seed_state_corner)).positions 0).x
      = float_add (seed_state_corner.positions 0).x (-(seed_state_corner.velocities 0).x) :=
  ⟨by rw [SEEDS_COUNT_eq]; decide,
    ((C15_bounce_back seed_state_corner 0 (by rw [SEEDS_COUNT_eq]; decide)).1
      (by rw [seed_state_corner_x.1, WIDTH_eq]; norm_num)
      (by rw [seed_state_corner_x.2]; norm_num [abs_le])
      (by
        rw [seed_state_corner_x.1, seed_state_corner_x.2]
        unfold float_add
        rw [show (0 : ℚ) + -5 = -5 by norm_num, round32_five.1]
        norm_num)).1,
    ((C15_bounce_back seed_state_corner 0 (by rw [SEEDS_COUNT_eq]; decide)).1
      (by rw [seed_state_corner_x.1, WIDTH_eq]; norm_num)
      (by rw [seed_state_corner_x.2]; norm_num [abs_le])
      (by
        rw [seed_state_corner_x.1, seed_state_corner_x.2]
        unfold float_add
        rw [show (0 : ℚ) + -5 = -5 by norm_num, round32_five.1]
        norm_num)).2.2.1⟩

/-! ## C16: no background survives the assignment -/

theorem palette_at_mem (k : Nat) : palette_at k ∈ palette := by
  unfold palette_at
  exact List.get_mem _ _ _

/-- C16: for seeds in `[0, WIDTH] x [0, HEIGHT]`, every distance `apply_next_seed` computes at a
pixel of the grid is obtained without overflow (the truncated binary32 differences `dx` and
`dy`, their squares and the sum all fit in `int`, so that `d` is the number
`dx * dx + dy * dy`) and satisfies `0 <= d < INT_MAX`; so the pass of seed 0 after the depth
reset writes every pixel, and after `render_voronoi_interesting` every pixel of the grid holds
a palette colour, whatever the image held before. -/
theorem C16_no_background (seed_positions : Nat → Vector2) (r : Raster)
    (hs : ∀ i, i < SEEDS_COUNT → seed_in_range (seed_positions i)) :
    (∀ i, i < SEEDS_COUNT → ∀ y x, in_bounds y x →
      ∃ dx dy : Int, dx = c_trunc (float_sub (x : ℚ) (seed_positions i).x) ∧
        dy = c_trunc (float_sub (y : ℚ) (seed_positions i).y) ∧
        (-2147483648 ≤ dx ∧ dx ≤ 2147483647) ∧ (-2147483648 ≤ dy ∧ dy ≤ 2147483647) ∧
        dx * dx ≤ 2147483647 ∧ dy * dy ≤ 2147483647 ∧
        seed_dist (seed_positions i) x y = dx * dx + dy * dy ∧
        0 ≤ seed_dist (seed_positions i) x y ∧ seed_dist (seed_positions i) x y < INT_MAX) ∧
    (∃ r0, reset_depth r = some r0 ∧
      ∃ r1, apply_next_seed seed_positions 0 r0 = some r1 ∧
        ∀ y x, in_bounds y x → r1.image y x = palette_at 0 ∧
          r1.depth y x = seed_dist (seed_positions 0) x y) ∧
    (∃ r', render_voronoi_interesting seed_positions r = some r' ∧
      ∀ y x, in_bounds y x → r'.image y x ∈ palette) := by
  refine ⟨?_, ?_, ?_⟩
  · intro i hi y x hb
    obtain ⟨⟨hx1, hx2⟩, ⟨hy1, hy2⟩⟩ := trunc_diff_bounds (seed_positions i) x y (hs i hi) hb
    have hd := seed_dist_eq (seed_positions i) x y (hs i hi) hb
    unfold trunc_diff_dist at hd
    refine ⟨c_trunc (float_sub (x : ℚ) (seed_positions i).x),
      c_trunc (float_sub (y : ℚ) (seed_positions i).y), rfl, rfl, ?_⟩
    generalize c_trunc (float_sub (x : ℚ) (seed_positions i).x) = dx at hx1 hx2 hd
    generalize c_trunc (float_sub (y : ℚ) (seed_positions i).y) = dy at hy1 hy2 hd
    have hxx : dx * dx ≤ 640000 := by nlinarith
    have hyy : dy * dy ≤ 360000 := by nlinarith
    have hxx0 := mul_self_nonneg dx
    have hyy0 := mul_self_nonneg dy
    refine ⟨⟨by omega, by omega⟩, ⟨by omega, by omega⟩, by omega, by omega, ?_, ?_, ?_⟩
    · rw [hd]; ring
    · rw [hd]; positivity
    · exact seed_dist_lt _ x y
  · obtain ⟨r0, hr0, _, hdep⟩ := reset_depth_cells r
    obtain ⟨r1, hr1, hget⟩ := apply_next_seed_cells seed_positions 0 r0
    refine ⟨r0, hr0, r1, hr1, ?_⟩
    intro y x hb
    have hg := hget y x
    have hlt : seed_dist (seed_positions 0) x y < r0.depth y x := by
      rw [hdep y x, if_pos hb]
      exact seed_dist_lt _ x y
    rw [if_pos ⟨hb, hlt⟩] at hg
    exact ⟨congrArg Prod.fst hg, congrArg Prod.snd hg⟩
  · obtain ⟨r', hr', hst⟩ := render_voronoi_interesting_state seed_positions r
    refine ⟨r', hr', ?_⟩
    intro y x hb
    obtain ⟨k, _, himg, _⟩ := hst y x hb
    rw [himg]
    exact palette_at_mem k

/-- Witness of C16: every seed at `(4826273 / 8192, 16515073 / 262144)`; the distance computed
at the pixel `(517, 128)` is `(-72) * (-72) + 65 * 65 = 9409`, and every pixel of the grid ends
with a palette colour. -/
theorem C16_no_background_witness :
    (∀ i, i < SEEDS_COUNT → seed_in_range (seeds_fine i)) ∧ in_bounds 128 517 ∧
    seed_dist (seeds_fine 0) 517 128 = 9409 ∧
    ∃ r', render_voronoi_interesting seeds_fine raster_zero = some r' ∧
      ∀ y x, in_bounds y x → r'.image y x ∈ palette := by
  have hs : ∀ i, i < SEEDS_COUNT → seed_in_range (seeds_fine i) :=
    fun i _ => seeds_fine_in_range i
  have hb : in_bounds 128 517 := by
    unfold in_bounds; rw [WIDTH_eq, HEIGHT_eq]; decide
  obtain ⟨h1, _, h3⟩ := C16_no_background seeds_fine raster_zero hs
  refine ⟨hs, hb, ?_, h3⟩
  obtain ⟨dx, dy, hdx, hdy, _, _, _, _, hd, _⟩ :=
    h1 0 (by rw [SEEDS_COUNT_eq]; decide) 128 517 hb
  rw [(trunc_diff_fine 0).1] at hdx
  rw [(trunc_diff_fine 0).2] at hdy
  rw [hd, hdx, hdy]
  decide

/-! ## C17: the composition of a frame -/

theorem palette_not_black (k : Nat) : palette_at k ≠ COLOR_BLACK := by
  have h : ∀ i : Fin palette_count, palette.get i ≠ COLOR_BLACK := by decide
  exact h ⟨k % palette_count, Nat.mod_lt k (by decide)⟩

/-- The truncated coordinates of a seed in range. -/
theorem trunc_coord_bounds (s : Vector2) (hs : seed_in_range s) :
    (0 ≤ c_trunc s.x ∧ c_trunc s.x ≤ 800) ∧ (0 ≤ c_trunc s.y ∧ c_trunc s.y ≤ 600) := by
  obtain ⟨hx1, hx2, hy1, hy2⟩ := hs
  rw [WIDTH_eq] at hx2
  rw [HEIGHT_eq] at hy2
  exact ⟨c_trunc_bounds s.x 0 800 (by omega) (by omega) (by push_cast; exact hx1)
      (by push_cast at *; exact hx2),
    c_trunc_bounds s.y 0 600 (by omega) (by omega) (by push_cast; exact hy1)
      (by push_cast at *; exact hy2)⟩

/-- The marker loop blackens the discs of radius 5 around the truncated seed positions and
leaves the other pixels alone. -/
theorem render_seed_markers_cells (seed_positions : Nat → Vector2) (image : Grid Color32)
    (hs : ∀ i, i < SEEDS_COUNT → seed_in_range (seed_positions i)) :
    ∃ image', render_seed_markers seed_positions image = some image' ∧
      ∀ y x,
        ((in_bounds y x ∧ ∃ i, i < SEEDS_COUNT ∧
            sq_dist_to (c_trunc (seed_positions i).x) (c_trunc (seed_positions i).y) x y ≤ 25) →
          image' y x = COLOR_BLACK) ∧
        (¬ (in_bounds y x ∧ ∃ i, i < SEEDS_COUNT ∧
            sq_dist_to (c_trunc (seed_positions i).x) (c_trunc (seed_positions i).y) x y ≤ 25) →
          image' y x = image y x) := by
  unfold render_seed_markers
  have h := for_count_inv
    (fun (i : Int) (image : Grid Color32) =>
      fill_circle (float_to_int (seed_positions i.toNat).x)
        (float_to_int (seed_positions i.toNat).y) SEED_MARKER_RADIUS SEED_MARKER_COLOR image)
    (fun j t => ∀ y x,
      ((in_bounds y x ∧ ∃ i : Nat, (i : Int) < j ∧
          sq_dist_to (c_trunc (seed_positions i).x) (c_trunc (seed_positions i).y) x y ≤ 25) →
        t y x = COLOR_BLACK) ∧
      (¬ (in_bounds y x ∧ ∃ i : Nat, (i : Int) < j ∧
          sq_dist_to (c_trunc (seed_positions i).x) (c_trunc (seed_positions i).y) x y ≤ 25) →
        t y x = image y x))
    SEEDS_COUNT 0 image
    (by
      intro y x
      refine ⟨?_, fun _ => rfl⟩
      rintro ⟨_, i, hi, _⟩
      omega)
    (by
      intro j t hj0 hj1 hInv
      have hjn : j.toNat < SEEDS_COUNT := by omega
      obtain ⟨⟨hx1, hx2⟩, ⟨hy1, hy2⟩⟩ := trunc_coord_bounds _ (hs j.toNat hjn)
      have hcx : float_to_int (seed_positions j.toNat).x = c_trunc (seed_positions j.toNat).x :=
        float_to_int_of_range _ (by omega) (by omega)
      have hcy : float_to_int (seed_positions j.toNat).y = c_trunc (seed_positions j.toNat).y :=
        float_to_int_of_range _ (by omega) (by omega)
      beta_reduce
      rw [hcx, hcy]
      have hr : SEED_MARKER_RADIUS = 5 := rfl
      obtain ⟨t', ht', hget⟩ := fill_circle_disc (c_trunc (seed_positions j.toNat).x)
        (c_trunc (seed_positions j.toNat).y) SEED_MARKER_RADIUS SEED_MARKER_COLOR t
        (by rw [hr]; decide) (by rw [hr]; decide) (by rw [hr]; omega) (by rw [hr]; omega)
        (by rw [hr]; omega) (by rw [hr]; omega)
      refine ⟨t', ht', ?_⟩
      intro y x
      have hg := hget y x
      rw [hr] at hg
      have h25 : ((5 : Int) ^ 2) = 25 := by norm_num
      rw [h25] at hg
      by_cases hdisc : in_bounds y x ∧
          (x - c_trunc (seed_positions j.toNat).x) ^ 2 +
            (y - c_trunc (seed_positions j.toNat).y) ^ 2 ≤ 25
      · rw [if_pos hdisc] at hg
        refine ⟨fun _ => hg, fun hno => ?_⟩
        exact absurd ⟨hdisc.1, j.toNat, by omega, hdisc.2⟩ hno
      · rw [if_neg hdisc] at hg
        rw [hg]
        constructor
        · rintro ⟨hb, i, hi, hd⟩
          have hij : (i : Int) < j := by
            by_contra hge
            have : i = j.toNat := by omega
            rw [this] at hd
            exact hdisc ⟨hb, hd⟩
          exact (hInv y x).1 ⟨hb, i, hij, hd⟩
        · intro hno
          apply (hInv y x).2
          rintro ⟨hb, i, hi, hd⟩
          exact hno ⟨hb, i, by omega, hd⟩)
  obtain ⟨image', h', hfin⟩ := h
  refine ⟨image', h', ?_⟩
  intro y x
  constructor
  · rintro ⟨hb, i, hi, hd⟩
    exact (hfin y x).1 ⟨hb, i, by omega, hd⟩
  · intro hno
    apply (hfin y x).2
    rintro ⟨hb, i, hi, hd⟩
    exact hno ⟨hb, i, by omega, hd⟩

/-- A frame, for seeds in range: the Voronoi colours with the marker discs on top. -/
theorem render_frame_cells (seed_positions : Nat → Vector2) (r : Raster)
    (hs : ∀ i, i < SEEDS_COUNT → seed_in_range (seed_positions i)) :
    ∃ image1 r2 r3, fill_image BACKGROUND_COLOR r.image = some image1 ∧
      render_voronoi_interesting seed_positions { r with image := image1 } = some r2 ∧
      render_frame seed_positions r = some r3 ∧
      ∀ y x, in_bounds y x →
        (r3.image y x = COLOR_BLACK ↔ ∃ i, i < SEEDS_COUNT ∧
          sq_dist_to (c_trunc (seed_positions i).x) (c_trunc (seed_positions i).y) x y ≤ 25) ∧
        (r3.image y x ≠ COLOR_BLACK → r3.image y x = r2.image y x) := by
  obtain ⟨image1, h1, _⟩ := fill_image_cells BACKGROUND_COLOR r.image
  obtain ⟨r2, h2, hst⟩ := render_voronoi_interesting_state seed_positions
    { r with image := image1 }
  obtain ⟨image3, h3, hm⟩ := render_seed_markers_cells seed_positions r2.image hs
  refine ⟨image1, r2, { r2 with image := image3 }, h1, h2, ?_, ?_⟩
  · unfold render_frame
    rw [h1, Option.some_bind, h2, Option.some_bind, h3, Option.some_bind]
  · intro y x hb
    obtain ⟨k, _, himg, _⟩ := hst y x hb
    by_cases hd : ∃ i, i < SEEDS_COUNT ∧
        sq_dist_to (c_trunc (seed_positions i).x) (c_trunc (seed_positions i).y) x y ≤ 25
    · have hblack : image3 y x = COLOR_BLACK := (hm y x).1 ⟨hb, hd⟩
      exact ⟨⟨fun _ => hd, fun _ => hblack⟩, fun hne => absurd hblack hne⟩
    · have hkeep : image3 y x = r2.image y x := (hm y x).2 (fun h => hd h.2)
      refine ⟨⟨fun hbl => ?_, fun h => absurd h hd⟩, fun _ => hkeep⟩
      have : palette_at k = COLOR_BLACK := by rw [← himg, ← hkeep]; exact hbl
      exact absurd this (palette_not_black k)

theorem seeds_frac_xy (i : Nat) : (seeds_frac i).x = 43 / 4 ∧ (seeds_frac i).y = 10 := by
  have h10 := round32_natCast 10 (by norm_num)
  simp only [Nat.cast_ofNat] at h10
  exact ⟨round32_exact _ ⟨43, -2, by norm_num, by norm_num, by norm_num⟩, h10⟩

theorem seeds_frac_in_range (i : Nat) : seed_in_range (seeds_frac i) := by
  unfold seed_in_range
  rw [(seeds_frac_xy i).1, (seeds_frac_xy i).2, WIDTH_eq, HEIGHT_eq]
  norm_num

/-- C17, counterexample: with every seed at `(10.75, 10)` the pixel `(16, 10)` is at squared
distance 25 from the rounded position `(11, 10)`, yet the frame does not leave the marker colour
there. -/
theorem C17_counterexample :
    ∃ r3, render_frame seeds_frac raster_zero = some r3 ∧ in_bounds 10 16 ∧
      (∃ i, i < SEEDS_COUNT ∧
        ((16 : Int) - round (seeds_frac i).x) ^ 2 + ((10 : Int) - round (seeds_frac i).y) ^ 2
          ≤ 25) ∧
      r3.image 10 16 ≠ 0xFF000000 := by
  obtain ⟨_, _, r3, _, _, h3, hcells⟩ :=
    render_frame_cells seeds_frac raster_zero (fun i _ => seeds_frac_in_range i)
  have hb : in_bounds 10 16 := by
    unfold in_bounds; rw [WIDTH_eq, HEIGHT_eq]; decide
  refine ⟨r3, h3, hb, ⟨0, by rw [SEEDS_COUNT_eq]; decide, ?_⟩, ?_⟩
  · have hx : round ((43 : ℚ) / 4) = 11 := by
      rw [round_eq, Int.floor_eq_iff]; norm_num
    have hy : round (10 : ℚ) = 10 := by
      rw [round_eq, Int.floor_eq_iff]; norm_num
    rw [(seeds_frac_xy 0).1, (seeds_frac_xy 0).2, hx, hy]
    decide
  · intro hbl
    obtain ⟨i, _, hd⟩ := (hcells 10 16 hb).1.mp hbl
    have hx : c_trunc ((43 : ℚ) / 4) = 10 := by
      unfold c_trunc; rw [if_pos (by norm_num), Int.floor_eq_iff]; norm_num
    have hy : c_trunc (10 : ℚ) = 10 := by
      unfold c_trunc; rw [if_pos (by norm_num), Int.floor_eq_iff]; norm_num
    unfold sq_dist_to at hd
    rw [(seeds_frac_xy i).1, (seeds_frac_xy i).2, hx, hy] at hd
    exact absurd hd (by decide)

/-- C17, amended: for seeds in `[0, WIDTH] x [0, HEIGHT]`, after
`fill_image(BACKGROUND_COLOR); render_voronoi_interesting(); render_seed_markers()` a pixel
`(x, y)` of the grid has the marker colour `0xFF000000` if and only if its squared distance to
the truncated position of some seed (each coordinate truncated toward zero) is at most 25, and
every other pixel keeps the colour the Voronoi assignment gave it. -/
theorem C17_frame_composition (seed_positions : Nat → Vector2) (r : Raster)
    (hs : ∀ i, i < SEEDS_COUNT → seed_in_range (seed_positions i)) :
    ∃ image1 r2 r3, fill_image BACKGROUND_COLOR r.image = some image1 ∧
      render_voronoi_interesting seed_positions { r with image := image1 } = some r2 ∧
      render_frame seed_positions r = some r3 ∧
      ∀ y x, in_bounds y x →
        (r3.image y x = 0xFF000000 ↔ ∃ i, i < SEEDS_COUNT ∧
          (x - c_trunc (seed_positions i).x) ^ 2 + (y - c_trunc (seed_positions i).y) ^ 2
            ≤ 25) ∧
        (r3.image y x ≠ 0xFF000000 → r3.image y x = r2.image y x) := by
  obtain ⟨image1, r2, r3, h1, h2, h3, hcells⟩ := render_frame_cells seed_positions r hs
  exact ⟨image1, r2, r3, h1, h2, h3, hcells⟩

/-- Witness of C17: every seed at `(10.75, 10)`. -/
theorem C17_frame_composition_witness :
    (∀ i, i < SEEDS_COUNT → seed_in_range (seeds_frac i)) ∧
    ∃ image1 r2 r3, fill_image BACKGROUND_COLOR raster_zero.image = some image1 ∧
      render_voronoi_interesting seeds_frac { raster_zero with image := image1 } = some r2 ∧
      render_frame seeds_frac raster_zero = some r3 ∧
      ∀ y x, in_bounds y x →
        (r3.image y x = 0xFF000000 ↔ ∃ i, i < SEEDS_COUNT ∧
          (x - c_trunc (seeds_frac i).x) ^ 2 + (y - c_trunc (seeds_frac i).y) ^ 2 ≤ 25) ∧
        (r3.image y x ≠ 0xFF000000 → r3.image y x = r2.image y x) :=
  ⟨fun i _ => seeds_frac_in_range i,
    C17_frame_composition seeds_frac raster_zero (fun i _ => seeds_frac_in_range i)⟩

/-! ## C18: the motion loop preserves speed -/

/-- One tick keeps or negates each velocity component of every seed. -/
theorem move_seeds_velocity (s : SeedState) (i : Nat) :
    (((move_seeds s).velocities i).x = (s.velocities i).x ∨
      ((move_seeds s).velocities i).x = -(s.velocities i).x) ∧
    (((move_seeds s).velocities i).y = (s.velocities i).y ∨
      ((move_seeds s).velocities i).y = -(s.velocities i).y) := by
  by_cases hi : i < SEEDS_COUNT
  · obtain ⟨_, hvx⟩ := move_seeds_x s i hi
    obtain ⟨_, hvy⟩ := move_seeds_y s i hi
    rw [hvx, hvy]
    constructor
    · by_cases hc : 0 ≤ float_add (s.positions i).x (s.velocities i).x ∧
          float_add (s.positions i).x (s.velocities i).x ≤ (WIDTH : ℚ)
      · rw [if_pos hc]; exact Or.inl rfl
      · rw [if_neg hc]; exact Or.inr rfl
    · by_cases hc : 0 ≤ float_add (s.positions i).y (s.velocities i).y ∧
          float_add (s.positions i).y (s.velocities i).y ≤ (HEIGHT : ℚ)
      · rw [if_pos hc]; exact Or.inl rfl
      · rw [if_neg hc]; exact Or.inr rfl
  · have h := ((move_seeds_fold s SEEDS_COUNT i).2 (by omega)).2
    have h' : (move_seeds s).velocities i = s.velocities i := h
    rw [h']
    exact ⟨Or.inl rfl, Or.inl rfl⟩

theorem move_seeds_abs (s : SeedState) (i : Nat) :
    |((move_seeds s).velocities i).x| = |(s.velocities i).x| ∧
    |((move_seeds s).velocities i).y| = |(s.velocities i).y| := by
  obtain ⟨hx, hy⟩ := move_seeds_velocity s i
  constructor
  · rcases hx with h | h
    · rw [h]
    · rw [h, abs_neg]
  · rcases hy with h | h
    · rw [h]
    · rw [h, abs_neg]

theorem ticks_abs (s : SeedState) (i : Nat) (n : Nat) :
    |((ticks n s).velocities i).x| = |(s.velocities i).x| ∧
    |((ticks n s).velocities i).y| = |(s.velocities i).y| := by
  induction n with
  | zero => exact ⟨rfl, rfl⟩
  | succ n ih =>
    rw [ticks_succ]
    obtain ⟨hx, hy⟩ := move_seeds_abs (ticks n s) i
    exact ⟨hx.trans ih.1, hy.trans ih.2⟩

/-- C18: a tick of the motion loop either keeps or exactly negates each velocity component of
every seed, so `|velocity.x|` and `|velocity.y|` are the same after the tick as before; hence
after any number of ticks both absolute values, and the squared speed, are those of the
initial state, and a non-zero component never becomes zero. -/
theorem C18_speed_preserved (s : SeedState) (i : Nat) :
    ((((move_seeds s).velocities i).x = (s.velocities i).x ∨
        ((move_seeds s).velocities i).x = -(s.velocities i).x) ∧
      (((move_seeds s).velocities i).y = (s.velocities i).y ∨
        ((move_seeds s).velocities i).y = -(s.velocities i).y)) ∧
    (|((move_seeds s).velocities i).x| = |(s.velocities i).x| ∧
      |((move_seeds s).velocities i).y| = |(s.velocities i).y|) ∧
    (∀ n : Nat,
      |((ticks n s).velocities i).x| = |(s.velocities i).x| ∧
      |((ticks n s).velocities i).y| = |(s.velocities i).y| ∧
      ((ticks n s).velocities i).x ^ 2 + ((ticks n s).velocities i).y ^ 2 =
        (s.velocities i).x ^ 2 + (s.velocities i).y ^ 2 ∧
      ((s.velocities i).x ≠ 0 → ((ticks n s).velocities i).x ≠ 0) ∧
      ((s.velocities i).y ≠ 0 → ((ticks n s).velocities i).y ≠ 0)) := by
  refine ⟨move_seeds_velocity s i, move_seeds_abs s i, ?_⟩
  intro n
  obtain ⟨hx, hy⟩ := ticks_abs s i n
  refine ⟨hx, hy, ?_, ?_, ?_⟩
  · rw [← sq_abs ((ticks n s).velocities i).x, ← sq_abs ((ticks n s).velocities i).y, hx, hy,
      sq_abs, sq_abs]
  · intro hne h0
    rw [h0, abs_zero] at hx
    exact hne (abs_eq_zero.mp hx.symm)
  · intro hne h0
    rw [h0, abs_zero] at hy
    exact hne (abs_eq_zero.mp hy.symm)

/-! ## C19: packing a point into a colour and back -/

theorem and_shift_mask16 (p : Nat) : (p &&& 0xFFFF0000) >>> 16 = p / 65536 % 65536 := by
  have hm : (0xFFFF0000 : Nat) = (2 ^ 16 - 1) <<< 16 := by decide
  have h16 : (65536 : Nat) = 2 ^ 16 := by norm_num
  apply Nat.eq_of_testBit_eq
  intro i
  rw [hm, h16, Nat.testBit_shiftRight, Nat.testBit_and, Nat.testBit_shiftLeft,
    Nat.testBit_mod_two_pow, ← Nat.shiftRight_eq_div_pow, Nat.testBit_shiftRight,
    Nat.testBit_two_pow_sub_one]
  simp
  by_cases h : i < 16 <;> simp [h]

theorem and_mask16 (p : Nat) : (p &&& 0x0000FFFF) >>> 0 = p % 65536 := by
  have := Nat.and_pow_two_sub_one_eq_mod p 16
  simpa using this

theorem pack_eq (x y : Nat) (hx : x < 65536) (hy : y < 65536) :
    ((y <<< 16) ||| x) % 2 ^ 32 = y * 65536 + x := by
  have hx' : x < 2 ^ 16 := by norm_num; exact hx
  have h : y <<< 16 ||| x = 2 ^ 16 * y + x := by
    rw [Nat.shiftLeft_eq, Nat.mul_comm]
    exact (Nat.mul_add_lt_is_or hx' y).symm
  rw [h]
  have h16 : (2 : Nat) ^ 16 = 65536 := by norm_num
  have h32 : (2 : Nat) ^ 32 = 4294967296 := by norm_num
  rw [h16, h32]
  omega

/-- C19: for a point with `0 <= x < 65535` and `0 <= y < 65535` (the range the assertions of
`point_to_color` accept), `point_to_color` returns `y * 65536 + x`, a 32-bit value, and
`color_to_point` maps it back to the point. -/
theorem C19_point_roundtrip (p : Point) (hx0 : 0 ≤ p.x) (hx1 : p.x < 65535) (hy0 : 0 ≤ p.y)
    (hy1 : p.y < 65535) :
    ∃ c, point_to_color p = some c ∧ (c : Int) = p.y * 65536 + p.x ∧ c < 2 ^ 32 ∧
      color_to_point c = p := by
  have hX : (p.x % 65536).toNat < 65536 := by omega
  have hY : (p.y % 65536).toNat < 65536 := by omega
  have hXv : (((p.x % 65536).toNat : Nat) : Int) = p.x := by omega
  have hYv : (((p.y % 65536).toNat : Nat) : Int) = p.y := by omega
  have hlt : (p.y % 65536).toNat * 65536 + (p.x % 65536).toNat < 4294967296 := by
    generalize (p.y % 65536).toNat = Y at hY
    generalize (p.x % 65536).toNat = X at hX
    omega
  have hpack := pack_eq (p.x % 65536).toNat (p.y % 65536).toNat hX hY
  refine ⟨(p.y % 65536).toNat * 65536 + (p.x % 65536).toNat, ?_, ?_, ?_, ?_⟩
  · unfold point_to_color UINT16_MAX
    rw [if_pos ⟨hx0, hy0, hx1, hy1⟩]
    exact congrArg some hpack
  · push_cast
    rw [hXv, hYv]
  · have h32 : (2 : Nat) ^ 32 = 4294967296 := by norm_num
    rw [h32]
    exact hlt
  · unfold color_to_point
    rw [and_mask16, and_shift_mask16]
    have e1 : ((p.y % 65536).toNat * 65536 + (p.x % 65536).toNat) % 65536
        = (p.x % 65536).toNat := by omega
    have e2 : ((p.y % 65536).toNat * 65536 + (p.x % 65536).toNat) / 65536 % 65536
        = (p.y % 65536).toNat := by omega
    rw [e1, e2, hXv, hYv, wrap32_of_range p.x (by omega) (by omega),
      wrap32_of_range p.y (by omega) (by omega)]

/-- Witness of C19: the point `(3, 4)`. -/
theorem C19_point_roundtrip_witness :
    (0 : Int) ≤ 3 ∧ (3 : Int) < 65535 ∧ (0 : Int) ≤ 4 ∧ (4 : Int) < 65535 ∧
    ∃ c, point_to_color { x := 3, y := 4 } = some c ∧
      (c : Int) = (4 : Int) * 65536 + 3 ∧ c < 2 ^ 32 ∧
      color_to_point c = { x := 3, y := 4 } :=
  ⟨by decide, by decide, by decide, by decide,
    C19_point_roundtrip { x := 3, y := 4 } (by decide) (by decide) (by decide) (by decide)⟩

end Coronoi
